import Mathlib

/-!
# The programs of the repository: crawler, string unpacker, sort and grep

Shallow embeddings of four programs of the repository, each in a namespace
of its own, the definitions first and the theorems after them:

* `Wget`: the site-mirroring crawler of `2-13/2-13.go`: the string and URL
  helpers, the link extractor, the link rewriter, the path mapping of
  `saveResource`, and the worker pool as a step function over an explicit
  state;
* `StrUnpack`: the function `Unpack` of `2-9/2-9.go`;
* `SortUtil`: the sort utility of `2-10/2-10.go`, over `GoSort`, the stable
  sort of Go's package `sort`, embedded from its algorithm;
* `GrepUtil`: the function `grep` of `2-12/2-12.go`.

Conventions.
* A Go `string` is a sequence of bytes; it is embedded as `List Char`, one
  `Char` per byte, and UTF-8 is decoded and encoded as Go does (`decodeRune`,
  `encodeRune`).
* `strings.ToLower` is `goToLower`: the fast path `toLower` on text that is
  all ASCII, and `strings.Map` with `unicode.ToLower` on any other text; the
  case table of `unicode` beyond ASCII is a parameter (the field `lowerCase`
  of the `World` of a crawl).
* A slice expression with bounds out of range panics. The functions of the
  crawler that slice at an index found in a lower-cased copy (`extractLinks`,
  `replaceLinksInTag` and their callers) return an `Option`, `none` being the
  panic; in a crawl the panic of a worker ends the process.
* Go's `int` values of the crawler (depths, the worker count) are embedded
  as `Int`; the only arithmetic there is `task.Depth + 1` under the guard
  `task.Depth < config.MaxDepth`, which cannot overflow. Where the source
  adds or subtracts unguarded values (`grep`), the result is wrapped to 64
  bits.
* The standard library functions the source calls (`net/url`,
  `path/filepath`, `strings`, `sort`) are embedded from their Go
  definitions, for the Unix path separator. Tables of the library
  (`unicode`, `strconv.ParseFloat`) and the iteration order of a Go map are
  parameters of the definitions that use them.
-/

namespace Wget

/-- A Go string, as its list of bytes. -/
abbrev Str := List Char

/-! ## Package `strings` -/

/-- Go `strings.HasPrefix`. -/
def hasPrefix (s p : Str) : Bool := p.isPrefixOf s

/-- Go `strings.HasSuffix`. -/
def hasSuffix (s p : Str) : Bool := p.reverse.isPrefixOf s.reverse

/-- The fast path of Go `strings.ToLower`, for text that is all ASCII: the
letters `A` to `Z` are lowered byte by byte (`goToLower` is the whole
function). -/
def toLower (s : Str) : Str := s.map Char.toLower

/-- Go `strings.Index`: the position of the first occurrence of `sub` in `s`;
`none` stands for `-1`. -/
def index : Str → Str → Option Nat
  | [], sub => if sub.isEmpty then some 0 else none
  | c :: cs, sub =>
    if sub.isPrefixOf (c :: cs) then some 0 else (index cs sub).map (· + 1)

/-- Go `strings.Contains`. -/
def contains (s sub : Str) : Bool := (index s sub).isSome

/-- Go `strings.LastIndexByte`; `none` stands for `-1`. -/
def lastIndexByte : Str → Char → Option Nat
  | [], _ => none
  | c :: cs, b =>
    match lastIndexByte cs b with
    | some i => some (i + 1)
    | none => if c = b then some 0 else none

/-- Go `strings.Cut` with a one-byte separator: the text before and after the
first separator (the whole string and the empty string when there is none). -/
def cut : Str → Char → Str × Str
  | [], _ => ([], [])
  | c :: cs, sep =>
    if c = sep then ([], cs) else ((c :: (cut cs sep).1), (cut cs sep).2)

/-- The Go slice expression `s[a:b]`. -/
def slice (s : Str) (a b : Nat) : Str := (s.drop a).take (b - a)

/-- The loop `for e < len(s) && !stop(s[e]) { e++ }` started at `e = i`. -/
def scanUntil (s : Str) (i : Nat) (stop : Char → Bool) : Nat :=
  i + ((s.drop i).takeWhile (fun c => !stop c)).length

/-- The pieces of `s` between the separators `sep` (the successive `elem`
values of a loop of `strings.Cut` calls). -/
def splitOnByte : Str → Char → List Str
  | [], _ => [[]]
  | c :: cs, sep =>
    if c = sep then [] :: splitOnByte cs sep
    else
      match splitOnByte cs sep with
      | [] => [[c]]
      | x :: xs => (c :: x) :: xs

/-- Go `strings.Join` with the separator `/`. -/
def joinSlash : List Str → Str
  | [] => []
  | [x] => x
  | x :: y :: xs => x ++ '/' :: joinSlash (y :: xs)

/-! ## Package `strings`: `ToLower` beyond ASCII, and slices with their bounds

A `Str` holds one `Char` for every byte, the code of the `Char` being the
byte. `strings.ToLower` decodes the bytes as UTF-8 when one of them is not
ASCII; a slice expression panics when its bounds are out of range. -/

/-- Go `utf8.RuneError`, U+FFFD. -/
def runeError : Nat := 0xFFFD

/-- Go `utf8.DecodeRuneInString`: the rune at the head of the bytes and its
width. An encoding that is invalid or cut short gives `RuneError` with width
1, the empty string gives `RuneError` with width 0. -/
def decodeRune (s : Str) : Nat × Nat :=
  match s.map Char.toNat with
  | [] => (runeError, 0)
  | s0 :: rest =>
    if s0 < 0x80 then (s0, 1)
    else if s0 < 0xC2 || 0xF4 < s0 then (runeError, 1)
    else
      let sz := if s0 < 0xE0 then 2 else if s0 < 0xF0 then 3 else 4
      let lo := if s0 = 0xE0 then 0xA0 else if s0 = 0xF0 then 0x90 else 0x80
      let hi := if s0 = 0xED then 0x9F else if s0 = 0xF4 then 0x8F else 0xBF
      if rest.length + 1 < sz then (runeError, 1)
      else
        match rest with
        | [] => (runeError, 1)
        | s1 :: rest =>
          if s1 < lo || hi < s1 then (runeError, 1)
          else if sz ≤ 2 then (s0 % 32 * 64 + s1 % 64, 2)
          else
            match rest with
            | [] => (runeError, 1)
            | s2 :: rest =>
              if s2 < 0x80 || 0xBF < s2 then (runeError, 1)
              else if sz ≤ 3 then (s0 % 16 * 4096 + s1 % 64 * 64 + s2 % 64, 3)
              else
                match rest with
                | [] => (runeError, 1)
                | s3 :: _ =>
                  if s3 < 0x80 || 0xBF < s3 then (runeError, 1)
                  else (s0 % 8 * 262144 + s1 % 64 * 4096 + s2 % 64 * 64 + s3 % 64, 4)

/-- The bytes `utf8.AppendRune` writes for the rune `r`; a surrogate or a
value above `MaxRune` is written as `RuneError`. -/
def encodeRune (r : Nat) : Str :=
  if r ≤ 0x7F then [Char.ofNat r]
  else if r ≤ 0x7FF then [Char.ofNat (0xC0 + r / 64), Char.ofNat (0x80 + r % 64)]
  else if 0x10FFFF < r || (0xD800 ≤ r && r ≤ 0xDFFF) then
    [Char.ofNat 0xEF, Char.ofNat 0xBF, Char.ofNat 0xBD]
  else if r ≤ 0xFFFF then
    [Char.ofNat (0xE0 + r / 4096), Char.ofNat (0x80 + r / 64 % 64), Char.ofNat (0x80 + r % 64)]
  else
    [Char.ofNat (0xF0 + r / 262144), Char.ofNat (0x80 + r / 4096 % 64),
      Char.ofNat (0x80 + r / 64 % 64), Char.ofNat (0x80 + r % 64)]

/-- The second loop of Go `strings.Map`: every rune of the rest is mapped and
written, unless it is mapped to a negative value. -/
def mapRest (mapping : Nat → Int) : Nat → Str → Str
  | 0, _ => []
  | fuel + 1, s =>
    if s = [] then []
    else
      let d := decodeRune s
      let r := mapping d.1
      (if 0 ≤ r then encodeRune r.toNat else []) ++ mapRest mapping fuel (s.drop d.2)

/-- The first loop of Go `strings.Map`: the bytes are kept up to the first
rune that the mapping changes or that is an invalid byte; from there on the
output is built rune by rune. -/
def mapScan (mapping : Nat → Int) : Nat → Str → Str
  | 0, _ => []
  | fuel + 1, s =>
    if s = [] then []
    else
      let d := decodeRune s
      let r := mapping d.1
      if r = d.1 ∧ (d.1 ≠ runeError ∨ d.2 ≠ 1) then
        s.take d.2 ++ mapScan mapping fuel (s.drop d.2)
      else (if 0 ≤ r then encodeRune r.toNat else []) ++ mapRest mapping fuel (s.drop d.2)

/-- Go `strings.Map`; every round consumes at least one byte. -/
def goMap (mapping : Nat → Int) (s : Str) : Str := mapScan mapping s.length s

/-- Go `unicode.ToLower`: arithmetic on ASCII, and for every other rune the
lookup in the table `unicode.CaseRanges`, which is the parameter
`lowerCase`. -/
def unicodeToLower (lowerCase : Nat → Int) (r : Nat) : Int :=
  if r ≤ 0x7F then (if 0x41 ≤ r ∧ r ≤ 0x5A then r + 0x20 else r) else lowerCase r

/-- Go `strings.ToLower` on bytes: text that is all ASCII is lowered byte by
byte, any other text goes through `strings.Map` with `unicode.ToLower`. -/
def goToLower (lowerCase : Nat → Int) (s : Str) : Str :=
  if s.all (fun c => c.toNat < 0x80) then toLower s
  else goMap (unicodeToLower lowerCase) s

/-- The slice `s[a:]`; `none` is the run-time panic "slice bounds out of
range". -/
def sliceFrom? (s : Str) (a : Nat) : Option Str :=
  if a ≤ s.length then some (s.drop a) else none

/-- The slice `s[a:b]`; `none` is the run-time panic. -/
def slice? (s : Str) (a b : Nat) : Option Str :=
  if a ≤ b ∧ b ≤ s.length then some (slice s a b) else none

/-! ## Package `net/url` -/

/-- Go `url.Userinfo`. -/
structure Userinfo where
  username : Str
  password : Option Str
deriving DecidableEq, Repr

/-- Go `url.URL`. -/
structure URL where
  Scheme : Str := []
  Opaque : Str := []
  User : Option Userinfo := none
  Host : Str := []
  Path : Str := []
  RawPath : Str := []
  OmitHost : Bool := false
  ForceQuery : Bool := false
  RawQuery : Str := []
  Fragment : Str := []
  RawFragment : Str := []
deriving DecidableEq, Repr

/-- The escaping modes of `net/url` that parsing and printing a URL use. -/
inductive Encoding
  | encodePath
  | encodeHost
  | encodeUserPassword
  | encodeFragment
deriving DecidableEq, Repr

def isAlnum (c : Char) : Bool :=
  ('a' ≤ c && c ≤ 'z') || ('A' ≤ c && c ≤ 'Z') || ('0' ≤ c && c ≤ '9')

/-- Go `url.shouldEscape`. -/
def shouldEscape (c : Char) (mode : Encoding) : Bool :=
  if isAlnum c then false
  else if mode = .encodeHost &&
      "!$&'()*+,;=:[]<>\"".toList.elem c then false
  else if "-_.~".toList.elem c then false
  else if "$&+,/:;=?@".toList.elem c then
    match mode with
    | .encodePath => c == '?'
    | .encodeUserPassword => c == '@' || c == '/' || c == '?' || c == ':'
    | .encodeFragment => false
    | .encodeHost => true
  else if mode = .encodeFragment && "!()*".toList.elem c then false
  else true

def ishex (c : Char) : Bool :=
  ('0' ≤ c && c ≤ '9') || ('a' ≤ c && c ≤ 'f') || ('A' ≤ c && c ≤ 'F')

def unhex (c : Char) : Nat :=
  if '0' ≤ c && c ≤ '9' then c.toNat - '0'.toNat
  else if 'a' ≤ c && c ≤ 'f' then c.toNat - 'a'.toNat + 10
  else if 'A' ≤ c && c ≤ 'F' then c.toNat - 'A'.toNat + 10
  else 0

/-- Go `url.unescape` for the modes of `Encoding`: `none` is an error. -/
def unescape : Str → Encoding → Option Str
  | [], _ => some []
  | '%' :: a :: b :: rest, mode =>
    if !(ishex a && ishex b) then none
    else if mode = .encodeHost && unhex a < 8 && (a, b) ≠ ('2', '5') then none
    else (unescape rest mode).map (Char.ofNat (unhex a * 16 + unhex b) :: ·)
  | '%' :: _, _ => none
  | c :: rest, mode =>
    if mode = .encodeHost && c.toNat < 128 && shouldEscape c .encodeHost then none
    else (unescape rest mode).map (c :: ·)

def upperhex (n : Nat) : Char := "0123456789ABCDEF".toList.getD n '0'

/-- Go `url.escape` for the modes of `Encoding`. -/
def escape (s : Str) (mode : Encoding) : Str :=
  s.flatMap fun c =>
    if shouldEscape c mode then ['%', upperhex (c.toNat / 16), upperhex (c.toNat % 16)]
    else [c]

/-- Go `url.validEncoded`. -/
def validEncoded (s : Str) (mode : Encoding) : Bool :=
  s.all fun c => "!$&'()*+,;=:@[]%".toList.elem c || !shouldEscape c mode

/-- Go `url.getScheme`: the scheme and the rest, `none` for the error
"missing protocol scheme". -/
def getSchemeLoop (rawURL : Str) : Nat → Str → Option (Str × Str)
  | _, [] => some ([], rawURL)
  | i, c :: cs =>
    if ('a' ≤ c && c ≤ 'z') || ('A' ≤ c && c ≤ 'Z') then getSchemeLoop rawURL (i + 1) cs
    else if ('0' ≤ c && c ≤ '9') || c == '+' || c == '-' || c == '.' then
      if i = 0 then some ([], rawURL) else getSchemeLoop rawURL (i + 1) cs
    else if c == ':' then
      if i = 0 then none else some (rawURL.take i, rawURL.drop (i + 1))
    else some ([], rawURL)

def getScheme (rawURL : Str) : Option (Str × Str) := getSchemeLoop rawURL 0 rawURL

/-- Go `url.validOptionalPort`. -/
def validOptionalPort : Str → Bool
  | [] => true
  | c :: ds => c == ':' && ds.all fun b => '0' ≤ b && b ≤ '9'

/-- Go `url.parseHost`, for hosts without an IPv6 zone (`%25`), which the
embedding rejects. -/
def parseHost (host : Str) : Option Str :=
  if hasPrefix host ['['] then
    match lastIndexByte host ']' with
    | none => none
    | some i =>
      if !validOptionalPort (host.drop (i + 1)) then none
      else if contains (host.take i) "%25".toList then none
      else unescape host .encodeHost
  else
    match lastIndexByte host ':' with
    | some i => if !validOptionalPort (host.drop i) then none else unescape host .encodeHost
    | none => unescape host .encodeHost

/-- Go `url.validUserinfo`. -/
def validUserinfo (s : Str) : Bool :=
  s.all fun c => isAlnum c || "-._:~!$&'()*+,;=%@".toList.elem c

/-- Go `url.parseAuthority`. -/
def parseAuthority (authority : Str) : Option (Option Userinfo × Str) :=
  match lastIndexByte authority '@' with
  | none => (parseHost authority).map fun h => (none, h)
  | some i =>
    match parseHost (authority.drop (i + 1)) with
    | none => none
    | some host =>
      let userinfo := authority.take i
      if !validUserinfo userinfo then none
      else if !contains userinfo [':'] then
        (unescape userinfo .encodeUserPassword).map fun u => (some ⟨u, none⟩, host)
      else
        match unescape (cut userinfo ':').1 .encodeUserPassword,
              unescape (cut userinfo ':').2 .encodeUserPassword with
        | some u, some p => some (some ⟨u, some p⟩, host)
        | _, _ => none

/-- Go `(*URL).setPath`. -/
def URL.setPath (u : URL) (p : Str) : Option URL :=
  (unescape p .encodePath).map fun path =>
    { u with Path := path, RawPath := if p = escape path .encodePath then [] else p }

/-- Go `(*URL).setFragment`. -/
def URL.setFragment (u : URL) (f : Str) : Option URL :=
  (unescape f .encodeFragment).map fun frag =>
    { u with Fragment := frag, RawFragment := if f = escape frag .encodeFragment then [] else f }

/-- Go `url.parse(rawURL, false)`: a URL without its fragment. -/
def parseNoFragment (rawURL : Str) : Option URL :=
  if rawURL.any (fun b => b.toNat < 32 || b.toNat = 127) then none
  else if rawURL = ['*'] then some { Path := ['*'] }
  else
    match getScheme rawURL with
    | none => none
    | some (scheme, rest0) =>
      let force := hasSuffix rest0 ['?'] && rest0.count '?' == 1
      let rest := if force then rest0.dropLast else (cut rest0 '?').1
      let url : URL :=
        { Scheme := toLower scheme, ForceQuery := force,
          RawQuery := if force then [] else (cut rest0 '?').2 }
      if !hasPrefix rest ['/'] && url.Scheme ≠ [] then some { url with Opaque := rest }
      else if !hasPrefix rest ['/'] && contains (cut rest '/').1 [':'] then none
      else if (url.Scheme ≠ [] || !hasPrefix rest "///".toList) && hasPrefix rest "//".toList then
        let authority := rest.drop 2
        match index authority ['/'] with
        | some i =>
          (parseAuthority (authority.take i)).bind fun (user, host) =>
            { url with User := user, Host := host }.setPath (authority.drop i)
        | none =>
          (parseAuthority authority).bind fun (user, host) =>
            { url with User := user, Host := host }.setPath []
      else if url.Scheme ≠ [] && hasPrefix rest ['/'] then
        { url with OmitHost := true }.setPath rest
      else url.setPath rest

/-- Go `url.Parse`; `none` is a parse error. -/
def Parse (rawURL : Str) : Option URL :=
  match index rawURL ['#'] with
  | none => parseNoFragment rawURL
  | some i =>
    (parseNoFragment (rawURL.take i)).bind fun url =>
      if rawURL.drop (i + 1) = [] then some url else url.setFragment (rawURL.drop (i + 1))

/-- Go `(*URL).IsAbs`. -/
def URL.IsAbs (u : URL) : Bool := u.Scheme ≠ []

/-- Go `(*URL).Hostname`: the host without a valid port and without the
brackets of an IPv6 literal. -/
def URL.Hostname (u : URL) : Str :=
  let host :=
    match lastIndexByte u.Host ':' with
    | some colon => if validOptionalPort (u.Host.drop colon) then u.Host.take colon else u.Host
    | none => u.Host
  if hasPrefix host ['['] && hasSuffix host [']'] then (host.drop 1).dropLast else host

/-- Go `(*URL).EscapedPath`. -/
def URL.EscapedPath (u : URL) : Str :=
  if u.RawPath ≠ [] && validEncoded u.RawPath .encodePath &&
      unescape u.RawPath .encodePath = some u.Path then u.RawPath
  else if u.Path = ['*'] then ['*']
  else escape u.Path .encodePath

/-- Go `(*URL).EscapedFragment`. -/
def URL.EscapedFragment (u : URL) : Str :=
  if u.RawFragment ≠ [] && validEncoded u.RawFragment .encodeFragment &&
      unescape u.RawFragment .encodeFragment = some u.Fragment then u.RawFragment
  else escape u.Fragment .encodeFragment

/-- Go `(*Userinfo).String`. -/
def Userinfo.String (ui : Userinfo) : Str :=
  escape ui.username .encodeUserPassword ++
    match ui.password with
    | some p => ':' :: escape p .encodeUserPassword
    | none => []

/-- Go `(*URL).String`. -/
def URL.String (u : URL) : Str :=
  let scheme := if u.Scheme ≠ [] then u.Scheme ++ [':'] else []
  let body :=
    if u.Opaque ≠ [] then scheme ++ u.Opaque
    else
      let auth :=
        if u.Scheme ≠ [] || u.Host ≠ [] || u.User.isSome then
          if u.OmitHost && u.Host = [] && u.User.isNone then []
          else
            (if u.Host ≠ [] || u.Path ≠ [] || u.User.isSome then "//".toList else []) ++
            (match u.User with
              | some ui => ui.String ++ ['@']
              | none => []) ++
            (if u.Host ≠ [] then escape u.Host .encodeHost else [])
        else []
      let path := u.EscapedPath
      let buf := scheme ++ auth ++
        (if path ≠ [] && path.head? ≠ some '/' && u.Host ≠ [] then ['/'] else [])
      let buf := if buf = [] && contains (cut path '/').1 [':'] then "./".toList else buf
      buf ++ path
  body ++ (if u.ForceQuery || u.RawQuery ≠ [] then '?' :: u.RawQuery else []) ++
    (if u.Fragment ≠ [] then '#' :: u.EscapedFragment else [])

/-- One round of the loop of Go `url.resolvePath`: `dst` is the builder's
content after its leading `/`. -/
def resolveElem (st : Str × Bool) (elem : Str) : Str × Bool :=
  if elem = ['.'] then (st.1, false)
  else if elem = "..".toList then
    match lastIndexByte st.1 '/' with
    | none => ([], true)
    | some i => (st.1.take i, st.2)
  else ((if st.2 then st.1 else st.1 ++ ['/']) ++ elem, false)

/-- Go `url.resolvePath`. -/
def resolvePath (base ref : Str) : Str :=
  let full :=
    if ref = [] then base
    else if ref.head? ≠ some '/' then
      (match lastIndexByte base '/' with
        | none => []
        | some i => base.take (i + 1)) ++ ref
    else ref
  if full = [] then []
  else
    let elems := splitOnByte full '/'
    let dst := (elems.foldl resolveElem ([], true)).1
    let last := elems.getLast?.getD []
    let r := '/' :: (if last = ['.'] || last = "..".toList then dst ++ ['/'] else dst)
    if r.length > 1 && r.get? 1 = some '/' then r.drop 1 else r

/-- Go `(*URL).ResolveReference`. A `setPath` error is ignored as in Go, the
path being left as it was. -/
def URL.ResolveReference (u ref : URL) : URL :=
  let url := if ref.Scheme = [] then { ref with Scheme := u.Scheme } else ref
  if ref.Scheme ≠ [] || ref.Host ≠ [] || ref.User.isSome then
    (url.setPath (resolvePath ref.EscapedPath [])).getD url
  else if ref.Opaque ≠ [] then { url with User := none, Host := [], Path := [] }
  else
    let url :=
      if ref.Path = [] && !ref.ForceQuery && ref.RawQuery = [] then
        if ref.Fragment = [] then
          { url with RawQuery := u.RawQuery, Fragment := u.Fragment, RawFragment := u.RawFragment }
        else { url with RawQuery := u.RawQuery }
      else url
    if ref.Path = [] && u.Opaque ≠ [] then
      { url with Opaque := u.Opaque, User := none, Host := [], Path := [] }
    else
      let url := { url with Host := u.Host, User := u.User }
      (url.setPath (resolvePath u.EscapedPath ref.EscapedPath)).getD url

/-! ## Package `path/filepath` (Unix) -/

/-- One path element of the scan of Go `filepath.Clean`, on the elements
written so far (last one first): empty and `.` elements are dropped, `..`
removes the last real element, or is kept at the start of a path that is not
rooted, or is dropped at the root. -/
def cleanElem (rooted : Bool) (out : List Str) (elem : Str) : List Str :=
  if elem = [] || elem = ['.'] then out
  else if elem = "..".toList then
    match out with
    | top :: below =>
      if top = "..".toList then elem :: out else below
    | [] => if rooted then [] else [elem]
  else elem :: out

/-- Go `filepath.Clean`. -/
def Clean (path : Str) : Str :=
  if path = [] then ['.']
  else
    let rooted := path.head? = some '/'
    let out := ((splitOnByte path '/').foldl (cleanElem rooted) []).reverse
    if rooted then '/' :: joinSlash out
    else if out = [] then ['.'] else joinSlash out

/-- Go `filepath.Join`: the elements from the first non-empty one on, joined
by `/` and cleaned; the empty string when every element is empty. -/
def Join : List Str → Str
  | [] => []
  | e :: es => if e ≠ [] then Clean (joinSlash (e :: es)) else Join es

/-- Go `filepath.Dir`. -/
def Dir (path : Str) : Str :=
  match lastIndexByte path '/' with
  | none => Clean []
  | some i => Clean (path.take (i + 1))

/-! ## The crawler: configuration and tasks -/

/-- The fields of `Config` that the crawl reads. The visited set, the queue
and the wait group are part of the crawl state below; the HTTP client is the
`World`. -/
structure Config where
  URL : Str
  MaxDepth : Int
  MaxWorkers : Int
  OutputDir : Str
  SameDomain : Bool
deriving DecidableEq, Repr

/-- `DownloadTask`; `Typ` is the field `Type` of the source (`html` or
`resource`). -/
structure DownloadTask where
  URL : Str
  Depth : Int
  Typ : Str
deriving DecidableEq, Repr

/-! ## Link extraction -/

/-- `isValidLink`. -/
def isValidLink (lowerCase : Nat → Int) (link : Str) : Bool :=
  link ≠ [] &&
    !hasPrefix link ['#'] &&
    !hasPrefix (goToLower lowerCase link) "javascript:".toList &&
    !hasPrefix (goToLower lowerCase link) "mailto:".toList

/-- `resolveURL`; the empty string is the "no result" value of the source. -/
def resolveURL (href : Str) (baseURL : URL) : Str :=
  if href = [] then []
  else
    match Parse href with
    | none => []
    | some parsed =>
      if parsed.IsAbs then parsed.String
      else (baseURL.ResolveReference parsed).String

/-- The loop of `extractLinks`, from position `pos` with the results so far,
every slice with its bounds check; `none` is a panic of the goroutine (slice
bounds out of range). Every round moves `pos` forward, so the
`len(content) + 1` rounds of fuel that `extractLinks` gives are never used up
(`extractLinksLoop_fuel`). -/
def extractLinksLoop (lowerCase : Nat → Int) (content tagStart attrPattern : Str)
    (baseURL : URL) : Nat → Nat → List Str → Option (List Str)
  | 0, _, results => some results
  | fuel + 1, pos, results => do
    let tail ← sliceFrom? content pos
    match index (goToLower lowerCase tail) tagStart with
    | none => some results
    | some tagRel =>
      let tagPos := tagRel + pos
      let fromTag ← sliceFrom? content tagPos
      match index fromTag ['>'] with
      | none => some results
      | some endRel =>
        let endPos := endRel + tagPos
        let tagContent ← slice? content tagPos endPos
        let results ←
          match index (goToLower lowerCase tagContent) attrPattern with
          | none => some results
          | some attrPos =>
            let start := tagPos + attrPos + attrPattern.length
            let stop := scanUntil content start (· == '"')
            if stop < content.length then do
              let href ← slice? content start stop
              if isValidLink lowerCase href then
                let absoluteURL := resolveURL href baseURL
                if absoluteURL ≠ [] then some (results ++ [absoluteURL]) else some results
              else some results
            else some results
        if endPos + 1 ≥ content.length then some results
        else
          extractLinksLoop lowerCase content tagStart attrPattern baseURL fuel (endPos + 1)
            results

/-- `extractLinks`; `none` is a panic. -/
def extractLinks (lowerCase : Nat → Int) (content tag attr : Str) (baseURL : URL) :
    Option (List Str) :=
  extractLinksLoop lowerCase content ('<' :: goToLower lowerCase tag)
    (goToLower lowerCase attr ++ "=\"".toList) baseURL (content.length + 1) 0 []

/-- The loop of `removeDuplicates`: `seen` holds the keys of the map. -/
def removeDuplicatesLoop : List Str → List Str → List Str → List Str
  | [], _, result => result
  | item :: rest, seen, result =>
    if seen.contains item then removeDuplicatesLoop rest seen result
    else removeDuplicatesLoop rest (item :: seen) (result ++ [item])

/-- `removeDuplicates`. -/
def removeDuplicates (slice : List Str) : List Str := removeDuplicatesLoop slice [] []

/-- `parseHTMLSimple`: the anchor links and the resource references; `none`
when one of the calls of `extractLinks` panics. -/
def parseHTMLSimple (lowerCase : Nat → Int) (content : Str) (baseURL : URL) :
    Option (List Str × List Str) := do
  let links ← extractLinks lowerCase content "a".toList "href".toList baseURL
  let r1 ← extractLinks lowerCase content "link".toList "href".toList baseURL
  let r2 ← extractLinks lowerCase content "script".toList "src".toList baseURL
  let r3 ← extractLinks lowerCase content "img".toList "src".toList baseURL
  let r4 ← extractLinks lowerCase content "iframe".toList "src".toList baseURL
  let r5 ← extractLinks lowerCase content "embed".toList "src".toList baseURL
  let r6 ← extractLinks lowerCase content "source".toList "src".toList baseURL
  some (removeDuplicates links, removeDuplicates (r1 ++ r2 ++ r3 ++ r4 ++ r5 ++ r6))

/-- `shouldDownload`. -/
def shouldDownload (config : Config) (urlStr : Str) (baseURL : URL) : Bool :=
  match Parse urlStr with
  | none => false
  | some parsed =>
    if parsed.Scheme ≠ "http".toList && parsed.Scheme ≠ "https".toList then false
    else if config.SameDomain && parsed.Hostname ≠ baseURL.Hostname then false
    else true

/-- `isHTMLContent`. -/
def isHTMLContent (lowerCase : Nat → Int) (contentType : Str) : Bool :=
  contains (goToLower lowerCase contentType) "text/html".toList ||
    contains (goToLower lowerCase contentType) "application/xhtml+xml".toList

/-- The loop of `HTMLParser.FindAll`, at index `i` with the results so far;
its fuel is never used up (`findAllLoop_fuel`). `strings.EqualFold` and
`strings.ToLower` are taken on ASCII text (`toLower`), where they consult no
case table: the crawl never calls `FindAll`, and it is evaluated below on
pages of ASCII bytes only. -/
def findAllLoop (content tagStart attr : Str) : Nat → Nat → List Str → List Str
  | 0, _, results => results
  | fuel + 1, i, results =>
    if i ≥ content.length then results
    else if i + tagStart.length ≤ content.length &&
        toLower (slice content i (i + tagStart.length)) = toLower tagStart then
      let j := scanUntil content (i + tagStart.length) (· == '>')
      if j < content.length then
        let tagContent := slice content i (j + 1)
        let dq := index (toLower tagContent) (attr ++ "=\"".toList)
        let sq := index (toLower tagContent) (attr ++ "='".toList)
        match (if dq.isSome then dq else sq) with
        | none => findAllLoop content tagStart attr fuel (j + 1) results
        | some attrIdx =>
          let start := attrIdx + (attr.length + 2)
          let stop := scanUntil tagContent start (fun c => c == '"' || c == '\'')
          let href := slice tagContent start stop
          let results :=
            if stop < tagContent.length && href ≠ [] && !hasPrefix href ['#'] &&
                !hasPrefix (toLower href) "javascript:".toList then results ++ [href]
            else results
          findAllLoop content tagStart attr fuel (j + 1) results
      else findAllLoop content tagStart attr fuel (j + 1) results
    else findAllLoop content tagStart attr fuel (i + 1) results

/-- `HTMLParser.FindAll`. -/
def FindAll (content tag attr : Str) : List Str :=
  findAllLoop content ('<' :: tag) attr (content.length + 1) 0 []

/-! ## The path mapping and the link rewriter -/

/-- The path `saveResource` writes to (`fullPath`); `none` when the URL does
not parse. -/
def saveResourcePath (config : Config) (urlStr : Str) : Option Str :=
  match Parse urlStr with
  | none => none
  | some parsedURL =>
    let path := parsedURL.Path
    let path := if path = [] || hasSuffix path ['/'] then path ++ "index.html".toList else path
    let path := if hasPrefix path ['/'] then path.drop 1 else path
    some (Join [config.OutputDir, parsedURL.Hostname, path])

/-- `urlToLocalPath`. -/
def urlToLocalPath (urlStr : Str) (baseURL : URL) : Str :=
  match Parse urlStr with
  | none => urlStr
  | some parsed =>
    if parsed.Hostname ≠ baseURL.Hostname then urlStr
    else
      let path := parsed.Path
      let path := if path = [] || hasSuffix path ['/'] then path ++ "index.html".toList else path
      let path := if hasPrefix path ['/'] then '.' :: path else path
      let path := if parsed.RawQuery ≠ [] then path ++ '?' :: parsed.RawQuery else path
      let path := if parsed.Fragment ≠ [] then path ++ '#' :: parsed.Fragment else path
      path

/-- The loop of `replaceLinksInTag`, from position `pos` with the text built
so far, every slice with its bounds check; `none` is a panic of the goroutine.
Its fuel is never used up when no rune has the lower case `<`
(`replaceLinksInTagLoop_fuel`). -/
def replaceLinksInTagLoop (lowerCase : Nat → Int) (content tagStart attrPattern : Str)
    (baseURL : URL) : Nat → Nat → Str → Option Str
  | 0, _, result => some result
  | fuel + 1, pos, result => do
    let tail ← sliceFrom? content pos
    match index (goToLower lowerCase tail) tagStart with
    | none => some (result ++ tail)
    | some tagRel =>
      let tagPos := tagRel + pos
      let before ← slice? content pos tagPos
      let result := result ++ before
      let fromTag ← sliceFrom? content tagPos
      match index fromTag ['>'] with
      | none => some (result ++ fromTag)
      | some endRel =>
        let endPos := endRel + tagPos
        let tagContent ← slice? content tagPos endPos
        let newTag ←
          match index (goToLower lowerCase tagContent) attrPattern with
          | none => some tagContent
          | some attrPos =>
            let start := attrPos + attrPattern.length
            let stop := scanUntil tagContent start (· == '"')
            if stop < tagContent.length then do
              let href ← slice? tagContent start stop
              if isValidLink lowerCase href then
                let absoluteURL := resolveURL href baseURL
                if absoluteURL ≠ [] then do
                  let head ← slice? tagContent 0 start
                  let rest ← sliceFrom? tagContent stop
                  some (head ++ urlToLocalPath absoluteURL baseURL ++ rest)
                else some tagContent
              else some tagContent
            else some tagContent
        if endPos ≥ content.length then some (result ++ newTag)
        else
          replaceLinksInTagLoop lowerCase content tagStart attrPattern baseURL fuel endPos
            (result ++ newTag)

/-- `replaceLinksInTag`; `none` is a panic. -/
def replaceLinksInTag (lowerCase : Nat → Int) (content tag attr : Str) (baseURL : URL) :
    Option Str :=
  replaceLinksInTagLoop lowerCase content ('<' :: goToLower lowerCase tag)
    (goToLower lowerCase attr ++ "=\"".toList) baseURL (content.length + 1) 0 []

/-- The tag and attribute pairs `replaceLinksSimple` rewrites, in its order. -/
def rewriteTags : List (Str × Str) :=
  [("a".toList, "href".toList), ("link".toList, "href".toList),
   ("script".toList, "src".toList), ("img".toList, "src".toList),
   ("iframe".toList, "src".toList), ("embed".toList, "src".toList),
   ("source".toList, "src".toList)]

/-- The loop `for _, t := range tags` of `replaceLinksSimple`. -/
def replaceLinksTags (lowerCase : Nat → Int) (baseURL : URL) :
    List (Str × Str) → Str → Option Str
  | [], contentStr => some contentStr
  | t :: tags, contentStr =>
    match replaceLinksInTag lowerCase contentStr t.1 t.2 baseURL with
    | none => none
    | some contentStr => replaceLinksTags lowerCase baseURL tags contentStr

/-- `replaceLinksSimple`; its third argument `localPath` is not used by the
source. `none` when one of the calls of `replaceLinksInTag` panics. -/
def replaceLinksSimple (lowerCase : Nat → Int) (content : Str) (baseURL : URL)
    (_localPath : Str) : Option Str :=
  replaceLinksTags lowerCase baseURL rewriteTags content

/-! ## The fetcher and the file writes -/

/-- Everything outside the text of the program: what an HTTP GET of a URL
answers (the status code, the body when it can be read, the `Content-Type`
header; `none` is a transport error); whether a directory can be created;
whether a file can be written, which may change with the files written before
(the list of the writes so far, latest first, is the first argument); and the
table `unicode.CaseRanges` of the Go library, as the lower case of the runes
beyond ASCII. -/
structure World where
  httpGet : Str → Option (Nat × Option Str × Str)
  mkdirAll : Str → Bool
  writeFile : List (Str × Str) → Str → Bool
  lowerCase : Nat → Int

/-- The errors of `downloadResource`. -/
inductive FetchError
  | request
  | transport
  | status (code : Nat)
  | body
deriving DecidableEq, Repr

/-- `downloadResource`: the content and the content type, or an error.
`http.NewRequest` fails when the URL does not parse. -/
def downloadResource (w : World) (urlStr : Str) : Except FetchError (Str × Str) :=
  match Parse urlStr with
  | none => .error .request
  | some _ =>
    match w.httpGet urlStr with
    | none => .error .transport
    | some (statusCode, body, contentType) =>
      if statusCode ≠ 200 then .error (.status statusCode)
      else
        match body with
        | none => .error .body
        | some content => .ok (content, contentType)

/-- `saveResource` on the list of files written so far (latest first): the
path written, and the files afterwards; `none` is an error. -/
def saveResource (w : World) (config : Config) (urlStr content : Str)
    (files : List (Str × Str)) : Option (Str × List (Str × Str)) :=
  match saveResourcePath config urlStr with
  | none => none
  | some fullPath =>
    if !w.mkdirAll (Dir fullPath) then none
    else if !w.writeFile files fullPath then none
    else some (fullPath, (fullPath, content) :: files)

/-! ## The worker pool -/

/-- The capacity of `DownloadQueue` (`make(chan DownloadTask, 1000)`). -/
def queueCap : Nat := 1000

/-- A page under expansion in `worker`: the task, the fetched content, the
path it was saved to and its parsed URL. -/
structure Page where
  task : DownloadTask
  content : Str
  localPath : Str
  baseURL : URL
deriving DecidableEq, Repr

/-- Where a worker goroutine stands in `worker`. Every access to shared state
(the queue, the visited set, the network, the files) is a step of its own. -/
inductive WorkerPc
  /-- At `for task := range config.DownloadQueue`. -/
  | recv
  /-- Holding `task`, before `VisitedURLs.Load(task.URL)`. -/
  | check (task : DownloadTask)
  /-- `Load` found the URL absent; before `VisitedURLs.Store(task.URL, true)`. -/
  | claim (task : DownloadTask)
  /-- Before `downloadResource`. -/
  | fetch (task : DownloadTask)
  /-- Before `saveResource`. -/
  | save (task : DownloadTask) (content contentType : Str)
  /-- In `for _, link := range links`, before the test of the next link. -/
  | links (page : Page) (links resources : List Str)
  /-- Before the queue send for `link`. -/
  | sendLink (page : Page) (link : Str) (links resources : List Str)
  /-- In `for _, res := range resources`, before the test of the next one. -/
  | resources (page : Page) (resources : List Str)
  /-- Before the queue send for `res`. -/
  | sendRes (page : Page) (res : Str) (resources : List Str)
  /-- Before the rewritten page is written. -/
  | rewrite (page : Page)
  /-- The loop is left and `WaitGroup.Done` has run. -/
  | done
  /-- The goroutine has panicked on a slice out of range, in `extractLinks` or
  in `replaceLinksInTag`. -/
  | panicked
deriving DecidableEq, Repr

/-- Where `main` stands. -/
inductive MainPc
  /-- Before the checks of the seed URL and the output directory. -/
  | start
  /-- In `for i := 0; i < config.MaxWorkers; i++`, before the test. -/
  | spawn (i : Int)
  /-- Before the send of the seed task. -/
  | sendSeed
  /-- At `config.WaitGroup.Wait()`. -/
  | wait
  /-- Before `close(config.DownloadQueue)`. -/
  | close
  /-- `main` has returned: the crawl is over, exit status 0. -/
  | returned
  /-- The process has ended without a return of `main`: by `os.Exit(1)`, or by
  the panic of a goroutine. -/
  | exited
deriving DecidableEq, Repr

/-- The state of a crawl. `fetched` and `sent` are logs: the tasks
`downloadResource` was called for, and every queue send with the task whose
expansion made it (`none` for the seed). `files` holds every file write,
latest first. -/
structure State where
  mainPc : MainPc := .start
  workers : List WorkerPc := []
  queue : List DownloadTask := []
  closed : Bool := false
  wg : Int := 0
  visited : List Str := []
  fetched : List DownloadTask := []
  files : List (Str × Str) := []
  sent : List (Option DownloadTask × DownloadTask) := []
deriving DecidableEq, Repr

/-- The goroutines. -/
inductive Actor
  | main
  | worker (id : Nat)
deriving DecidableEq, Repr

/-- One step of `main`; `none` when it is blocked or over. -/
def stepMain (w : World) (config : Config) (s : State) : Option State :=
  match s.mainPc with
  | .start =>
    if config.URL = [] then some { s with mainPc := .exited }
    else if (Parse config.URL).isNone then some { s with mainPc := .exited }
    else if !w.mkdirAll config.OutputDir then some { s with mainPc := .exited }
    else some { s with mainPc := .spawn 0 }
  | .spawn i =>
    if i < config.MaxWorkers then
      some { s with mainPc := .spawn (i + 1), wg := s.wg + 1, workers := s.workers ++ [.recv] }
    else some { s with mainPc := .sendSeed }
  | .sendSeed =>
    if s.queue.length < queueCap then
      let seed : DownloadTask := { URL := config.URL, Depth := 0, Typ := "html".toList }
      some { s with mainPc := .wait, queue := s.queue ++ [seed], sent := s.sent ++ [(none, seed)] }
    else none
  | .wait => if s.wg = 0 then some { s with mainPc := .close } else none
  | .close => some { s with mainPc := .returned, closed := true }
  | .returned => none
  | .exited => none

/-- One step of the worker `id` standing at `pc`; `none` when it is blocked
or over. A panic of the goroutine ends the process. -/
def stepWorker (w : World) (config : Config) (s : State) (id : Nat) (pc : WorkerPc) :
    Option State :=
  let goto (pc : WorkerPc) (s : State) : State := { s with workers := s.workers.set id pc }
  match pc with
  | .recv =>
    match s.queue with
    | task :: rest => some (goto (.check task) { s with queue := rest })
    | [] => if s.closed then some (goto .done { s with wg := s.wg - 1 }) else none
  | .check task =>
    if s.visited.contains task.URL then some (goto .recv s) else some (goto (.claim task) s)
  | .claim task => some (goto (.fetch task) { s with visited := task.URL :: s.visited })
  | .fetch task =>
    let s := { s with fetched := s.fetched ++ [task] }
    match downloadResource w task.URL with
    | .error _ => some (goto .recv s)
    | .ok (content, contentType) => some (goto (.save task content contentType) s)
  | .save task content contentType =>
    match saveResource w config task.URL content s.files with
    | none => some (goto .recv s)
    | some (localPath, files) =>
      let s := { s with files := files }
      if isHTMLContent w.lowerCase contentType && task.Depth < config.MaxDepth then
        let baseURL := (Parse task.URL).getD {}
        match parseHTMLSimple w.lowerCase content baseURL with
        | none => some (goto .panicked { s with mainPc := .exited })
        | some parsed =>
          some (goto (.links ⟨task, content, localPath, baseURL⟩ parsed.1 parsed.2) s)
      else some (goto .recv s)
  | .links page [] resources => some (goto (.resources page resources) s)
  | .links page (link :: links) resources =>
    if shouldDownload config link page.baseURL && !s.visited.contains link then
      some (goto (.sendLink page link links resources) s)
    else some (goto (.links page links resources) s)
  | .sendLink page link links resources =>
    if s.queue.length < queueCap then
      let task : DownloadTask :=
        { URL := link, Depth := page.task.Depth + 1, Typ := "html".toList }
      some (goto (.links page links resources)
        { s with queue := s.queue ++ [task], sent := s.sent ++ [(some page.task, task)] })
    else none
  | .resources page [] => some (goto (.rewrite page) s)
  | .resources page (res :: resources) =>
    if !s.visited.contains res then some (goto (.sendRes page res resources) s)
    else some (goto (.resources page resources) s)
  | .sendRes page res resources =>
    if s.queue.length < queueCap then
      let task : DownloadTask :=
        { URL := res, Depth := page.task.Depth + 1, Typ := "resource".toList }
      some (goto (.resources page resources)
        { s with queue := s.queue ++ [task], sent := s.sent ++ [(some page.task, task)] })
    else none
  | .rewrite page =>
    match replaceLinksSimple w.lowerCase page.content page.baseURL page.localPath with
    | none => some (goto .panicked { s with mainPc := .exited })
    | some updatedHTML =>
      if w.writeFile s.files page.localPath then
        some (goto .recv { s with files := (page.localPath, updatedHTML) :: s.files })
      else some (goto .recv s)
  | .done => none
  | .panicked => none

/-- One step of a goroutine. No goroutine runs once the process has ended
(`main` returned or called `os.Exit`). -/
def step (w : World) (config : Config) (s : State) : Actor → Option State
  | .main => stepMain w config s
  | .worker id =>
    if s.mainPc = .returned || s.mainPc = .exited then none
    else
      match s.workers.get? id with
      | none => none
      | some pc => stepWorker w config s id pc

/-- The state at the start of `main`. -/
def initial : State := {}

/-- The states a crawl can reach, under every interleaving of the
goroutines. -/
inductive Reachable (w : World) (config : Config) : State → Prop
  | start : Reachable w config initial
  | next {s s' : State} (a : Actor) :
      Reachable w config s → step w config s a = some s' → Reachable w config s'

/-- The state after the goroutines have taken one step each in the order of
`schedule`; `none` when one of them could not step. -/
def runSchedule (w : World) (config : Config) : State → List Actor → Option State
  | s, [] => some s
  | s, a :: rest =>
    match step w config s a with
    | none => none
    | some s' => runSchedule w config s' rest

/-- The crawl state after `schedule`, when every step of it could be taken. -/
def crawl (w : World) (config : Config) (schedule : List Actor) : Option State :=
  runSchedule w config initial schedule

/-- The task a worker holds before it has become a page. -/
def WorkerPc.task? : WorkerPc → Option DownloadTask
  | .check t => some t
  | .claim t => some t
  | .fetch t => some t
  | .save t _ _ => some t
  | _ => none

/-- The page a worker is expanding. -/
def WorkerPc.page? : WorkerPc → Option Page
  | .links p _ _ => some p
  | .sendLink p _ _ _ => some p
  | .resources p _ => some p
  | .sendRes p _ _ => some p
  | .rewrite p => some p
  | _ => none

/-- The invariant behind the depth policy: every queue send is either the
seed at depth 0 or a child, one level below a page that passed the guard
`task.Depth < config.MaxDepth`; and every task in the queue, in the hands of
a worker or fetched has been sent. -/
structure DepthInv (config : Config) (s : State) : Prop where
  sent_child : ∀ e ∈ s.sent, ∀ p, e.1 = some p →
    e.2.Depth = p.Depth + 1 ∧ p.Depth < config.MaxDepth
  sent_seed : ∀ e ∈ s.sent, e.1 = none → e.2.Depth = 0
  pages : ∀ pc ∈ s.workers, ∀ pg, pc.page? = some pg → pg.task.Depth < config.MaxDepth
  queue_sent : ∀ t ∈ s.queue, ∃ p, (p, t) ∈ s.sent
  held_sent : ∀ pc ∈ s.workers, ∀ t, pc.task? = some t → ∃ p, (p, t) ∈ s.sent
  fetched_sent : ∀ t ∈ s.fetched, ∃ p, (p, t) ∈ s.sent

/-- The invariant behind the missing termination: while `main` has not
passed `Wait`, the queue is open, no worker has left its loop, and the wait
group counts every worker. -/
structure WaitInv (config : Config) (s : State) : Prop where
  queue_open : s.closed = false
  none_done : ∀ pc ∈ s.workers, pc ≠ .done
  counter : s.wg = s.workers.length
  main_at : (s.mainPc = .start ∧ s.workers = []) ∨ s.mainPc = .exited ∨
    (∃ i : Int, s.mainPc = .spawn i ∧ i = s.workers.length) ∨
    ((s.mainPc = .sendSeed ∨ s.mainPc = .wait) ∧ 1 ≤ s.workers.length)

/-! ## Concrete sites -/

/-- The configuration `main` builds for the seed `http://ex.test/a.html` with
the default depth 1 and the default output directory. -/
def exConfig (workers : Int) : Config :=
  { URL := "http://ex.test/a.html".toList, MaxDepth := 1, MaxWorkers := workers,
    OutputDir := "./mirror".toList, SameDomain := true }

/-- A case table without entries: no rune beyond ASCII has another lower
case. On ASCII text `strings.ToLower` does not consult the table
(`goToLower_of_ascii`), and a byte that is not valid UTF-8 is read as U+FFFD,
which `unicode.ToLower` leaves as it is; the pages of the sites below are made
of such bytes only. -/
def noCase : Nat → Int := fun r => r

/-- A web that serves the listed pages (URL, body, content type) with status
200 and nothing else, over a file system where every write succeeds. -/
def site (pages : List (Str × Str × Str)) : World :=
  { httpGet := fun u => (pages.lookup u).map fun p => (200, some p.1, p.2)
    mkdirAll := fun _ => true
    writeFile := fun _ _ => true
    lowerCase := noCase }

/-- The steps of `main` up to `Wait` with `n` workers: the checks, `n` rounds
of the spawn loop, its exit, the send of the seed. -/
def mainToWait (n : Nat) : List Actor := List.replicate (n + 3) Actor.main

/-- A seed page that refers to `/b.html` from an anchor and from an image. -/
def raceSite : World :=
  site [("http://ex.test/a.html".toList,
          "<a href=\"/b.html\">b</a><img src=\"/b.html\">".toList, "text/html".toList),
        ("http://ex.test/b.html".toList, "hello".toList, "text/html".toList)]

/-- Worker 0 handles the seed alone (12 steps); then workers 0 and 1 take one
of the two tasks for `/b.html` each and run in lockstep: both `Load`, then
both `Store`, then both fetch. -/
def raceSchedule : List Actor :=
  mainToWait 2 ++ List.replicate 12 (Actor.worker 0) ++
    [.worker 0, .worker 1, .worker 0, .worker 1, .worker 0, .worker 1, .worker 0, .worker 1]

/-- A seed that is a plain text page: no link to discover. -/
def linklessSite : World :=
  site [("http://ex.test/a.html".toList, "nothing to follow".toList, "text/plain".toList)]

/-- One worker handles the seed: receive, `Load`, `Store`, fetch, save. -/
def linklessSchedule : List Actor := mainToWait 1 ++ List.replicate 5 (Actor.worker 0)

/-- A seed page with an image on another host. -/
def cdnSite : World :=
  site [("http://ex.test/a.html".toList,
          "<img src=\"http://other.test/x.png\">".toList, "text/html".toList)]

/-- One worker handles the seed up to the end of its expansion: receive,
`Load`, `Store`, fetch, save, the end of the link loop, the test and the send
of the image, the end of the resource loop, the rewrite. -/
def cdnSchedule : List Actor := mainToWait 1 ++ List.replicate 10 (Actor.worker 0)

/-- The tasks the two loops of `worker` (lines 219-240) send for `page` when
the visited set stays `visited` throughout: a page task for every anchor link
that passes `shouldDownload` and is not visited, then a resource task for
every resource reference that is not visited, all one level below the
page. -/
def expansionTasks (config : Config) (visited : List Str) (page : Page)
    (links resources : List Str) : List DownloadTask :=
  (links.filter fun l => shouldDownload config l page.baseURL && !visited.contains l).map
      (fun l => { URL := l, Depth := page.task.Depth + 1, Typ := "html".toList }) ++
    (resources.filter fun r => !visited.contains r).map
      (fun r => { URL := r, Depth := page.task.Depth + 1, Typ := "resource".toList })

/-- The state `s` after worker `id` has moved to `pc` and has sent `tasks`
for `parent`. -/
def State.sends (s : State) (id : Nat) (pc : WorkerPc) (parent : DownloadTask)
    (tasks : List DownloadTask) : State :=
  { s with
    workers := s.workers.set id pc
    queue := s.queue ++ tasks
    sent := s.sent ++ tasks.map fun t => (some parent, t) }


/-- The page of the specification's scenario: a link to `/b.html`, an image
of the own host, a link to another host. -/
def specPage : Str :=
  "<a href=\"/b.html\">b</a><img src=\"http://ex.test/x.png\"><a href=\"http://other.test/c.html\">c</a>".toList

/-- The scenario of the specification: the seed serves `specPage`. -/
def specSite : World :=
  site [("http://ex.test/a.html".toList, specPage, "text/html".toList)]

/-- The seed task of `exConfig`. -/
def exSeed : DownloadTask :=
  { URL := "http://ex.test/a.html".toList, Depth := 0, Typ := "html".toList }

/-- The crawl of `specSite` with one worker when the seed has been fetched and
is about to be saved. -/
def specSaveState : State :=
  { mainPc := .wait
    workers := [.save exSeed specPage "text/html".toList]
    wg := 1
    visited := ["http://ex.test/a.html".toList]
    fetched := [exSeed]
    sent := [(none, exSeed)] }

/-- The parsed URL of the seed of `exConfig`. -/
def exBase : URL := { Scheme := "http".toList, Host := "ex.test".toList, Path := "/a.html".toList }

/-- The Path Mapper in the words of C9: the URL path with its leading `/`
removed and with `index.html` appended when the URL path is empty or ends in
`/`. -/
def mirrorPath (urlPath : Str) : Str :=
  (if hasPrefix urlPath ['/'] then urlPath.drop 1 else urlPath) ++
    (if urlPath = [] ∨ hasSuffix urlPath ['/'] then "index.html".toList else [])

/-- A seed page with a link whose path climbs out of the site with `..`,
and a server that answers it. -/
def traversalSite : World :=
  site [("http://ex.test/a.html".toList,
          "<a href=\"http://ex.test/../../etc/passwd\">x</a>".toList, "text/html".toList),
        ("http://ex.test/../../etc/passwd".toList, "root".toList, "text/plain".toList)]

/-- One worker handles the seed (receive, `Load`, `Store`, fetch, save, the
test and the send of the link, the end of both loops, the rewrite) and then
the task of the link up to its save. -/
def traversalSchedule : List Actor := mainToWait 1 ++ List.replicate 15 (Actor.worker 0)

/-- The parsed URL of the page `http://ex.test/dir/a.html`, one directory
below the site root. -/
def nestedBase : URL :=
  { Scheme := "http".toList, Host := "ex.test".toList, Path := "/dir/a.html".toList }

/-- A path element that `filepath.Clean` keeps as it is: not empty, without
`/`, and neither `.` nor `..`. -/
def plainElem (e : Str) : Bool :=
  e ≠ [] && !e.contains '/' && e ≠ ['.'] && e ≠ "..".toList

/-- The mapped path that `urlToLocalPath` writes, in the words of C9 and C11:
the path of the Path Mapper (`mirrorPath`), put under `./` when the URL path
starts with `/`. -/
def localMappedPath (urlPath : Str) : Str :=
  (if hasPrefix urlPath ['/'] then "./".toList else []) ++ mirrorPath urlPath

/-- A web that answers every GET with the status `code`, the body `ok` and
the content type `text/plain`. -/
def statusWorld (code : Nat) : World :=
  { httpGet := fun _ => some (code, some "ok".toList, "text/plain".toList)
    mkdirAll := fun _ => true
    writeFile := fun _ _ => true
    lowerCase := noCase }

/-- The task whose URL a worker has stored in the visited set and that it has
not finished yet. -/
def WorkerPc.claimed? : WorkerPc → Option DownloadTask
  | .fetch t => some t
  | .save t _ _ => some t
  | .links p _ _ => some p.task
  | .sendLink p _ _ _ => some p.task
  | .resources p _ => some p.task
  | .sendRes p _ _ => some p.task
  | .rewrite p => some p.task
  | _ => none

/-- What holds of the tasks in the hands of the workers and of the sends, in
every reachable state: a claimed URL is in the visited set; the content a
worker is about to save is what the fetch returned; a page under expansion
was fetched with an HTML content type below `MaxDepth`; a link about to be
sent has passed `shouldDownload`; every send was made for such a page, and
every page task sent has passed `shouldDownload`. -/
structure PageInv (w : World) (config : Config) (s : State) : Prop where
  claimed : ∀ pc ∈ s.workers, ∀ t, pc.claimed? = some t → t.URL ∈ s.visited
  saving : ∀ pc ∈ s.workers, ∀ t c ct, pc = .save t c ct →
    downloadResource w t.URL = .ok (c, ct)
  pages : ∀ pc ∈ s.workers, ∀ pg, pc.page? = some pg →
    ∃ ct, downloadResource w pg.task.URL = .ok (pg.content, ct) ∧
      isHTMLContent w.lowerCase ct = true ∧ pg.task.Depth < config.MaxDepth
  sending : ∀ pc ∈ s.workers, ∀ pg l ls rs, pc = .sendLink pg l ls rs →
    shouldDownload config l pg.baseURL = true
  sent_parent : ∀ e ∈ s.sent, ∀ p, e.1 = some p →
    ∃ c ct, downloadResource w p.URL = .ok (c, ct) ∧
      isHTMLContent w.lowerCase ct = true ∧ p.Depth < config.MaxDepth
  sent_page : ∀ e ∈ s.sent, ∀ p, e.1 = some p → e.2.Typ = "html".toList →
    ∃ base, shouldDownload config e.2.URL base = true

/-- The URLs that a worker in the expansion of a page has still to take, the
one it is about to send included: the anchor links and the resource
references. -/
def WorkerPc.pending? : WorkerPc → Option (List Str × List Str)
  | .links _ ls rs => some (ls, rs)
  | .sendLink _ l ls rs => some (l :: ls, rs)
  | .resources _ rs => some ([], rs)
  | .sendRes _ r rs => some ([], r :: rs)
  | .rewrite _ => some ([], [])
  | _ => none

/-- Whether a worker stands in the loop over the anchor links. -/
def WorkerPc.inLinks : WorkerPc → Bool
  | .links _ _ _ => true
  | .sendLink _ _ _ _ => true
  | _ => false

/-- What holds of the two loops of the expansion, in every reachable state: a
worker in the expansion of a page walks down the two lists that
`parseHTMLSimple` returned for the content of the page, the resource list
being untouched while it is in the loop over the anchor links; and every
task sent for a parent stands one level below it and is an anchor link of the
parent that has passed `shouldDownload`, sent as a page task, or a resource
reference of the parent, sent as a resource task. -/
structure ExpandInv (w : World) (config : Config) (s : State) : Prop where
  walking : ∀ pc ∈ s.workers, ∀ pg, pc.page? = some pg →
    pg.baseURL = (Parse pg.task.URL).getD {} ∧
    ∃ parsed rem, parseHTMLSimple w.lowerCase pg.content pg.baseURL = some parsed ∧
      pc.pending? = some rem ∧ rem.1 <:+ parsed.1 ∧ rem.2 <:+ parsed.2 ∧
      (pc.inLinks = true → rem.2 = parsed.2)
  sent_listed : ∀ e ∈ s.sent, ∀ p, e.1 = some p →
    e.2.Depth = p.Depth + 1 ∧
    ∃ c ct parsed, downloadResource w p.URL = .ok (c, ct) ∧
      parseHTMLSimple w.lowerCase c ((Parse p.URL).getD {}) = some parsed ∧
      ((e.2.Typ = "html".toList ∧ e.2.URL ∈ parsed.1 ∧
          shouldDownload config e.2.URL ((Parse p.URL).getD {}) = true) ∨
        (e.2.Typ = "resource".toList ∧ e.2.URL ∈ parsed.2))

/-- A seed page with a link to `/b.html`, which the server does not answer. -/
def brokenLinkSite : World :=
  site [("http://ex.test/a.html".toList, "<a href=\"/b.html\">b</a>".toList, "text/html".toList)]

/-- One worker handles the seed (10 steps: receive, `Load`, `Store`, fetch,
save, the test and the send of the link, the end of both loops, the rewrite)
and takes the task of `/b.html` up to its fetch (receive, `Load`, `Store`). -/
def brokenLinkSchedule : List Actor := mainToWait 1 ++ List.replicate 13 (Actor.worker 0)

/-- The task of `/b.html`, sent from the seed. -/
def exChild : DownloadTask :=
  { URL := "http://ex.test/b.html".toList, Depth := 1, Typ := "html".toList }

/-- The configuration of `exConfig` with one worker and `-depth 0`. -/
def depthZeroConfig : Config := { exConfig 1 with MaxDepth := 0 }

/-- A seed page with a frame `/f.html`, itself an HTML page with a link to
`/g.html`. -/
def iframeSite : World :=
  site [("http://ex.test/a.html".toList,
          "<iframe src=\"/f.html\"></iframe>".toList, "text/html".toList),
        ("http://ex.test/f.html".toList,
          "<a href=\"/g.html\">g</a>".toList, "text/html".toList)]

/-- The configuration of `exConfig` with one worker and `-depth 2`. -/
def depthTwoConfig : Config := { exConfig 1 with MaxDepth := 2 }

/-- The resource task of the frame, sent from the seed. -/
def frameTask : DownloadTask :=
  { URL := "http://ex.test/f.html".toList, Depth := 1, Typ := "resource".toList }

/-- The page task of the link in the frame. -/
def frameLinkTask : DownloadTask :=
  { URL := "http://ex.test/g.html".toList, Depth := 2, Typ := "html".toList }

/-- One worker handles the seed (10 steps: receive, `Load`, `Store`, fetch,
save, the end of the link loop, the test and the send of the frame, the end
of the resource loop, the rewrite) and takes the task of the frame up to its
save (receive, `Load`, `Store`, fetch). -/
def frameSaveSchedule : List Actor := mainToWait 1 ++ List.replicate 14 (Actor.worker 0)

/-- After `frameSaveSchedule`, the worker goes on with the task of the frame:
the save, the test and the send of its link. -/
def frameSchedule : List Actor := frameSaveSchedule ++ List.replicate 3 (Actor.worker 0)

/-- A page that begins with twelve bytes `0xFF` (not valid UTF-8) before a link
to `/b.html`. -/
def tornPage : Str := List.replicate 12 (Char.ofNat 0xFF) ++ "<a href=\"/b.html\">b</a>".toList

/-- A seed that serves `tornPage` as HTML, and a page `/b.html`. -/
def tornSite : World :=
  site [("http://ex.test/a.html".toList, tornPage, "text/html".toList),
        ("http://ex.test/b.html".toList, "hello".toList, "text/html".toList)]

/-- The site of the specification's scenario over a file system that takes a
write only as long as nothing has been written: the save of the seed succeeds
and the write of the rewritten page fails. -/
def writeOnceSite : World := { specSite with writeFile := fun files _ => files.isEmpty }

/-- Four bytes of a page: two bytes `0xFF`, which are not valid UTF-8, and
then `<a`. -/
def invalidBytes : Str := [Char.ofNat 0xFF, Char.ofNat 0xFF, '<', 'a']

end Wget

/-! # Package `sort`: the stable sort of Go, and insertion sort -/

namespace GoSort

/-!
The functions that `sort.SliceStable` runs, from `sort/zsortfunc.go` of the Go
distribution: `insertionSort_func`, `swapRange_func`, `rotate_func`,
`symMerge_func` and `stable_func`. The data of a sort is a list, `Less(i, j)`
is the comparison of the elements at the indices `i` and `j`, `Swap(i, j)`
exchanges them. An index outside the list would be a panic of the program,
and is a no-op here; the theorems on these functions follow every swap and
every comparison they rely on at indices within the list.
-/

/-- `data.Swap(i, j)`. -/
def swap {α : Type} (l : List α) (i j : Nat) : List α :=
  match l.get? i, l.get? j with
  | some x, some y => (l.set i y).set j x
  | _, _ => l

/-- `data.Less(i, j)` for the comparison `less` of elements. -/
def lessAt {α : Type} (less : α → α → Bool) (l : List α) (i j : Nat) : Bool :=
  match l.get? i, l.get? j with
  | some x, some y => less x y
  | _, _ => false

/-- The inner loop of `insertionSort_func`, entered with `j`:
`for ; j > a && data.Less(j, j-1); j-- { data.Swap(j, j-1) }`. -/
def insertDown {α : Type} (less : α → α → Bool) (a : Nat) : Nat → List α → List α
  | 0, l => l
  | j + 1, l =>
    if a < j + 1 && lessAt less l (j + 1) j then insertDown less a j (swap l (j + 1) j)
    else l

/-- The outer loop of `insertionSort_func`, entered with `i`:
`for ; i < b; i++ { ... }`; it makes at most `b - i` rounds. -/
def insertionSortLoop {α : Type} (less : α → α → Bool) (a b : Nat) :
    Nat → Nat → List α → List α
  | 0, _, l => l
  | fuel + 1, i, l =>
    if i < b then insertionSortLoop less a b fuel (i + 1) (insertDown less a i l) else l

/-- `insertionSort_func(data, a, b)`: insertion sort of `data[a:b]`. -/
def insertionSort_func {α : Type} (less : α → α → Bool) (l : List α) (a b : Nat) : List α :=
  insertionSortLoop less a b (b - a) (a + 1) l

/-- `swapRange_func(data, a, b, n)`:
`for i := 0; i < n; i++ { data.Swap(a+i, b+i) }`, the loop index being carried
in `a` and `b`. -/
def swapRange_func {α : Type} (l : List α) (a b : Nat) : Nat → List α
  | 0 => l
  | n + 1 => swapRange_func (swap l a b) (a + 1) (b + 1) n

/-- The loop of `rotate_func` with its variables `i` and `j`; every round makes
`i + j` smaller while both are positive. -/
def rotateLoop {α : Type} (m : Nat) : Nat → Nat → Nat → List α → List α
  | 0, _, _, l => l
  | fuel + 1, i, j, l =>
    if i ≠ j then
      if i > j then rotateLoop m fuel (i - j) j (swapRange_func l (m - i) m j)
      else rotateLoop m fuel i (j - i) (swapRange_func l (m - i) (m + j - i) i)
    else swapRange_func l (m - i) m i

/-- `rotate_func(data, a, m, b)`: exchanges the blocks `data[a:m]` and
`data[m:b]`. -/
def rotate_func {α : Type} (l : List α) (a m b : Nat) : List α :=
  rotateLoop m (b - a + 1) (m - a) (b - m) l

/-- A binary search loop of `symMerge_func` over `[i, j)`: `for i < j` with
`h := (i+j)/2`, going right (`i = h + 1`) when `right h` holds and left
(`j = h`) otherwise; the value is the final `i`. -/
def searchLoop (right : Nat → Bool) : Nat → Nat → Nat → Nat
  | 0, i, _ => i
  | fuel + 1, i, j =>
    if i < j then
      if right ((i + j) / 2) then searchLoop right fuel ((i + j) / 2 + 1) j
      else searchLoop right fuel i ((i + j) / 2)
    else i

/-- The loop `for k := a; k < i-1; k++ { data.Swap(k, k+1) }`, entered with
`k`, for `n` rounds. -/
def swapUp {α : Type} (l : List α) (k : Nat) : Nat → List α
  | 0 => l
  | n + 1 => swapUp (swap l k (k + 1)) (k + 1) n

/-- The loop `for k := m; k > i; k-- { data.Swap(k, k-1) }`, entered with `k`,
for `n` rounds. -/
def swapDown {α : Type} (l : List α) (k : Nat) : Nat → List α
  | 0 => l
  | n + 1 => swapDown (swap l k (k - 1)) (k - 1) n

/-- The binary search of the general case of `symMerge_func`: the final value
of its variable `start`. -/
def symMergeStart {α : Type} (less : α → α → Bool) (l : List α) (a m b : Nat) : Nat :=
  let mid := (a + b) / 2
  let n := mid + m
  let start0 := if m > mid then n - b else a
  let r := if m > mid then mid else m
  let p := n - 1
  searchLoop (fun c => !lessAt less l (p - c) c) (r - start0) start0 r

/-- `symMerge_func(data, a, m, b)`: merges the sorted blocks `data[a:m]` and
`data[m:b]`. The recursion is on blocks of at most half the length, so the
fuel `b - a` of `stable_func` is never used up. -/
def symMerge_func {α : Type} (less : α → α → Bool) :
    Nat → List α → Nat → Nat → Nat → List α
  | 0, l, _, _, _ => l
  | fuel + 1, l, a, m, b =>
    if m - a = 1 then
      let i := searchLoop (fun h => lessAt less l h a) (b - m) m b
      swapUp l a (i - 1 - a)
    else if b - m = 1 then
      let i := searchLoop (fun h => !lessAt less l m h) (m - a) a m
      swapDown l m (m - i)
    else
      let mid := (a + b) / 2
      let start := symMergeStart less l a m b
      let stop := mid + m - start
      let l := if start < m && m < stop then rotate_func l start m stop else l
      let l := if a < start && start < mid then symMerge_func less fuel l a start mid else l
      if mid < stop && stop < b then symMerge_func less fuel l mid stop b else l

/-- The first loop of `stable_func`: insertion sort of the blocks of
`blockSize` elements from `a` on; the value is the data and the final `a`. -/
def blocksLoop {α : Type} (less : α → α → Bool) (n blockSize : Nat) :
    Nat → Nat → List α → List α × Nat
  | 0, a, l => (l, a)
  | fuel + 1, a, l =>
    if a + blockSize ≤ n then
      blocksLoop less n blockSize fuel (a + blockSize)
        (insertionSort_func less l a (a + blockSize))
    else (l, a)

/-- The inner loop of the merge phase of `stable_func`: merges the pairs of
blocks from `a` on; the value is the data and the final `a`. -/
def mergePairsLoop {α : Type} (less : α → α → Bool) (n blockSize : Nat) :
    Nat → Nat → List α → List α × Nat
  | 0, a, l => (l, a)
  | fuel + 1, a, l =>
    if a + 2 * blockSize ≤ n then
      mergePairsLoop less n blockSize fuel (a + 2 * blockSize)
        (symMerge_func less (2 * blockSize) l a (a + blockSize) (a + 2 * blockSize))
    else (l, a)

/-- The merge phase of `stable_func`: `for blockSize < n { ...; blockSize *= 2 }`. -/
def mergeLoop {α : Type} (less : α → α → Bool) (n : Nat) : Nat → Nat → List α → List α
  | 0, _, l => l
  | fuel + 1, blockSize, l =>
    if blockSize < n then
      let r := mergePairsLoop less n blockSize n 0 l
      let l := if r.2 + blockSize < n then symMerge_func less (n - r.2) r.1 r.2 (r.2 + blockSize) n
        else r.1
      mergeLoop less n fuel (blockSize * 2) l
    else l

/-- `stable_func(data, n)`: insertion sort of blocks of 20 elements, then
merges of blocks of doubling size. -/
def stable_func {α : Type} (less : α → α → Bool) (l : List α) (n : Nat) : List α :=
  let r := blocksLoop less n 20 n 0 l
  let l := insertionSort_func less r.1 r.2 n
  mergeLoop less n n 20 l

/-- `sort.SliceStable(x, less)`. -/
def SliceStable {α : Type} (less : α → α → Bool) (l : List α) : List α :=
  stable_func less l l.length

/-- What the proofs need of a comparison `less`: a relation `le` that is
transitive, holds when `less` does, and holds the other way round when `less`
does not. The comparison itself may hold both ways on equal elements. -/
structure Compares {α : Type} (less : α → α → Bool) (le : α → α → Prop) : Prop where
  of_less : ∀ x y, less x y = true → le x y
  of_not_less : ∀ x y, less x y = false → le y x
  trans : ∀ x y z, le x y → le y z → le x z

/-- The state of the data between the phases of `stable_func`: every block of
`blockSize` elements, counted from the front, is sorted. -/
def BlockSorted {α : Type} (le : α → α → Prop) (blockSize : Nat) (l : List α) : Prop :=
  ∀ k, ((l.drop (k * blockSize)).take blockSize).Pairwise le

end GoSort

/-! # The string unpacker of `2-9/2-9.go` -/

namespace StrUnpack
open Wget

/-!
A Go `string` is its bytes (`Str`), a rune is its code point (`Nat`). The
conversion `[]rune(s)` and the loop `for _, r := range s` decode the bytes with
`decodeRune`; `strings.Builder.WriteRune` writes the bytes of `encodeRune`.
-/

/-- The loop of `[]rune(s)`: the runes of the bytes, an invalid byte giving
`RuneError`. Every round consumes at least one byte. -/
def runesLoop : Nat → Str → List Nat
  | 0, _ => []
  | fuel + 1, s =>
    if s = [] then []
    else (decodeRune s).1 :: runesLoop fuel (s.drop (decodeRune s).2)

/-- Go `[]rune(s)`; also the runes that `for _, r := range s` visits. -/
def runes (s : Str) : List Nat := runesLoop s.length s

/-- The bytes that `WriteRune` writes for each rune of a list, in turn. -/
def encodeRunes (rs : List Nat) : Str := rs.flatMap encodeRune

/-- Go `utf8.ValidString`: decoding and writing back gives the same bytes. -/
def validString (s : Str) : Bool := encodeRunes (runes s) = s

/-- Go `unicode.IsDigit`: `'0'` to `'9'` up to `MaxLatin1`, and for every other
rune the lookup in the table of the category `Nd`, which is the parameter
`nd`. -/
def unicodeIsDigit (nd : Nat → Bool) (r : Nat) : Bool :=
  if r ≤ 0xFF then 0x30 ≤ r && r ≤ 0x39 else nd r

/-- The largest `int` (64 bits). -/
def maxInt : Nat := 2 ^ 63 - 1

/-- The value of a string of the digits `'0'` to `'9'`. -/
def digitsValue (ds : List Nat) : Nat := ds.foldl (fun acc d => acc * 10 + (d - 0x30)) 0

/-- Go `strconv.Atoi` on the string of the runes `ds`, each of them a digit
for `unicode.IsDigit`: the value, or `none` for an error (the empty string, a
digit outside `'0'` to `'9'`, a value out of the range of `int`). -/
def atoi (ds : List Nat) : Option Nat :=
  if ds ≠ [] ∧ ds.all (fun d => 0x30 ≤ d && d ≤ 0x39) then
    if digitsValue ds ≤ maxInt then some (digitsValue ds) else none
  else none

/-- The errors of `Unpack`. -/
inductive UnpackError
  | trailingBackslash
  | invalidNumber
  | onlyDigits
deriving DecidableEq, Repr

/-- The main loop of `Unpack` over the runes from index `i` on (`runes[i:]`),
with the flag `escaped` and the bytes in the builder. Every round consumes at
least one rune, so the fuel `len(runes)` of `Unpack` is never used up. -/
def unpackLoop (nd : Nat → Bool) :
    Nat → List Nat → Bool → Str → Except UnpackError Str
  | _, [], escaped, out => if escaped then .error .trailingBackslash else .ok out
  | 0, _ :: _, _, out => .ok out
  | fuel + 1, r :: rest, escaped, out =>
    if escaped then unpackLoop nd fuel rest false (out ++ encodeRune r)
    else if r = 0x5C then
      if rest = [] then .error .trailingBackslash
      else unpackLoop nd fuel rest true out
    else if (rest.head?.map (unicodeIsDigit nd)).getD false then
      match atoi (rest.takeWhile (unicodeIsDigit nd)) with
      | none => .error .invalidNumber
      | some count =>
        if count = 0 then unpackLoop nd fuel (rest.dropWhile (unicodeIsDigit nd)) false out
        else
          unpackLoop nd fuel (rest.dropWhile (unicodeIsDigit nd)) false
            (out ++ (List.replicate count (encodeRune r)).flatten)
    else unpackLoop nd fuel rest false (out ++ encodeRune r)

/-- The loop of the last check of `Unpack`: whether the string holds an
escaped rune or a rune that is not a digit. -/
def hasValidChar (nd : Nat → Bool) : List Nat → Bool → Bool
  | [], _ => false
  | _ :: _, true => true
  | r :: rest, false =>
    if r = 0x5C then hasValidChar nd rest true
    else if !unicodeIsDigit nd r then true
    else hasValidChar nd rest false

/-- `Unpack`: the unpacked string, or an error (with which the source returns
the empty string). -/
def Unpack (nd : Nat → Bool) (s : Str) : Except UnpackError Str :=
  if s = [] then .ok []
  else
    match unpackLoop nd (runes s).length (runes s) false [] with
    | .error e => .error e
    | .ok result =>
      if result = [] ∧ s.length > 0 then
        if !hasValidChar nd (runes s) false then .error .onlyDigits else .ok result
      else .ok result

/-- A table of the category `Nd` without any entry. -/
def noDigits : Nat → Bool := fun _ => false

/-- The rune that the bytes written for `r` decode to: `r` itself, or
`RuneError` for a surrogate and for a value above `MaxRune`. -/
def normRune (r : Nat) : Nat :=
  if 0x10FFFF < r || (0xD800 ≤ r && r ≤ 0xDFFF) then runeError else r

/-- The string in which each rune of `rs` is preceded by a backslash. -/
def escapeAll (rs : List Nat) : Str := rs.flatMap fun r => '\\' :: encodeRune r

end StrUnpack

/-! # The sort utility of `2-10/2-10.go` -/

namespace SortUtil
open Wget

/-!
The program `sort` from the point where the flags are parsed: `main` stands
for the whole of it, `sortMain` for what it does with the lines that the
scanner has read. A comparison `a < b` of Go strings is the lexicographic
order of their bytes, which is the order of `Str`.
-/

/-- The library functions whose results the program only compares or passes
on: `strings.ToLower`, `strings.TrimSpace`, `strconv.ParseFloat(s, 64)` (a
`float64` is given by its 64 bits, `none` is an error), the comparison `<` of
two `float64` values and the product of a `float64` value and 1024. -/
structure Library where
  toLower : Str → Str
  trimSpace : Str → Str
  parseFloat : Str → Option Nat
  floatLess : Nat → Nat → Bool
  times1024 : Nat → Nat

/-- The flags of the program. -/
structure Flags where
  keyNum : Int := 0
  numeric : Bool := false
  reverse : Bool := false
  unique : Bool := false
  monthSort : Bool := false
  ignoreBlanks : Bool := false
  check : Bool := false
  human : Bool := false

/-- `monthMap`. -/
def monthMap : List (Str × Int) :=
  [("jan".toList, 1), ("feb".toList, 2), ("mar".toList, 3), ("apr".toList, 4),
   ("may".toList, 5), ("jun".toList, 6), ("jul".toList, 7), ("aug".toList, 8),
   ("sep".toList, 9), ("oct".toList, 10), ("nov".toList, 11), ("dec".toList, 12)]

/-- The loop of `parseHumanReadable` that looks for the last digit:
`for i = len(s)-1; i >= 0 && !unicode.IsDigit(rune(s[i])); i--`, on the
reversed string; the value is `i + 1`, which is 0 when there is no digit. -/
def digitsEnd (s : Str) : Nat :=
  (s.reverse.dropWhile fun c => !(0x30 ≤ c.toNat && c.toNat ≤ 0x39)).length

/-- `parseHumanReadable`; `none` is an error. -/
def parseHumanReadable (lib : Library) (s : Str) : Option Nat :=
  let s := lib.trimSpace (lib.toLower s)
  if s = [] then none
  else
    match lib.parseFloat s with
    | some val => some val
    | none =>
      if digitsEnd s = 0 then none
      else
        match lib.parseFloat (s.take (digitsEnd s)) with
        | none => none
        | some num =>
          let suffix := s.drop (digitsEnd s)
          if suffix = [] ∨ suffix = ['b'] then some num
          else if suffix = ['k'] then some (lib.times1024 num)
          else if suffix = ['m'] then some (lib.times1024 (lib.times1024 num))
          else if suffix = ['g'] then
            some (lib.times1024 (lib.times1024 (lib.times1024 num)))
          else if suffix = ['t'] then
            some (lib.times1024 (lib.times1024 (lib.times1024 (lib.times1024 num))))
          else none

/-- `getFieldValue`. -/
def getFieldValue (line : Str) (n : Int) : Str :=
  if n ≤ 0 then line
  else
    let fields := splitOnByte line '\t'
    if n > fields.length then line
    else fields.getD (n - 1).toNat line

/-- `trimTrailingBlanks`. -/
def trimTrailingBlanks (s : Str) : Str :=
  (s.reverse.dropWhile fun c => c = ' ' || c = '\t').reverse

/-- `monthValue`. -/
def monthValue (lib : Library) (s : Str) : Int :=
  (monthMap.lookup (lib.toLower (lib.trimSpace s))).getD 0

/-- The comparison `lessFunc` of `main`, on two lines. -/
def lessFunc (lib : Library) (flags : Flags) (a b : Str) : Bool :=
  let a := if flags.keyNum > 0 then getFieldValue a flags.keyNum else a
  let b := if flags.keyNum > 0 then getFieldValue b flags.keyNum else b
  let less : Bool :=
    if flags.monthSort then
      if monthValue lib a ≠ 0 ∨ monthValue lib b ≠ 0 then
        decide (monthValue lib a < monthValue lib b)
      else decide (a < b)
    else if flags.human then
      match parseHumanReadable lib a, parseHumanReadable lib b with
      | some va, some vb => lib.floatLess va vb
      | _, _ => decide (a < b)
    else if flags.numeric then
      match lib.parseFloat a, lib.parseFloat b with
      | some va, some vb => lib.floatLess va vb
      | _, _ => decide (a < b)
    else decide (a < b)
  if flags.reverse then !less else less

/-- How the program ends: with the lines it has printed and the status 0, or
by `os.Exit` with a status and nothing printed to standard output. -/
inductive Outcome
  | printed (lines : List Str)
  | exit (status : Nat)
deriving DecidableEq, Repr

/-- The loop of `-c`: `for i := 1; i < len(lines); i++ { if lessFunc(i, i-1) ... }`,
on the line at `i - 1` and the lines from `i` on; whether it finds a line that
is less than the one before it. -/
def outOfOrder (lib : Library) (flags : Flags) : Str → List Str → Bool
  | _, [] => false
  | prev, line :: rest =>
    if lessFunc lib flags line prev then true else outOfOrder lib flags line rest

/-- The loop of `-u` on the line at `i - 1` and the lines from `i` on: the
lines that differ from the line before them. -/
def uniqueLoop : Str → List Str → List Str
  | _, [] => []
  | prev, line :: rest =>
    if line ≠ prev then line :: uniqueLoop line rest else uniqueLoop line rest

/-- The part of `main` that follows the scan of the input (lines 178-263), on
the flags and the lines read; the check of `-k` (line 148) stands before it. -/
def sortMain (lib : Library) (flags : Flags) (input : List Str) : Outcome :=
  if flags.keyNum < 0 then .exit 1
  else
    let lines := if flags.ignoreBlanks then input.map trimTrailingBlanks else input
    if flags.check then
      match lines with
      | [] => .exit 0
      | first :: rest => if outOfOrder lib flags first rest then .exit 1 else .exit 0
    else
      let lines := GoSort.SliceStable (lessFunc lib flags) lines
      if flags.unique then
        match lines with
        | [] => .printed []
        | first :: rest => .printed (first :: uniqueLoop first rest)
      else .printed lines

/-- A library that recognises no number and changes no string. -/
def plainLibrary : Library :=
  { toLower := id, trimSpace := id, parseFloat := fun _ => none,
    floatLess := fun _ _ => false, times1024 := id }

/-- `bufio.MaxScanTokenSize`, the largest buffer of a `bufio.Scanner`. -/
def maxScanTokenSize : Nat := 64 * 1024

/-- `dropCR` of package `bufio`: the text without a `\r` at its end. -/
def dropCR (data : Str) : Str :=
  if data.getLast? = some '\r' then data.dropLast else data

/-- The loop `for scanner.Scan() { lines = append(lines, scanner.Text()) }`
with the split function `bufio.ScanLines`, on the pieces between the `\n` of
the input, the last piece being the text after the last `\n`: the lines
appended, and whether `scanner.Err()` is `ErrTooLong` at the end. The scanner
finds a line when its `\n` stands in the buffer, or at the end of the input
when the buffer is not full; the buffer holds `maxScanTokenSize` bytes at most,
counted from the start of the line, so a piece of `maxScanTokenSize` bytes or
more stops the scan with `ErrTooLong`. An empty last piece is no line. -/
def scanLoop : List Str → List Str × Bool
  | [] => ([], false)
  | [last] =>
    if last = [] then ([], false)
    else if last.length < maxScanTokenSize then ([dropCR last], false)
    else ([], true)
  | line :: rest =>
    if line.length < maxScanTokenSize then ((dropCR line) :: (scanLoop rest).1, (scanLoop rest).2)
    else ([], true)

/-- The scan of the bytes `data` of the input. -/
def scanLines (data : Str) : List Str × Bool := scanLoop (splitOnByte data '\n')

/-- What the program finds outside: whether `os.Open` of the file argument
fails (never, when the input is the standard input), the bytes that the reader
delivers, and whether the reader ends them with an error other than
`io.EOF`. -/
structure Input where
  openFails : Bool := false
  data : Str
  readFails : Bool := false

/-- `main`, from the parsed flags on: the check of `-k`, the choice of the
input, the scan of its lines with the exit on `scanner.Err()`, and the rest of
`main` on the lines read (`sortMain`). -/
def main (lib : Library) (flags : Flags) (input : Input) : Outcome :=
  if flags.keyNum < 0 then .exit 1
  else if input.openFails then .exit 1
  else
    if (scanLines input.data).2 || input.readFails then .exit 1
    else sortMain lib flags (scanLines input.data).1

end SortUtil

/-! # The grep utility of `2-12/2-12.go` -/

namespace GrepUtil
open Wget

/-!
The function `grep` of the source, from the point where `buildMatcher` has
returned its matcher and the scanner has read the lines. Go's `int` is taken
with 64 bits: a sum or difference is the mathematical one brought back into
the range by `wrapInt`.
-/

/-- The value of an `int` expression whose mathematical value is `x`. -/
def wrapInt (x : Int) : Int := (x + 2 ^ 63) % 2 ^ 64 - 2 ^ 63

/-- `grepOptions`. -/
structure grepOptions where
  afterContext : Int
  beforeContext : Int
  countOnly : Bool
  ignoreCase : Bool
  invertMatch : Bool
  fixedString : Bool
  lineNumber : Bool
  pattern : Str

/-- The inner loop of `sortInts`, entered with `j`:
`for ; j > 0 && a[j] < a[j-1]; j-- { a[j], a[j-1] = a[j-1], a[j] }`. -/
def sortIntsInner : Nat → List Int → List Int
  | 0, a => a
  | j + 1, a =>
    if (match a.get? (j + 1), a.get? j with
        | some x, some y => decide (x < y)
        | _, _ => false) then
      sortIntsInner j (GoSort.swap a (j + 1) j)
    else a

/-- The outer loop of `sortInts`, entered with `i`: `for ; i < len(a); i++`. -/
def sortIntsLoop : Nat → Nat → List Int → List Int
  | 0, _, a => a
  | fuel + 1, i, a =>
    if i < a.length then sortIntsLoop fuel (i + 1) (sortIntsInner i a) else a

/-- `sortInts`. -/
def sortInts (a : List Int) : List Int := sortIntsLoop a.length 1 a

/-- The flags `matchingLines` of the lines. -/
def matchingLines (matchFn : Str → Bool) (opts : grepOptions) (lines : List Str) : List Bool :=
  lines.map fun line => if opts.invertMatch then !matchFn line else matchFn line

/-- The assignment `outputLines[j] = true`, on the list of the keys of the
map. -/
def setKey (keys : List Int) (j : Int) : List Int := if j ∈ keys then keys else keys ++ [j]

/-- The loop `for j := start; j <= end; j++ { outputLines[j] = true }`. -/
def markRange (keys : List Int) (start stop : Int) : List Int :=
  (List.range (stop - start + 1).toNat).foldl (fun ks (k : Nat) => setKey ks (start + k)) keys

/-- The loop over `matchingLines` that collects the lines to print, at index
`i` with the keys of `outputLines` so far. -/
def collect (opts : grepOptions) (totalLines : Int) : List Bool → Int → List Int → List Int
  | [], _, keys => keys
  | isMatch :: rest, i, keys =>
    if isMatch then
      let start := wrapInt (i - opts.beforeContext)
      let start := if start < 0 then 0 else start
      let stop := wrapInt (i + opts.afterContext)
      let stop := if stop ≥ totalLines then totalLines - 1 else stop
      collect opts totalLines rest (i + 1) (markRange keys start stop)
    else collect opts totalLines rest (i + 1) keys

/-- What `grep` writes to standard output: the separator `--`, the count of
`-c`, or a line of the input, given with its index and the text printed for
it. -/
inductive Printed
  | separator
  | count (n : Nat)
  | line (idx : Int) (text : Str)
deriving DecidableEq, Repr

/-- The output loop of `grep` over the sorted indices, with `prevEnd`.
`filePrefixed` is the condition of the multi-file mode on `flag.Args()`. -/
def printLoop (opts : grepOptions) (lines : List Str) (matching : List Bool)
    (filename : Str) (filePrefixed : Bool) : List Int → Int → List Printed
  | [], _ => []
  | idx :: rest, prevEnd =>
    let line := lines.getD idx.toNat []
    let isMatch := matching.getD idx.toNat false
    let context := decide (opts.beforeContext > 0) || decide (opts.afterContext > 0)
    let sep := if context && prevEnd ≠ idx - 1 && prevEnd ≠ -2 then [Printed.separator] else []
    let prevEnd := if context then idx else prevEnd
    let number := (toString (idx + 1)).toList
    let pre :=
      if opts.lineNumber then (if isMatch then number ++ [':'] else number ++ ['-']) else []
    let filePrefix :=
      if filePrefixed then (if isMatch then filename ++ [':'] else filename ++ ['-']) else []
    sep ++ Printed.line idx (filePrefix ++ pre ++ line) ::
      printLoop opts lines matching filename filePrefixed rest prevEnd

/-- `grep` on the lines of one input: whether a line was found, and the
output. `order` is the order in which the `range` over the map `outputLines`
visits its keys, which Go leaves open. -/
def grep (order : List Int → List Int) (matchFn : Str → Bool) (opts : grepOptions)
    (filename : Str) (filePrefixed : Bool) (lines : List Str) : Bool × List Printed :=
  let matching := matchingLines matchFn opts lines
  let matchCount := matching.count true
  if opts.countOnly then (decide (matchCount > 0), [Printed.count matchCount])
  else if matchCount = 0 then (false, [])
  else
    let keys := collect opts lines.length matching 0 []
    let indices := sortInts (order keys)
    (true, printLoop opts lines matching filename filePrefixed indices (-2))

/-- The indices of the lines in an output, in the order they are printed. -/
def printedIndices (out : List Printed) : List Int :=
  out.filterMap fun p =>
    match p with
    | .line idx _ => some idx
    | _ => none

/-- The lines to print in the words of C29: the indices `j` of the input for
which a selected line `i` has `i - B ≤ j ≤ i + A`. -/
def inContext (matching : List Bool) (before after : Int) (j : Int) : Prop :=
  0 ≤ j ∧ j < matching.length ∧
    ∃ i : Nat, matching.get? i = some true ∧ (i : Int) - before ≤ j ∧ j ≤ (i : Int) + after

/-- A bound on context sizes and on the number of lines under which no sum or
difference in `grep` leaves the range of `int`. -/
def maxContext : Int := 2 ^ 62

/-- Options with the context sizes `before` and `after` and no other flag. -/
def contextOptions (before after : Int) : grepOptions :=
  { afterContext := after, beforeContext := before, countOnly := false, ignoreCase := false,
    invertMatch := false, fixedString := true, lineNumber := false, pattern := ['a'] }

end GrepUtil

/-! # Theorems -/

namespace Wget

/-! ## The loops never run out of fuel -/

theorem index_nil_cons (c : Char) (sub : Str) : index [] (c :: sub) = none := by
  simp [index]

/-- The fuel of `extractLinks` is never used up: from any position within the
content, more fuel than `len(content) + 1 - pos` gives the same result. -/
theorem extractLinksLoop_fuel (lowerCase : Nat → Int) (content tagStart attrPattern : Str)
    (baseURL : URL) :
    ∀ (fuel fuel' pos : Nat) (results : List Str), pos ≤ content.length →
      content.length + 1 ≤ fuel + pos → content.length + 1 ≤ fuel' + pos →
      extractLinksLoop lowerCase content tagStart attrPattern baseURL fuel pos results =
        extractLinksLoop lowerCase content tagStart attrPattern baseURL fuel' pos results := by
  intro fuel
  induction fuel with
  | zero =>
    intro fuel' pos results hpos h1 _
    omega
  | succ k ih =>
    intro fuel' pos results hpos h1 h2
    cases fuel' with
    | zero => omega
    | succ k' =>
      simp only [extractLinksLoop, Option.bind_eq_bind]
      cases sliceFrom? content pos with
      | none => rfl
      | some tail =>
        simp only [Option.some_bind]
        cases index (goToLower lowerCase tail) tagStart with
        | none => rfl
        | some tagRel =>
          simp only []
          cases sliceFrom? content (tagRel + pos) with
          | none => rfl
          | some fromTag =>
            simp only [Option.some_bind]
            cases index fromTag ['>'] with
            | none => rfl
            | some endRel =>
              simp only []
              have hk : ∀ R : List Str,
                  (if endRel + (tagRel + pos) + 1 ≥ content.length then some R
                    else extractLinksLoop lowerCase content tagStart attrPattern baseURL k
                      (endRel + (tagRel + pos) + 1) R) =
                  (if endRel + (tagRel + pos) + 1 ≥ content.length then some R
                    else extractLinksLoop lowerCase content tagStart attrPattern baseURL k'
                      (endRel + (tagRel + pos) + 1) R) := by
                intro R
                split
                · rfl
                · exact ih k' _ _ (by omega) (by omega) (by omega)
              simp only [hk]

theorem isPrefixOf_drop_of_index :
    ∀ (s sub : Str) (i : Nat), index s sub = some i → sub.isPrefixOf (s.drop i) = true
  | [], sub, i, h => by
    simp only [index] at h
    split at h
    · next hs =>
      cases h
      simpa using hs
    · cases h
  | c :: cs, sub, i, h => by
    simp only [index] at h
    split at h
    · next hp =>
      cases h
      simpa using hp
    · cases hi : index cs sub with
      | none => simp [hi] at h
      | some j =>
        simp only [hi, Option.map_some', Option.some.injEq] at h
        subst h
        simpa using isPrefixOf_drop_of_index cs sub j hi

/-- `strings.ToLower` leaves a `>` at the head of a text where it is. -/
theorem goToLower_gt_cons (lowerCase : Nat → Int) (rest : Str) :
    ∃ out, goToLower lowerCase ('>' :: rest) = '>' :: out := by
  unfold goToLower
  split
  · exact ⟨toLower rest, rfl⟩
  · have hd : decodeRune ('>' :: rest) = (0x3E, 1) := by
      simp [decodeRune]
    refine ⟨mapScan (unicodeToLower lowerCase) rest.length rest, ?_⟩
    simp only [goMap, List.length_cons, mapScan, hd]
    simp [unicodeToLower, runeError]

/-- A tag found by the rewriter is not closed at its first byte: when the tag
is found at the position where the search began, the `>` that ends it comes
at least one byte later. -/
theorem tag_end_after_start (lowerCase : Nat → Int) (content t : Str) (pos tagRel endRel : Nat)
    (htag : index (goToLower lowerCase (content.drop pos)) ('<' :: t) = some tagRel)
    (hend : index (content.drop (tagRel + pos)) ['>'] = some endRel) : 1 ≤ endRel + tagRel := by
  by_contra hlt
  have h0 : endRel = 0 := by omega
  have h1 : tagRel = 0 := by omega
  subst h0 h1
  have hp := isPrefixOf_drop_of_index _ _ _ htag
  have hq := isPrefixOf_drop_of_index _ _ _ hend
  simp only [Nat.zero_add, List.drop_zero] at hp hq
  cases hd : content.drop pos with
  | nil =>
    rw [hd] at hq
    simp at hq
  | cons c cs =>
    rw [hd] at hp hq
    simp only [List.isPrefixOf, Bool.and_eq_true, beq_iff_eq] at hq
    have hc : c = '>' := hq.1.symm
    subst hc
    obtain ⟨out, hout⟩ := goToLower_gt_cons lowerCase cs
    rw [hout] at hp
    simp only [List.isPrefixOf, Bool.and_eq_true, beq_iff_eq] at hp
    exact absurd hp.1 (by decide)

/-- The fuel of `replaceLinksInTag` is never used up. -/
theorem replaceLinksInTagLoop_fuel (lowerCase : Nat → Int) (content t attrPattern : Str)
    (baseURL : URL) :
    ∀ (fuel fuel' pos : Nat) (result : Str), pos ≤ content.length →
      content.length + 1 ≤ fuel + pos → content.length + 1 ≤ fuel' + pos →
      replaceLinksInTagLoop lowerCase content ('<' :: t) attrPattern baseURL fuel pos result =
        replaceLinksInTagLoop lowerCase content ('<' :: t) attrPattern baseURL fuel' pos
          result := by
  intro fuel
  induction fuel with
  | zero =>
    intro fuel' pos result hpos h1 _
    omega
  | succ k ih =>
    intro fuel' pos result hpos h1 h2
    cases fuel' with
    | zero => omega
    | succ k' =>
      simp only [replaceLinksInTagLoop, Option.bind_eq_bind]
      have hs : sliceFrom? content pos = some (content.drop pos) := by
        simp [sliceFrom?, hpos]
      rw [hs]
      simp only [Option.some_bind]
      cases htag : index (goToLower lowerCase (content.drop pos)) ('<' :: t) with
      | none => rfl
      | some tagRel =>
        simp only []
        cases slice? content pos (tagRel + pos) with
        | none => rfl
        | some before =>
          simp only [Option.some_bind]
          cases hf : sliceFrom? content (tagRel + pos) with
          | none => rfl
          | some fromTag =>
            have hft : fromTag = content.drop (tagRel + pos) := by
              simp only [sliceFrom?] at hf
              split at hf
              · exact (Option.some.inj hf).symm
              · cases hf
            subst hft
            simp only [Option.some_bind]
            cases hend : index (content.drop (tagRel + pos)) ['>'] with
            | none => rfl
            | some endRel =>
              have hprog := tag_end_after_start lowerCase content t pos tagRel endRel htag hend
              simp only []
              have hk : ∀ R : Str,
                  (if endRel + (tagRel + pos) ≥ content.length then some R
                    else replaceLinksInTagLoop lowerCase content ('<' :: t) attrPattern baseURL
                      k (endRel + (tagRel + pos)) R) =
                  (if endRel + (tagRel + pos) ≥ content.length then some R
                    else replaceLinksInTagLoop lowerCase content ('<' :: t) attrPattern baseURL
                      k' (endRel + (tagRel + pos)) R) := by
                intro R
                split
                · rfl
                · exact ih k' _ _ (by omega) (by omega) (by omega)
              simp only [hk]

/-- The fuel of `FindAll` is never used up. -/
theorem findAllLoop_fuel (content tagStart attr : Str) :
    ∀ (fuel fuel' i : Nat) (results : List Str),
      content.length + 1 ≤ fuel + i → content.length + 1 ≤ fuel' + i →
      findAllLoop content tagStart attr fuel i results =
        findAllLoop content tagStart attr fuel' i results := by
  have hstop : ∀ (fuel i : Nat) (results : List Str), content.length ≤ i →
      findAllLoop content tagStart attr fuel i results = results := by
    intro fuel i results hi
    cases fuel with
    | zero => rfl
    | succ k => simp [findAllLoop, hi]
  intro fuel
  induction fuel with
  | zero =>
    intro fuel' i results h1 _
    rw [hstop 0 i results (by omega), hstop fuel' i results (by omega)]
  | succ k ih =>
    intro fuel' i results h1 h2
    cases fuel' with
    | zero => rw [hstop (k + 1) i results (by omega), hstop 0 i results (by omega)]
    | succ k' =>
      have hj : i + tagStart.length ≤ scanUntil content (i + tagStart.length) (· == '>') := by
        simp [scanUntil]
      simp only [findAllLoop]
      split
      · rfl
      · split
        · split
          · split
            · exact ih k' _ _ (by omega) (by omega)
            · exact ih k' _ _ (by omega) (by omega)
          · exact ih k' _ _ (by omega) (by omega)
        · exact ih k' _ _ (by omega) (by omega)

/-! ## Steps and invariants -/

theorem mem_of_get?_eq {α : Type} {l : List α} {i : Nat} {a : α} (h : l.get? i = some a) :
    a ∈ l := by
  rw [List.get?_eq_some] at h
  obtain ⟨hi, rfl⟩ := h
  exact List.get_mem l i hi

theorem forall_mem_set {α : Type} {l : List α} {P : α → Prop} {a : α} (i : Nat)
    (hl : ∀ x ∈ l, P x) (ha : P a) : ∀ x ∈ l.set i a, P x := by
  intro x hx
  rcases List.mem_or_eq_of_mem_set hx with h | h
  · exact hl x h
  · exact h ▸ ha

/-- What one step of a worker changes. -/
theorem stepWorker_effect {w : World} {config : Config} {s s' : State} {id : Nat}
    {pc : WorkerPc} (h : stepWorker w config s id pc = some s') :
    ∃ pc', s'.workers = s.workers.set id pc' ∧
      (s'.mainPc = s.mainPc ∨ s'.mainPc = .exited) ∧ s'.closed = s.closed ∧
      (pc' = .done → s.closed = true) ∧ (pc' ≠ .done → s'.wg = s.wg) ∧
      (∀ pg, pc'.page? = some pg → pc.page? = some pg ∨
        (pc.task? = some pg.task ∧ pg.task.Depth < config.MaxDepth)) ∧
      (∀ t, pc'.task? = some t → pc.task? = some t ∨ t ∈ s.queue) ∧
      (∀ t ∈ s'.queue, t ∈ s.queue ∨ ∃ pg, pc.page? = some pg ∧ (some pg.task, t) ∈ s'.sent) ∧
      (∀ e ∈ s'.sent, e ∈ s.sent ∨
        ∃ pg, pc.page? = some pg ∧ e.1 = some pg.task ∧ e.2.Depth = pg.task.Depth + 1) ∧
      (∀ e ∈ s.sent, e ∈ s'.sent) ∧
      (∀ t ∈ s'.fetched, t ∈ s.fetched ∨ pc.task? = some t) := by
  unfold stepWorker at h
  simp only at h
  split at h <;> (try split at h) <;> (try split at h) <;> (try split at h) <;>
    simp only [Option.some.injEq, reduceCtorEq] at h <;> subst h
  all_goals refine ⟨_, rfl, ?_⟩
  all_goals simp [WorkerPc.page?, WorkerPc.task?]
  all_goals (try simp_all)
  all_goals (try tauto)
  all_goals
    refine ⟨by tauto, ?_⟩
    rintro a b (h | ⟨rfl, rfl⟩)
    · exact Or.inl h
    · exact Or.inr ⟨rfl, rfl⟩

theorem depthInv_initial (config : Config) : DepthInv config initial := by
  constructor <;> simp [initial]

theorem depthInv_stepMain {w : World} {config : Config} {s s' : State}
    (hinv : DepthInv config s) (h : stepMain w config s = some s') : DepthInv config s' := by
  obtain ⟨h1, h2, h3, h4, h5, h6⟩ := hinv
  unfold stepMain at h
  split at h <;> (try split at h) <;> (try split at h) <;> (try split at h) <;>
    simp only [Option.some.injEq, reduceCtorEq] at h <;> subst h
  all_goals first
    | exact ⟨h1, h2, h3, h4, h5, h6⟩
    | skip
  · refine ⟨h1, h2, ?_, h4, ?_, h6⟩
    · intro pc hpc
      rcases List.mem_append.1 hpc with h | h
      · exact h3 pc h
      · simp at h
        subst h
        simp [WorkerPc.page?]
    · intro pc hpc
      rcases List.mem_append.1 hpc with h | h
      · exact h5 pc h
      · simp at h
        subst h
        simp [WorkerPc.task?]
  · have hex : ∀ (more : List (Option DownloadTask × DownloadTask)) (t : DownloadTask),
        (∃ p, (p, t) ∈ s.sent) → ∃ p, (p, t) ∈ s.sent ++ more :=
      fun more t ⟨p, hp⟩ => ⟨p, List.mem_append_left more hp⟩
    refine ⟨?_, ?_, h3, ?_, ?_, ?_⟩
    · intro e he p hp
      rcases List.mem_append.1 he with h | h
      · exact h1 e h p hp
      · simp at h
        subst h
        simp at hp
    · intro e he hn
      rcases List.mem_append.1 he with h | h
      · exact h2 e h hn
      · simp at h
        subst h
        rfl
    · intro t ht
      rcases List.mem_append.1 ht with h | h
      · exact hex _ t (h4 t h)
      · simp at h
        subst h
        exact ⟨none, by simp⟩
    · exact fun pc hpc t ht => hex _ t (h5 pc hpc t ht)
    · exact fun t ht => hex _ t (h6 t ht)

theorem depthInv_stepWorker {w : World} {config : Config} {s s' : State} {id : Nat}
    {pc : WorkerPc} (hinv : DepthInv config s) (hpc : pc ∈ s.workers)
    (h : stepWorker w config s id pc = some s') : DepthInv config s' := by
  obtain ⟨h1, h2, h3, h4, h5, h6⟩ := hinv
  obtain ⟨pc', hw, -, -, -, -, hpage, htask, hqueue, hsent, hmono, hfetched⟩ := stepWorker_effect h
  have hex : ∀ t, (∃ p, (p, t) ∈ s.sent) → ∃ p, (p, t) ∈ s'.sent :=
    fun t ⟨p, hp⟩ => ⟨p, hmono _ hp⟩
  refine ⟨?_, ?_, ?_, ?_, ?_, ?_⟩
  · intro e he p hp
    rcases hsent e he with h | ⟨pg, hpg, hp1, hp2⟩
    · exact h1 e h p hp
    · rw [hp1] at hp
      cases hp
      exact ⟨hp2, h3 pc hpc pg hpg⟩
  · intro e he hn
    rcases hsent e he with h | ⟨pg, hpg, hp1, hp2⟩
    · exact h2 e h hn
    · rw [hp1] at hn
      cases hn
  · rw [hw]
    apply forall_mem_set _ h3
    intro pg hpg
    rcases hpage pg hpg with h | ⟨-, h⟩
    · exact h3 pc hpc pg h
    · exact h
  · intro t ht
    rcases hqueue t ht with h | ⟨pg, -, h⟩
    · exact hex t (h4 t h)
    · exact ⟨_, h⟩
  · rw [hw]
    apply forall_mem_set _ (fun pc hpc t ht => hex t (h5 pc hpc t ht))
    intro t ht
    rcases htask t ht with h | h
    · exact hex t (h5 pc hpc t h)
    · exact hex t (h4 t h)
  · intro t ht
    rcases hfetched t ht with h | h
    · exact hex t (h6 t h)
    · exact hex t (h5 pc hpc t h)

theorem depthInv_step {w : World} {config : Config} {s s' : State} {a : Actor}
    (hinv : DepthInv config s) (h : step w config s a = some s') : DepthInv config s' := by
  cases a with
  | main => exact depthInv_stepMain hinv h
  | worker id =>
    simp only [step] at h
    split at h
    · cases h
    · split at h
      · cases h
      · next pc hpc => exact depthInv_stepWorker hinv (mem_of_get?_eq hpc) h

theorem depthInv_of_reachable {w : World} {config : Config} {s : State}
    (h : Reachable w config s) : DepthInv config s := by
  induction h with
  | start => exact depthInv_initial config
  | next a _ hstep ih => exact depthInv_step ih hstep

theorem reachable_runSchedule {w : World} {config : Config} :
    ∀ (schedule : List Actor) {s s' : State}, Reachable w config s →
      runSchedule w config s schedule = some s' → Reachable w config s'
  | [], s, s', hs, h => by
    simp only [runSchedule, Option.some.injEq] at h
    exact h ▸ hs
  | a :: rest, s, s', hs, h => by
    simp only [runSchedule] at h
    split at h
    · cases h
    · next s1 h1 => exact reachable_runSchedule rest (Reachable.next a hs h1) h

theorem reachable_crawl {w : World} {config : Config} {schedule : List Actor} {s : State}
    (h : crawl w config schedule = some s) : Reachable w config s :=
  reachable_runSchedule schedule Reachable.start h

theorem waitInv_initial (config : Config) : WaitInv config initial := by
  constructor <;> simp [initial]

theorem waitInv_stepMain {w : World} {config : Config} {s s' : State}
    (hw : 1 ≤ config.MaxWorkers) (hinv : WaitInv config s)
    (h : stepMain w config s = some s') : WaitInv config s' := by
  obtain ⟨h1, h2, h3, h4⟩ := hinv
  unfold stepMain at h
  split at h <;> (try split at h) <;> (try split at h) <;> (try split at h) <;>
    simp only [Option.some.injEq, reduceCtorEq] at h <;> subst h
  all_goals simp_all
  all_goals (constructor <;> simp_all <;> try omega)
  all_goals
    rintro pc (h | rfl)
    exacts [h2 pc h, by simp]

theorem waitInv_stepWorker {w : World} {config : Config} {s s' : State} {id : Nat}
    {pc : WorkerPc} (hinv : WaitInv config s)
    (h : stepWorker w config s id pc = some s') : WaitInv config s' := by
  obtain ⟨h1, h2, h3, h4⟩ := hinv
  obtain ⟨pc', hw, hm, hc, hdone, hwg, -⟩ := stepWorker_effect h
  have hne : pc' ≠ .done := fun hd => by simp [hdone hd] at h1
  refine ⟨hc.trans h1, ?_, ?_, ?_⟩
  · rw [hw]
    exact forall_mem_set _ h2 hne
  · rw [hwg hne, h3, hw, List.length_set]
  · rcases hm with hm | hm
    · rw [hm, hw, List.length_set]
      simpa using h4
    · exact Or.inr (Or.inl hm)

theorem waitInv_step {w : World} {config : Config} {s s' : State} {a : Actor}
    (hw : 1 ≤ config.MaxWorkers) (hinv : WaitInv config s)
    (h : step w config s a = some s') : WaitInv config s' := by
  cases a with
  | main => exact waitInv_stepMain hw hinv h
  | worker id =>
    simp only [step] at h
    split at h
    · cases h
    · split at h
      · cases h
      · exact waitInv_stepWorker hinv h

theorem waitInv_of_reachable {w : World} {config : Config} {s : State}
    (hw : 1 ≤ config.MaxWorkers) (h : Reachable w config s) : WaitInv config s := by
  induction h with
  | start => exact waitInv_initial config
  | next a _ hstep ih => exact waitInv_step hw ih hstep

/-- With at least one worker, under every interleaving, `main` never gets
past `WaitGroup.Wait()`: the queue is never closed, no worker leaves its
loop, `main` does not return. -/
theorem wait_never_passes (w : World) (config : Config) (hw : 1 ≤ config.MaxWorkers)
    (s : State) (h : Reachable w config s) :
    s.mainPc ≠ .close ∧ s.mainPc ≠ .returned ∧ s.closed = false ∧
      ∀ pc ∈ s.workers, pc ≠ .done := by
  obtain ⟨h1, h2, -, h4⟩ := waitInv_of_reachable hw h
  refine ⟨?_, ?_, h1, h2⟩ <;>
    · intro hm
      simp [hm] at h4

/-! ## C1: the visited set does not make fetches unique -/

/-- C1 (fails on the code). The seed page refers to `/b.html` twice, so two
tasks for it are queued. Two workers take one each; both run
`VisitedURLs.Load` before either runs `Store`, both find the URL absent, and
`downloadResource` is called twice for `http://ex.test/b.html`. -/
theorem visited_load_store_race :
    (crawl raceSite (exConfig 2) raceSchedule).map
        (fun s => (s.fetched.map (·.URL)).count "http://ex.test/b.html".toList) = some 2 := by
  decide

/-! ## C2: the crawl does not terminate -/

/-- C2 (fails on the code). The seed is a plain text page, depth 0,
`MaxDepth` 1, one worker. After the single task is processed (one file
written, queue empty, worker back at the receive) no goroutine can take a
step: `main` is blocked in `Wait`, the worker in the receive on a queue that
is still open. And under every interleaving `main` never returns. -/
theorem linkless_seed_deadlock :
    (∃ s, crawl linklessSite (exConfig 1) linklessSchedule = some s ∧
      s.files.map (·.1) = ["mirror/ex.test/a.html".toList] ∧
      s.queue = [] ∧ s.workers = [.recv] ∧ s.mainPc = .wait ∧ s.closed = false ∧
      ∀ a, step linklessSite (exConfig 1) s a = none) ∧
    ∀ s, Reachable linklessSite (exConfig 1) s → s.mainPc ≠ .returned := by
  refine ⟨?_, fun s hs => (wait_never_passes _ _ (by decide) s hs).2.1⟩
  have h : (crawl linklessSite (exConfig 1) linklessSchedule).isSome = true := by decide
  obtain ⟨s, hs⟩ := Option.isSome_iff_exists.1 h
  have h1 : (crawl linklessSite (exConfig 1) linklessSchedule).map
      (fun s => (s.files.map (·.1), s.queue, s.workers, s.mainPc, s.closed)) =
      some (["mirror/ex.test/a.html".toList], [], [.recv], .wait, false) := by decide
  have hg : (crawl linklessSite (exConfig 1) linklessSchedule).map (·.wg) = some 1 := by decide
  rw [hs] at h1 hg
  simp only [Option.map_some', Option.some.injEq, Prod.mk.injEq] at h1 hg
  obtain ⟨hf, hq, hw, hm, hc⟩ := h1
  refine ⟨s, hs, hf, hq, hw, hm, hc, ?_⟩
  intro a
  cases a with
  | main => simp [step, stepMain, hm, hg]
  | worker id =>
    cases id with
    | zero => simp [step, stepWorker, hm, hw, hq, hc]
    | succ n => simp [step, hm, hw]

/-! ## C3: the depth policy -/

/-- C3. In every reachable state of every crawl: a task sent to the queue
from the expansion of a task at depth `D` has depth `D + 1`; the seed is
sent at depth 0; and when `MaxDepth ≥ 0`, every task ever sent, every task in
the queue and every task fetched has depth at most `MaxDepth`. -/
theorem depth_policy (w : World) (config : Config) (s : State) (h : Reachable w config s) :
    (∀ parent child, (some parent, child) ∈ s.sent → child.Depth = parent.Depth + 1) ∧
    (∀ seed, (none, seed) ∈ s.sent → seed.Depth = 0) ∧
    (0 ≤ config.MaxDepth →
      (∀ e ∈ s.sent, e.2.Depth ≤ config.MaxDepth) ∧
      (∀ t ∈ s.queue, t.Depth ≤ config.MaxDepth) ∧
      (∀ t ∈ s.fetched, t.Depth ≤ config.MaxDepth)) := by
  obtain ⟨h1, h2, -, h4, -, h6⟩ := depthInv_of_reachable h
  have hsent : 0 ≤ config.MaxDepth → ∀ e ∈ s.sent, e.2.Depth ≤ config.MaxDepth := by
    intro h0 e he
    cases hp : e.1 with
    | none => rw [h2 e he hp]; exact h0
    | some p =>
      obtain ⟨hd, hlt⟩ := h1 e he p hp
      omega
  refine ⟨fun p c hc => (h1 _ hc p rfl).1, fun c hc => h2 _ hc rfl, fun h0 => ⟨hsent h0, ?_, ?_⟩⟩
  · intro t ht
    obtain ⟨p, hp⟩ := h4 t ht
    exact hsent h0 _ hp
  · intro t ht
    obtain ⟨p, hp⟩ := h6 t ht
    exact hsent h0 _ hp

/-- C3 at the end of `raceSchedule`: three tasks were sent, three fetched,
at depths 0, 1, 1, with `MaxDepth = 1`. -/
theorem depth_policy_witness :
    ∃ s, crawl raceSite (exConfig 2) raceSchedule = some s ∧
      s.sent.length = 3 ∧ s.fetched.length = 3 ∧
      (∀ e ∈ s.sent, e.2.Depth ≤ 1) ∧ (∀ t ∈ s.fetched, t.Depth ≤ 1) := by
  have h : (crawl raceSite (exConfig 2) raceSchedule).isSome = true := by decide
  obtain ⟨s, hs⟩ := Option.isSome_iff_exists.1 h
  have h1 : (crawl raceSite (exConfig 2) raceSchedule).map
      (fun s => (s.sent.length, s.fetched.length)) = some (3, 3) := by decide
  rw [hs] at h1
  simp only [Option.map_some', Option.some.injEq, Prod.mk.injEq] at h1
  have hd := (depth_policy raceSite (exConfig 2) s (reachable_crawl hs)).2.2 (by decide)
  exact ⟨s, hs, h1.1, h1.2, hd.1, hd.2.2⟩

/-! ## C4: the same-domain policy -/

/-- C4 (fails on the code). With `SameDomain` on, the seed page
`http://ex.test/a.html` holds an image on `other.test`. The anchor loop calls
`shouldDownload`, the resource loop does not: after the expansion the queue
holds the task for `http://other.test/x.png`, whose host name is not the
seed's. -/
theorem cross_domain_resource_enqueued :
    (exConfig 1).SameDomain = true ∧
    (crawl cdnSite (exConfig 1) cdnSchedule).map (·.queue) =
      some [{ URL := "http://other.test/x.png".toList, Depth := 1, Typ := "resource".toList }] ∧
    (Parse "http://other.test/x.png".toList).map URL.Hostname = some "other.test".toList ∧
    (Parse (exConfig 1).URL).map URL.Hostname = some "ex.test".toList := by
  decide

/-! ## Pages, claims and sends: a second invariant -/

/-- What one step of a worker changes, for `PageInv`. -/
theorem stepWorker_pages {w : World} {config : Config} {s s' : State} {id : Nat}
    {pc : WorkerPc} (h : stepWorker w config s id pc = some s') :
    ∃ pc', s'.workers = s.workers.set id pc' ∧
      (∀ u ∈ s.visited, u ∈ s'.visited) ∧
      (∀ t, pc'.claimed? = some t → pc.claimed? = some t ∨ t.URL ∈ s'.visited) ∧
      (∀ t c ct, pc' = .save t c ct → downloadResource w t.URL = .ok (c, ct)) ∧
      (∀ pg, pc'.page? = some pg → pc.page? = some pg ∨
        ∃ ct, pc = .save pg.task pg.content ct ∧ isHTMLContent w.lowerCase ct = true ∧
          pg.task.Depth < config.MaxDepth) ∧
      (∀ pg l ls rs, pc' = .sendLink pg l ls rs → shouldDownload config l pg.baseURL = true) ∧
      (∀ e ∈ s'.sent, e ∈ s.sent ∨
        (∃ pg, pc.page? = some pg ∧ e.1 = some pg.task ∧
          (e.2.Typ = "html".toList → ∃ l ls rs, pc = .sendLink pg l ls rs ∧ e.2.URL = l))) := by
  unfold stepWorker at h
  simp only at h
  split at h <;> (try split at h) <;> (try split at h) <;> (try split at h) <;>
    simp only [Option.some.injEq, reduceCtorEq] at h <;> subst h
  all_goals refine ⟨_, rfl, ?_⟩
  all_goals simp [WorkerPc.page?, WorkerPc.claimed?]
  all_goals (try simp_all)
  · next hd =>
    rintro pg l ls rs rfl rfl rfl rfl
    exact hd.1
  · rintro a b (h | ⟨rfl, rfl⟩)
    · exact Or.inl h
    · exact Or.inr ⟨rfl, fun _ => rfl⟩
  · rintro a b (h | ⟨rfl, rfl⟩)
    · exact Or.inl h
    · have hne : ¬ ("resource".toList = "html".toList) := by decide
      exact Or.inr ⟨rfl, hne⟩

theorem pageInv_initial (w : World) (config : Config) : PageInv w config initial := by
  constructor <;> simp [initial]

theorem pageInv_stepMain {w : World} {config : Config} {s s' : State}
    (hinv : PageInv w config s) (h : stepMain w config s = some s') : PageInv w config s' := by
  obtain ⟨h1, h2, h3, h4, h5, h6⟩ := hinv
  unfold stepMain at h
  split at h <;> (try split at h) <;> (try split at h) <;> (try split at h) <;>
    simp only [Option.some.injEq, reduceCtorEq] at h <;> subst h
  all_goals first
    | exact ⟨h1, h2, h3, h4, h5, h6⟩
    | skip
  · refine ⟨?_, ?_, ?_, ?_, h5, h6⟩ <;>
      · intro pc hpc
        rcases List.mem_append.1 hpc with h | h
        · first | exact h1 pc h | exact h2 pc h | exact h3 pc h | exact h4 pc h
        · simp only [List.mem_singleton] at h
          subst h
          simp [WorkerPc.page?, WorkerPc.claimed?]
  · refine ⟨h1, h2, h3, h4, ?_, ?_⟩ <;>
      · intro e he p hp
        rcases List.mem_append.1 he with h | h
        · first | exact h5 e h p hp | exact h6 e h p hp
        · simp only [List.mem_singleton] at h
          subst h
          simp at hp

theorem pageInv_stepWorker {w : World} {config : Config} {s s' : State} {id : Nat}
    {pc : WorkerPc} (hinv : PageInv w config s) (hpc : pc ∈ s.workers)
    (h : stepWorker w config s id pc = some s') : PageInv w config s' := by
  obtain ⟨h1, h2, h3, h4, h5, h6⟩ := hinv
  obtain ⟨pc', hw, hvis, hclaimed, hsave, hpage, hsend, hsent⟩ := stepWorker_pages h
  refine ⟨?_, ?_, ?_, ?_, ?_, ?_⟩
  · rw [hw]
    apply forall_mem_set _ (fun pc hpc t ht => hvis _ (h1 pc hpc t ht))
    intro t ht
    rcases hclaimed t ht with h | h
    · exact hvis _ (h1 pc hpc t h)
    · exact h
  · rw [hw]
    exact forall_mem_set _ h2 hsave
  · rw [hw]
    apply forall_mem_set _ h3
    intro pg hpg
    rcases hpage pg hpg with h | ⟨ct, hpc', hct, hd⟩
    · exact h3 pc hpc pg h
    · exact ⟨ct, h2 pc hpc _ _ _ hpc', hct, hd⟩
  · rw [hw]
    exact forall_mem_set _ h4 hsend
  · intro e he p hp
    rcases hsent e he with h | ⟨pg, hpg, hp1, -⟩
    · exact h5 e h p hp
    · rw [hp1] at hp
      cases hp
      obtain ⟨ct, hdl, hct, hd⟩ := h3 pc hpc pg hpg
      exact ⟨_, ct, hdl, hct, hd⟩
  · intro e he p hp htyp
    rcases hsent e he with h | ⟨pg, hpg, -, hl⟩
    · exact h6 e h p hp htyp
    · obtain ⟨l, ls, rs, hpc', hurl⟩ := hl htyp
      exact ⟨pg.baseURL, hurl ▸ h4 pc hpc pg l ls rs hpc'⟩

theorem pageInv_step {w : World} {config : Config} {s s' : State} {a : Actor}
    (hinv : PageInv w config s) (h : step w config s a = some s') : PageInv w config s' := by
  cases a with
  | main => exact pageInv_stepMain hinv h
  | worker id =>
    simp only [step] at h
    split at h
    · cases h
    · split at h
      · cases h
      · next pc hpc => exact pageInv_stepWorker hinv (mem_of_get?_eq hpc) h

theorem pageInv_of_reachable {w : World} {config : Config} {s : State}
    (h : Reachable w config s) : PageInv w config s := by
  induction h with
  | start => exact pageInv_initial w config
  | next a _ hstep ih => exact pageInv_step ih hstep

/-! ## C5: what the expansion of a page sends -/

theorem sends_sends (s : State) (id : Nat) (pc pc' : WorkerPc) (parent : DownloadTask)
    (ts ts' : List DownloadTask) :
    (s.sends id pc parent ts).sends id pc' parent ts' = s.sends id pc' parent (ts ++ ts') := by
  simp [State.sends, List.set_set]

theorem sends_get? {s : State} {id : Nat} {pc0 : WorkerPc} (h : s.workers.get? id = some pc0)
    (pc : WorkerPc) (parent : DownloadTask) (ts : List DownloadTask) :
    (s.sends id pc parent ts).workers.get? id = some pc := by
  have hlt : id < s.workers.length := by
    rw [List.get?_eq_some] at h
    exact h.1
  simp [State.sends, hlt]

theorem step_worker {w : World} {config : Config} {s : State} {id : Nat} {pc : WorkerPc}
    (hr : s.mainPc ≠ .returned) (he : s.mainPc ≠ .exited) (hpc : s.workers.get? id = some pc) :
    step w config s (.worker id) = stepWorker w config s id pc := by
  simp only [step, hpc, hr, he, decide_False, Bool.or_self, Bool.false_eq_true, if_false]

theorem runSchedule_cons {w : World} {config : Config} {s : State} {a : Actor}
    (s1 : State) {rest : List Actor} (h : step w config s a = some s1) :
    runSchedule w config s (a :: rest) = runSchedule w config s1 rest := by
  simp [runSchedule, h]

theorem resources_loop (w : World) (config : Config) (id : Nat) (page : Page) :
    ∀ (rs : List Str) (s : State), s.mainPc ≠ .returned → s.mainPc ≠ .exited →
      s.workers.get? id = some (.resources page rs) → s.queue.length + rs.length ≤ queueCap →
      ∃ n, runSchedule w config s (List.replicate n (.worker id)) =
        some (s.sends id (.rewrite page) page.task
          ((rs.filter fun r => !s.visited.contains r).map
            (fun r => { URL := r, Depth := page.task.Depth + 1, Typ := "resource".toList })))
  | [], s, hr, he, hpc, _ => by
    refine ⟨1, ?_⟩
    rw [List.replicate_succ, runSchedule_cons (s.sends id (.rewrite page) page.task [])]
    · simp [runSchedule]
    · rw [step_worker hr he hpc]
      simp [stepWorker, State.sends]
  | r :: rs, s, hr, he, hpc, hcap => by
    by_cases hv : r ∈ s.visited
    · obtain ⟨n, hn⟩ := resources_loop w config id page rs
        (s.sends id (.resources page rs) page.task []) hr he (sends_get? hpc _ _ _)
        (by simp [State.sends] at hcap ⊢; omega)
      refine ⟨n + 1, ?_⟩
      rw [List.replicate_succ, runSchedule_cons (s.sends id (.resources page rs) page.task [])]
      · rw [hn, sends_sends]
        simp [State.sends, hv]
      · rw [step_worker hr he hpc]
        simp [stepWorker, State.sends, hv]
    · have hlt : s.queue.length < queueCap := by
        simp only [List.length_cons] at hcap
        omega
      obtain ⟨n, hn⟩ := resources_loop w config id page rs
        (s.sends id (.resources page rs) page.task
          [{ URL := r, Depth := page.task.Depth + 1, Typ := "resource".toList }])
        hr he (sends_get? hpc _ _ _)
        (by simp [State.sends] at hcap ⊢; omega)
      refine ⟨n + 2, ?_⟩
      rw [List.replicate_succ, runSchedule_cons (s.sends id (.sendRes page r rs) page.task []),
        List.replicate_succ, runSchedule_cons (s.sends id (.resources page rs) page.task
          [{ URL := r, Depth := page.task.Depth + 1, Typ := "resource".toList }])]
      · rw [hn, sends_sends]
        simp [State.sends, hv]
      · rw [step_worker (by exact hr) (by exact he) (sends_get? hpc _ _ _)]
        simp [stepWorker, State.sends, hlt, List.set_set]
      · rw [step_worker hr he hpc]
        simp [stepWorker, State.sends, hv]

theorem links_loop (w : World) (config : Config) (id : Nat) (page : Page) (rs : List Str) :
    ∀ (ls : List Str) (s : State), s.mainPc ≠ .returned → s.mainPc ≠ .exited →
      s.workers.get? id = some (.links page ls rs) →
      s.queue.length + ls.length + rs.length ≤ queueCap →
      ∃ n, runSchedule w config s (List.replicate n (.worker id)) =
        some (s.sends id (.rewrite page) page.task (expansionTasks config s.visited page ls rs))
  | [], s, hr, he, hpc, hcap => by
    obtain ⟨n, hn⟩ := resources_loop w config id page rs
      (s.sends id (.resources page rs) page.task []) hr he (sends_get? hpc _ _ _)
      (by simp [State.sends] at hcap ⊢; omega)
    refine ⟨n + 1, ?_⟩
    rw [List.replicate_succ, runSchedule_cons (s.sends id (.resources page rs) page.task [])]
    · rw [hn, sends_sends]
      simp [State.sends, expansionTasks]
    · rw [step_worker hr he hpc]
      simp [stepWorker, State.sends]
  | l :: ls, s, hr, he, hpc, hcap => by
    by_cases hv : shouldDownload config l page.baseURL = true ∧ l ∉ s.visited
    · have hlt : s.queue.length < queueCap := by
        simp only [List.length_cons] at hcap
        omega
      obtain ⟨n, hn⟩ := links_loop w config id page rs ls
        (s.sends id (.links page ls rs) page.task
          [{ URL := l, Depth := page.task.Depth + 1, Typ := "html".toList }])
        hr he (sends_get? hpc _ _ _)
        (by simp [State.sends] at hcap ⊢; omega)
      refine ⟨n + 2, ?_⟩
      rw [List.replicate_succ,
        runSchedule_cons (s.sends id (.sendLink page l ls rs) page.task []),
        List.replicate_succ, runSchedule_cons (s.sends id (.links page ls rs) page.task
          [{ URL := l, Depth := page.task.Depth + 1, Typ := "html".toList }])]
      · rw [hn, sends_sends]
        simp [State.sends, expansionTasks, hv]
      · rw [step_worker (by exact hr) (by exact he) (sends_get? hpc _ _ _)]
        simp [stepWorker, State.sends, hlt, List.set_set]
      · rw [step_worker hr he hpc]
        simp [stepWorker, State.sends, hv]
    · obtain ⟨n, hn⟩ := links_loop w config id page rs ls
        (s.sends id (.links page ls rs) page.task []) hr he (sends_get? hpc _ _ _)
        (by simp [State.sends] at hcap ⊢; omega)
      refine ⟨n + 1, ?_⟩
      rw [List.replicate_succ, runSchedule_cons (s.sends id (.links page ls rs) page.task [])]
      · rw [hn, sends_sends]
        simp [State.sends, expansionTasks, List.filter_cons, hv]
      · rw [step_worker hr he hpc]
        simp only [stepWorker, State.sends, List.map_nil, List.append_nil]
        rw [if_neg (by simpa using hv)]

theorem removeDuplicatesLoop_nodup :
    ∀ (items seen result : List Str), (∀ x, x ∈ seen ↔ x ∈ result) → result.Nodup →
      (removeDuplicatesLoop items seen result).Nodup
  | [], _, _, _, hn => hn
  | item :: rest, seen, result, hs, hn => by
    unfold removeDuplicatesLoop
    split
    · exact removeDuplicatesLoop_nodup rest seen result hs hn
    · next hc =>
      have hmem : item ∉ result := by
        intro h
        exact hc (by simpa using (hs item).2 h)
      apply removeDuplicatesLoop_nodup
      · intro x
        simp [hs x, or_comm]
      · exact List.Nodup.append hn (List.nodup_singleton item) (by simpa using hmem)

theorem removeDuplicates_nodup (l : List Str) : (removeDuplicates l).Nodup :=
  removeDuplicatesLoop_nodup l [] [] (by simp) List.nodup_nil

theorem shouldDownload_host {config : Config} {u : Str} {baseURL : URL}
    (h : shouldDownload config u baseURL = true) :
    ∃ p, Parse u = some p ∧ (p.Scheme = "http".toList ∨ p.Scheme = "https".toList) ∧
      (config.SameDomain = true → p.Hostname = baseURL.Hostname) := by
  unfold shouldDownload at h
  split at h
  · cases h
  · next p hp =>
    simp at h
    refine ⟨p, hp, by simpa using h.1, fun hd => ?_⟩
    rcases h.2 with h2 | h2
    · simp [hd] at h2
    · exact h2

theorem save_expands (w : World) (config : Config) (s : State) (id : Nat)
    (task : DownloadTask) (content contentType localPath : Str) (files : List (Str × Str))
    (links resources : List Str)
    (hr : s.mainPc ≠ .returned) (he : s.mainPc ≠ .exited)
    (hpc : s.workers.get? id = some (.save task content contentType))
    (hsave : saveResource w config task.URL content s.files = some (localPath, files))
    (hhtml : isHTMLContent w.lowerCase contentType = true)
    (hdepth : task.Depth < config.MaxDepth)
    (hparse : parseHTMLSimple w.lowerCase content ((Parse task.URL).getD {}) =
      some (links, resources))
    (hcap : s.queue.length + links.length + resources.length ≤ queueCap) :
    ∃ n, runSchedule w config s (List.replicate n (.worker id)) =
      some ({ s with files := files }.sends id
        (.rewrite ⟨task, content, localPath, (Parse task.URL).getD {}⟩) task
        (expansionTasks config s.visited ⟨task, content, localPath, (Parse task.URL).getD {}⟩
          links resources)) := by
  obtain ⟨n, hn⟩ := links_loop w config id ⟨task, content, localPath, (Parse task.URL).getD {}⟩
    resources links
    ({ s with files := files }.sends id
      (.links ⟨task, content, localPath, (Parse task.URL).getD {}⟩ links resources) task [])
    hr he (sends_get? (s := { s with files := files }) hpc _ _ _)
    (by simpa [State.sends] using hcap)
  refine ⟨n + 1, ?_⟩
  rw [List.replicate_succ, runSchedule_cons _ ?_, hn, sends_sends]
  · simp [State.sends]
  · rw [step_worker hr he hpc]
    simp [stepWorker, hsave, hhtml, hdepth, hparse, State.sends]

theorem parseHTMLSimple_nodup {lowerCase : Nat → Int} {content : Str} {baseURL : URL}
    {parsed : List Str × List Str}
    (h : parseHTMLSimple lowerCase content baseURL = some parsed) :
    parsed.1.Nodup ∧ parsed.2.Nodup := by
  unfold parseHTMLSimple at h
  simp only [Option.bind_eq_bind, Option.bind_eq_some, Option.some.injEq] at h
  obtain ⟨l, -, r1, -, r2, -, r3, -, r4, -, r5, -, r6, -, rfl⟩ := h
  exact ⟨removeDuplicates_nodup _, removeDuplicates_nodup _⟩

/-! ### The walk down the two lists -/

/-- What one step of a worker changes, for `ExpandInv`. -/
theorem stepWorker_walk {w : World} {config : Config} {s s' : State} {id : Nat}
    {pc : WorkerPc} (h : stepWorker w config s id pc = some s') :
    ∃ pc', s'.workers = s.workers.set id pc' ∧
      (∀ pg, pc'.page? = some pg →
        (pc.page? = some pg ∧ ∃ rem rem', pc.pending? = some rem ∧ pc'.pending? = some rem' ∧
          rem'.1 <:+ rem.1 ∧ rem'.2 <:+ rem.2 ∧
          (pc'.inLinks = true → pc.inLinks = true ∧ rem'.2 = rem.2)) ∨
        (∃ ct parsed, pc = .save pg.task pg.content ct ∧
          pg.baseURL = (Parse pg.task.URL).getD {} ∧
          parseHTMLSimple w.lowerCase pg.content pg.baseURL = some parsed ∧
          pc'.pending? = some parsed ∧ pc'.inLinks = true)) ∧
      (∀ e ∈ s'.sent, e ∈ s.sent ∨
        ∃ pg, pc.page? = some pg ∧ e.1 = some pg.task ∧ e.2.Depth = pg.task.Depth + 1 ∧
          ((∃ ls rs, pc = .sendLink pg e.2.URL ls rs ∧ e.2.Typ = "html".toList) ∨
            (∃ rs, pc = .sendRes pg e.2.URL rs ∧ e.2.Typ = "resource".toList))) := by
  unfold stepWorker at h
  simp only at h
  split at h <;> (try split at h) <;> (try split at h) <;> (try split at h) <;>
    simp only [Option.some.injEq, reduceCtorEq] at h <;> subst h
  all_goals refine ⟨_, rfl, ?_⟩
  all_goals simp [WorkerPc.page?, WorkerPc.pending?, WorkerPc.inLinks]
  all_goals (try simp_all)
  all_goals
    rintro a b (h | ⟨rfl, rfl⟩)
    · exact Or.inl h
    · exact Or.inr ⟨rfl, rfl, rfl, rfl⟩

theorem expandInv_initial (w : World) (config : Config) : ExpandInv w config initial := by
  constructor <;> simp [initial]

theorem expandInv_stepMain {w : World} {config : Config} {s s' : State}
    (hinv : ExpandInv w config s) (h : stepMain w config s = some s') :
    ExpandInv w config s' := by
  obtain ⟨h1, h2⟩ := hinv
  unfold stepMain at h
  split at h <;> (try split at h) <;> (try split at h) <;> (try split at h) <;>
    simp only [Option.some.injEq, reduceCtorEq] at h <;> subst h
  all_goals first
    | exact ⟨h1, h2⟩
    | skip
  · refine ⟨?_, h2⟩
    intro pc hpc
    rcases List.mem_append.1 hpc with h | h
    · exact h1 pc h
    · simp only [List.mem_singleton] at h
      subst h
      simp [WorkerPc.page?]
  · refine ⟨h1, ?_⟩
    intro e he p hp
    rcases List.mem_append.1 he with h | h
    · exact h2 e h p hp
    · simp only [List.mem_singleton] at h
      subst h
      simp at hp

theorem expandInv_stepWorker {w : World} {config : Config} {s s' : State} {id : Nat}
    {pc : WorkerPc} (hpage : PageInv w config s) (hinv : ExpandInv w config s)
    (hpc : pc ∈ s.workers) (h : stepWorker w config s id pc = some s') :
    ExpandInv w config s' := by
  obtain ⟨h1, h2⟩ := hinv
  obtain ⟨pc', hw, hwalk, hsent⟩ := stepWorker_walk h
  refine ⟨?_, ?_⟩
  · rw [hw]
    apply forall_mem_set _ h1
    intro pg hpg
    rcases hwalk pg hpg with ⟨hsame, rem, rem', hrem, hrem', hs1, hs2, hin⟩ |
        ⟨ct, parsed, -, hbase, hparse, hrem', hin⟩
    · obtain ⟨hbase, parsed, rem0, hparse, hrem0, g1, g2, g3⟩ := h1 pc hpc pg hsame
      rw [hrem] at hrem0
      cases hrem0
      refine ⟨hbase, parsed, rem', hparse, hrem', hs1.trans g1, hs2.trans g2, ?_⟩
      intro hl
      obtain ⟨hl1, hl2⟩ := hin hl
      rw [hl2]
      exact g3 hl1
    · exact ⟨hbase, parsed, parsed, hparse, hrem', List.suffix_refl _, List.suffix_refl _,
        fun _ => rfl⟩
  · intro e he p hp
    rcases hsent e he with h | ⟨pg, hpg, hp1, hd, hkind⟩
    · exact h2 e h p hp
    · rw [hp1] at hp
      cases hp
      obtain ⟨hbase, parsed, rem, hparse, hrem, g1, g2, -⟩ := h1 pc hpc pg hpg
      obtain ⟨ct, hdl, -, -⟩ := hpage.pages pc hpc pg hpg
      rw [hbase] at hparse
      refine ⟨hd, pg.content, ct, parsed, hdl, hparse, ?_⟩
      rcases hkind with ⟨ls, rs, hsl, htyp⟩ | ⟨rs, hsr, htyp⟩
      · left
        have hsd := hpage.sending pc hpc pg _ ls rs hsl
        rw [hbase] at hsd
        rw [hsl] at hrem
        simp only [WorkerPc.pending?, Option.some.injEq] at hrem
        subst hrem
        exact ⟨htyp, g1.subset (List.mem_cons_self _ _), hsd⟩
      · right
        rw [hsr] at hrem
        simp only [WorkerPc.pending?, Option.some.injEq] at hrem
        subst hrem
        exact ⟨htyp, g2.subset (List.mem_cons_self _ _)⟩

theorem expandInv_step {w : World} {config : Config} {s s' : State} {a : Actor}
    (hpage : PageInv w config s) (hinv : ExpandInv w config s)
    (h : step w config s a = some s') : ExpandInv w config s' := by
  cases a with
  | main => exact expandInv_stepMain hinv h
  | worker id =>
    simp only [step] at h
    split at h
    · cases h
    · split at h
      · cases h
      · next pc hpc => exact expandInv_stepWorker hpage hinv (mem_of_get?_eq hpc) h

theorem expandInv_of_reachable {w : World} {config : Config} {s : State}
    (h : Reachable w config s) : ExpandInv w config s := by
  induction h with
  | start => exact expandInv_initial w config
  | next a hs hstep ih => exact expandInv_step (pageInv_of_reachable hs) ih hstep

theorem step_other {w : World} {config : Config} {s s' : State} {a : Actor} {id : Nat}
    {pc : WorkerPc} (ha : a ≠ .worker id) (h : step w config s a = some s')
    (hpc : s.workers.get? id = some pc) : s'.workers.get? id = some pc := by
  cases a with
  | main =>
    simp only [step] at h
    unfold stepMain at h
    split at h <;> (try split at h) <;> (try split at h) <;> (try split at h) <;>
      simp only [Option.some.injEq, reduceCtorEq] at h <;> subst h <;> try exact hpc
    have hlt : id < s.workers.length := by
      rw [List.get?_eq_some] at hpc
      exact hpc.1
    simp only [List.get?_eq_getElem?] at hpc ⊢
    rw [List.getElem?_append_left hlt]
    exact hpc
  | worker j =>
    have hne : j ≠ id := fun e => ha (e ▸ rfl)
    simp only [step] at h
    split at h
    · cases h
    · split at h
      · cases h
      · next pcj _ =>
        obtain ⟨pc', hw, -⟩ := stepWorker_effect h
        rw [hw]
        simp only [List.get?_eq_getElem?] at hpc ⊢
        rw [List.getElem?_set_ne hne]
        exact hpc

/-- C6 (fails on the code). The page `http://ex.test/dir/a.html` is saved as
`mirror/ex.test/dir/a.html` and links to `b.html`, that is to
`http://ex.test/dir/b.html`, saved as `mirror/ex.test/dir/b.html`. The
rewriter writes `./dir/b.html`, a path from the site root: read from the
directory of the page it names `mirror/ex.test/dir/dir/b.html`, not the
mirrored file. -/
theorem nested_page_link_misses_mirror :
    Parse "http://ex.test/dir/a.html".toList = some nestedBase ∧
    saveResourcePath (exConfig 1) "http://ex.test/dir/a.html".toList =
      some "mirror/ex.test/dir/a.html".toList ∧
    resolveURL "b.html".toList nestedBase = "http://ex.test/dir/b.html".toList ∧
    saveResourcePath (exConfig 1) "http://ex.test/dir/b.html".toList =
      some "mirror/ex.test/dir/b.html".toList ∧
    replaceLinksSimple noCase "<a href=\"b.html\">b</a>".toList nestedBase
        "mirror/ex.test/dir/a.html".toList =
      some "<a href=\"./dir/b.html\">b</a>".toList ∧
    Join [Dir "mirror/ex.test/dir/a.html".toList, "./dir/b.html".toList] =
      "mirror/ex.test/dir/dir/b.html".toList := by
  decide

/-- C7 (fails on the code). On the page `http://ex.test/a.html` the anchor
`<a href='http://ex.test/b.html'>` refers to the page's own host. The rewriter
only looks for `href="`: it returns the page unchanged, and `FindAll` then
extracts the original absolute URL from it. (Re-extracting with
`extractLinks` instead gives the absolute URL even for a rewritten
double-quoted link, since `extractLinks` resolves what it finds.) -/
theorem single_quoted_link_survives_rewrite :
    Parse (exConfig 1).URL = some exBase ∧
    (Parse "http://ex.test/b.html".toList).map URL.Hostname = some exBase.Hostname ∧
    replaceLinksSimple noCase "<a href='http://ex.test/b.html'>b</a>".toList exBase
        "mirror/ex.test/a.html".toList =
      some "<a href='http://ex.test/b.html'>b</a>".toList ∧
    (replaceLinksSimple noCase "<a href='http://ex.test/b.html'>b</a>".toList exBase
        "mirror/ex.test/a.html".toList).map (fun page => FindAll page "a".toList "href".toList) =
      some ["http://ex.test/b.html".toList] ∧
    replaceLinksSimple noCase "<a href=\"http://ex.test/b.html\">b</a>".toList exBase
        "mirror/ex.test/a.html".toList =
      some "<a href=\"./b.html\">b</a>".toList ∧
    (replaceLinksSimple noCase "<a href=\"http://ex.test/b.html\">b</a>".toList exBase
        "mirror/ex.test/a.html".toList).bind
        (fun page => extractLinks noCase page "a".toList "href".toList exBase) =
      some ["http://ex.test/b.html".toList] := by
  decide

/-- C8 (fails on the code). On the page `http://ex.test/a.html`, a
scheme-relative reference to another host and one with an upper-case scheme
are replaced by the absolute URL that `resolveURL` built, not left as
written; the reference `http://other.test/c.html` of the witness is left as
written. -/
theorem cross_domain_link_rewritten :
    replaceLinksSimple noCase "<a href=\"//other.test/c.html\">c</a>".toList exBase
        "mirror/ex.test/a.html".toList =
      some "<a href=\"http://other.test/c.html\">c</a>".toList ∧
    replaceLinksSimple noCase "<a href=\"HTTP://other.test/c.html\">c</a>".toList exBase
        "mirror/ex.test/a.html".toList =
      some "<a href=\"http://other.test/c.html\">c</a>".toList ∧
    replaceLinksSimple noCase "<a href=\"http://other.test/c.html\">c</a>".toList exBase
        "mirror/ex.test/a.html".toList =
      some "<a href=\"http://other.test/c.html\">c</a>".toList := by
  decide

/-! ## C9 and C10: the path mapping of `saveResource` -/

theorem splitOnByte_ne_nil (s : Str) (sep : Char) : splitOnByte s sep ≠ [] := by
  induction s with
  | nil => simp [splitOnByte]
  | cons c cs ih =>
    unfold splitOnByte
    split
    · simp
    · split <;> simp

theorem splitOnByte_append {x : Str} (hx : '/' ∉ x) (rest : Str) :
    splitOnByte (x ++ '/' :: rest) '/' = x :: splitOnByte rest '/' := by
  induction x with
  | nil => simp [splitOnByte]
  | cons c cs ih =>
    have hc : c ≠ '/' := fun h => hx (by simp [h])
    have hcs : '/' ∉ cs := fun h => hx (by simp [h])
    have ih' := ih hcs
    simp only [List.cons_append, splitOnByte, hc, if_false, List.append_eq]
    rw [ih']

theorem splitOnByte_noSep {x : Str} (hx : '/' ∉ x) : splitOnByte x '/' = [x] := by
  induction x with
  | nil => simp [splitOnByte]
  | cons c cs ih =>
    have hc : c ≠ '/' := fun h => hx (by simp [h])
    have hcs : '/' ∉ cs := fun h => hx (by simp [h])
    simp only [splitOnByte, hc, if_false, ih hcs]

theorem splitOnByte_joinSlash :
    ∀ (segs : List Str), segs ≠ [] → (∀ e ∈ segs, '/' ∉ e) →
      splitOnByte (joinSlash segs) '/' = segs
  | [], h, _ => absurd rfl h
  | [x], _, hs => by
    simpa [joinSlash] using splitOnByte_noSep (hs x (by simp))
  | x :: y :: xs, _, hs => by
    rw [joinSlash, splitOnByte_append (hs x (by simp)),
      splitOnByte_joinSlash (y :: xs) (by simp) (fun e he => hs e (by simp [he]))]

theorem foldl_cleanElem_plain (rooted : Bool) :
    ∀ (segs : List Str) (acc : List Str), (∀ e ∈ segs, plainElem e = true) →
      segs.foldl (cleanElem rooted) acc = segs.reverse ++ acc
  | [], _, _ => by simp
  | e :: es, acc, hs => by
    have he : plainElem e = true := hs e (by simp)
    simp only [plainElem, Bool.and_eq_true, decide_eq_true_eq] at he
    obtain ⟨⟨⟨h1, -⟩, h3⟩, h4⟩ := he
    have h4' : e ≠ ['.', '.'] := h4
    have hstep : cleanElem rooted acc e = e :: acc := by
      simp [cleanElem, h1, h3, h4']
    rw [List.foldl_cons, hstep, foldl_cleanElem_plain rooted es (e :: acc)
      (fun x hx => hs x (by simp [hx]))]
    simp

theorem joinSlash_cons_head (e : Str) (es : List Str) :
    ∃ t, joinSlash (e :: es) = e ++ t := by
  cases es with
  | nil => exact ⟨[], by simp [joinSlash]⟩
  | cons y ys => exact ⟨'/' :: joinSlash (y :: ys), by simp [joinSlash]⟩

theorem Clean_joinSlash (segs : List Str) (hne : segs ≠ [])
    (hs : ∀ e ∈ segs, plainElem e = true) : Clean (joinSlash segs) = joinSlash segs := by
  have hsep : ∀ e ∈ segs, '/' ∉ e := by
    intro e he
    have := hs e he
    simp only [plainElem, Bool.and_eq_true, decide_eq_true_eq] at this
    simpa using this.1.1.2
  cases segs with
  | nil => exact absurd rfl hne
  | cons e es =>
    have he := hs e (by simp)
    simp only [plainElem, Bool.and_eq_true, decide_eq_true_eq] at he
    obtain ⟨t, ht⟩ := joinSlash_cons_head e es
    cases e with
    | nil => exact absurd rfl he.1.1.1
    | cons c cs =>
      have hc : c ≠ '/' := fun h => hsep (c :: cs) (by simp) (by simp [h])
      have hhead : (joinSlash ((c :: cs) :: es)).head? = some c := by simp [ht]
      have hnil : joinSlash ((c :: cs) :: es) ≠ [] := by simp [ht]
      unfold Clean
      simp only [hnil, if_false, hhead]
      rw [splitOnByte_joinSlash _ hne hsep, foldl_cleanElem_plain _ _ _ hs]
      simp [hc]

theorem joinSlash_append :
    ∀ (xs ys : List Str), xs ≠ [] → ys ≠ [] →
      joinSlash (xs ++ ys) = joinSlash xs ++ '/' :: joinSlash ys
  | [], _, h, _ => absurd rfl h
  | [x], y :: ys, _, _ => by simp [joinSlash]
  | [_], [], _, h => absurd rfl h
  | x :: x' :: xs, ys, _, hy => by
    have ih := joinSlash_append (x' :: xs) ys (by simp) hy
    simp only [List.cons_append] at ih ⊢
    simp only [joinSlash, List.append_eq, ih, List.append_assoc, List.cons_append]

theorem savePath_eq_mirrorPath (urlPath : Str) :
    (if hasPrefix
          (if urlPath = [] || hasSuffix urlPath ['/'] then urlPath ++ "index.html".toList
            else urlPath) ['/'] = true
      then (if urlPath = [] || hasSuffix urlPath ['/'] then urlPath ++ "index.html".toList
            else urlPath).drop 1
      else (if urlPath = [] || hasSuffix urlPath ['/'] then urlPath ++ "index.html".toList
            else urlPath)) = mirrorPath urlPath := by
  unfold mirrorPath
  cases urlPath with
  | nil => decide
  | cons c cs =>
    by_cases hc : c = '/'
    · subst hc
      by_cases hs : hasSuffix ('/' :: cs) ['/'] = true <;> simp [hasPrefix, hs]
    · have hc' : ¬ ('/' = c) := fun h => hc h.symm
      by_cases hs : hasSuffix (c :: cs) ['/'] = true <;> simp [hasPrefix, hs, hc, hc']

/-- C9. For every URL that parses (absolute or not), when the directory can
be created and the file written, `saveResource` writes the content to the
file `Join [OutputDir, host name, mirrorPath (URL path)]` and returns that
path. For a non-empty `OutputDir` this is the cleaned form of the string
`OutputDir/host/path`; and it is that very string when `OutputDir` and the
mapped path are made of plain path elements and the host name is one. -/
theorem saveResource_path (w : World) (config : Config) (urlStr content : Str)
    (files : List (Str × Str)) (u : URL) (hparse : Parse urlStr = some u)
    (hdir : w.mkdirAll (Dir (Join [config.OutputDir, u.Hostname, mirrorPath u.Path])) = true)
    (hwrite :
      w.writeFile files (Join [config.OutputDir, u.Hostname, mirrorPath u.Path]) = true) :
    saveResource w config urlStr content files =
      some (Join [config.OutputDir, u.Hostname, mirrorPath u.Path],
        (Join [config.OutputDir, u.Hostname, mirrorPath u.Path], content) :: files) ∧
    (config.OutputDir ≠ [] →
      Join [config.OutputDir, u.Hostname, mirrorPath u.Path] =
        Clean (config.OutputDir ++ '/' :: (u.Hostname ++ '/' :: mirrorPath u.Path))) ∧
    (∀ ds ps : List Str, config.OutputDir = joinSlash ds → mirrorPath u.Path = joinSlash ps →
      ds ≠ [] → ps ≠ [] → (∀ e ∈ ds, plainElem e = true) → plainElem u.Hostname = true →
      (∀ e ∈ ps, plainElem e = true) →
      Join [config.OutputDir, u.Hostname, mirrorPath u.Path] =
        config.OutputDir ++ '/' :: (u.Hostname ++ '/' :: mirrorPath u.Path)) := by
  refine ⟨?_, ?_, ?_⟩
  · simp only [saveResource, saveResourcePath, hparse, savePath_eq_mirrorPath, hdir, hwrite]
    simp
  · intro h
    simp [Join, h, joinSlash]
  · intro ds ps hds hps hdne hpne hd hh hp
    have hall : ∀ e ∈ ds ++ ([u.Hostname] ++ ps), plainElem e = true := by
      intro e he
      simp only [List.mem_append, List.mem_singleton] at he
      rcases he with he | he | he
      · exact hd e he
      · exact he ▸ hh
      · exact hp e he
    have hjoin : joinSlash (ds ++ ([u.Hostname] ++ ps)) =
        config.OutputDir ++ '/' :: (u.Hostname ++ '/' :: mirrorPath u.Path) := by
      rw [joinSlash_append ds _ hdne (by simp), joinSlash_append [u.Hostname] ps (by simp) hpne,
        ← hds, ← hps]
      simp [joinSlash]
    have hout : config.OutputDir ≠ [] := by
      cases ds with
      | nil => exact absurd rfl hdne
      | cons d ds' =>
        obtain ⟨t, ht⟩ := joinSlash_cons_head d ds'
        have hd1 := hd d (by simp)
        simp only [plainElem, Bool.and_eq_true, decide_eq_true_eq] at hd1
        rw [hds, ht]
        simp [hd1.1.1.1]
    have hclean := Clean_joinSlash (ds ++ ([u.Hostname] ++ ps)) (by simp [hdne]) hall
    rw [hjoin] at hclean
    simp [Join, hout, joinSlash, hclean]

/-- C9 at `http://ex.test/dir/`: with the default output directory `./mirror`
the file is `mirror/ex.test/dir/index.html`, and with the output directory
`mirror` the path written is the string `OutputDir/host/path` itself. -/
theorem saveResource_path_witness :
    saveResource specSite (exConfig 1) "http://ex.test/dir/".toList "x".toList [] =
      some ("mirror/ex.test/dir/index.html".toList,
        [("mirror/ex.test/dir/index.html".toList, "x".toList)]) ∧
    Join ["mirror".toList, "ex.test".toList, mirrorPath "/dir/".toList] =
      "mirror".toList ++ '/' :: ("ex.test".toList ++ '/' :: mirrorPath "/dir/".toList) := by
  have h := (saveResource_path specSite (exConfig 1) "http://ex.test/dir/".toList "x".toList []
    { Scheme := "http".toList, Host := "ex.test".toList, Path := "/dir/".toList }
    (by decide) (by decide) (by decide)).1
  have hj : Join [(exConfig 1).OutputDir,
      URL.Hostname { Scheme := "http".toList, Host := "ex.test".toList, Path := "/dir/".toList },
      mirrorPath "/dir/".toList] = "mirror/ex.test/dir/index.html".toList := by decide
  rw [hj] at h
  have h3 := (saveResource_path specSite { exConfig 1 with OutputDir := "mirror".toList }
    "http://ex.test/dir/".toList "x".toList []
    { Scheme := "http".toList, Host := "ex.test".toList, Path := "/dir/".toList }
    (by decide) (by decide) (by decide)).2.2 ["mirror".toList]
    ["dir".toList, "index.html".toList] (by decide) (by decide) (by decide) (by decide)
    (by decide) (by decide) (by decide)
  exact ⟨h, h3⟩

/-- C10 (fails on the code). The seed page links to
`http://ex.test/../../etc/passwd` and the server answers that URL. The worker
fetches it and `saveResource` writes `etc/passwd`, a file outside
`mirror/ex.test` and outside the output directory `mirror`. -/
theorem dotdot_path_escapes_output_dir :
    saveResourcePath (exConfig 1) "http://ex.test/../../etc/passwd".toList =
      some "etc/passwd".toList ∧
    (crawl traversalSite (exConfig 1) traversalSchedule).map (fun s => s.files.map (·.1)) =
      some ["etc/passwd".toList, "mirror/ex.test/a.html".toList,
        "mirror/ex.test/a.html".toList] ∧
    Clean (exConfig 1).OutputDir = "mirror".toList ∧
    hasPrefix "etc/passwd".toList "mirror".toList = false := by
  decide

/-! ## C16: `removeDuplicates` -/

theorem removeDuplicatesLoop_eq :
    ∀ (items seen result : List Str),
      removeDuplicatesLoop items seen result =
        result ++ (removeDuplicates items).filter (fun x => !seen.contains x)
  | [], seen, result => by simp [removeDuplicates, removeDuplicatesLoop]
  | item :: rest, seen, result => by
    have hcons : removeDuplicates (item :: rest) =
        item :: (removeDuplicates rest).filter (fun x => !([item] : List Str).contains x) := by
      simp only [removeDuplicates, removeDuplicatesLoop, List.contains_nil, Bool.false_eq_true,
        if_false, List.nil_append]
      rw [removeDuplicatesLoop_eq rest [item] [item]]
      simp [removeDuplicates]
    rw [hcons]
    unfold removeDuplicatesLoop
    by_cases hs : seen.contains item = true
    · rw [if_pos hs, removeDuplicatesLoop_eq rest seen result]
      have hmem : item ∈ seen := by simpa using hs
      simp only [List.filter_cons, hs, Bool.not_true, Bool.false_eq_true, if_false,
        List.filter_filter]
      congr 1
      apply List.filter_congr
      intro x _
      by_cases hx : x = item
      · subst hx; simp [hmem]
      · have hx' : ¬ (item = x) := fun h => hx h.symm
        simp [hx, hx']
    · rw [if_neg hs, removeDuplicatesLoop_eq rest (item :: seen) (result ++ [item])]
      have hmem : item ∉ seen := by simpa using hs
      simp only [List.filter_cons, List.filter_filter]
      simp only [Bool.not_eq_true] at hs
      simp only [hs, Bool.not_false, if_true, List.append_assoc, List.singleton_append]
      congr 2
      apply List.filter_congr
      intro x _
      by_cases hx : x = item
      · subst hx; simp
      · have hx' : ¬ (item = x) := fun h => hx h.symm
        simp [hx, hx']

theorem removeDuplicates_cons (x : Str) (xs : List Str) :
    removeDuplicates (x :: xs) = x :: (removeDuplicates xs).filter (fun y => decide (y ≠ x)) := by
  have h := removeDuplicatesLoop_eq xs [x] [x]
  simp only [removeDuplicates, removeDuplicatesLoop, List.contains_nil, Bool.false_eq_true,
    if_false, List.nil_append] at h ⊢
  rw [h]
  simp only [List.singleton_append, List.cons.injEq, true_and]
  apply List.filter_congr
  intro y _
  by_cases hy : y = x <;> simp [hy]

theorem mem_removeDuplicates : ∀ (l : List Str) (x : Str), x ∈ removeDuplicates l ↔ x ∈ l
  | [], x => by simp [removeDuplicates, removeDuplicatesLoop]
  | y :: ys, x => by
    rw [removeDuplicates_cons]
    simp only [List.mem_cons, List.mem_filter, mem_removeDuplicates ys x, decide_eq_true_eq]
    by_cases hx : x = y <;> simp [hx]

theorem removeDuplicates_sublist : ∀ (l : List Str), (removeDuplicates l).Sublist l
  | [] => by simp [removeDuplicates, removeDuplicatesLoop]
  | y :: ys => by
    rw [removeDuplicates_cons]
    exact List.Sublist.cons₂ y ((List.filter_sublist _).trans (removeDuplicates_sublist ys))

theorem removeDuplicates_firstOccurrence :
    ∀ (l : List Str), (removeDuplicates l).Pairwise (fun a b => l.indexOf a < l.indexOf b)
  | [] => by simp [removeDuplicates, removeDuplicatesLoop]
  | y :: ys => by
    rw [removeDuplicates_cons, List.pairwise_cons]
    constructor
    · intro a ha
      have hay : a ≠ y := by
        have := (List.mem_filter.1 ha).2
        simpa using this
      have h1 : (y == a) = false := by simpa using Ne.symm hay
      simp [List.indexOf_cons, h1]
    · have ih := (removeDuplicates_firstOccurrence ys).filter (fun z => decide (z ≠ y))
      refine List.Pairwise.imp_of_mem ?_ ih
      intro a b ha hb hab
      have hay : a ≠ y := by simpa using (List.mem_filter.1 ha).2
      have hby : b ≠ y := by simpa using (List.mem_filter.1 hb).2
      have h1 : (y == a) = false := by simpa using Ne.symm hay
      have h2 : (y == b) = false := by simpa using Ne.symm hby
      simp [List.indexOf_cons, h1, h2, hab]

/-- C16. For every list of strings, `removeDuplicates` returns its distinct
elements in the order of their first occurrence: the result has no repeated
element, has exactly the elements of the input, is a subsequence of the
input, and lists its elements by increasing position of their first
occurrence in the input. Hence both lists that `parseHTMLSimple` returns are
free of duplicates. -/
theorem removeDuplicates_distinct_in_order (l : List Str) :
    (removeDuplicates l).Nodup ∧
    (∀ x, x ∈ removeDuplicates l ↔ x ∈ l) ∧
    (removeDuplicates l).Sublist l ∧
    (removeDuplicates l).Pairwise (fun a b => l.indexOf a < l.indexOf b) ∧
    ∀ (lowerCase : Nat → Int) (content : Str) (baseURL : URL) (parsed : List Str × List Str),
      parseHTMLSimple lowerCase content baseURL = some parsed →
      parsed.1.Nodup ∧ parsed.2.Nodup :=
  ⟨removeDuplicates_nodup l, mem_removeDuplicates l, removeDuplicates_sublist l,
    removeDuplicates_firstOccurrence l, fun _ _ _ _ h => parseHTMLSimple_nodup h⟩

/-! ## C11: query and fragment in `urlToLocalPath` -/

theorem cut_of_index_none : ∀ (s : Str) (c : Char), index s [c] = none → cut s c = (s, [])
  | [], _, _ => rfl
  | x :: xs, c, h => by
    simp only [index] at h
    split at h
    · cases h
    · next hp =>
      have hx : ¬ (x = c) := by
        intro hxc
        apply hp
        simp [List.isPrefixOf, hxc]
      cases hi : index xs [c] with
      | none =>
        have ih := cut_of_index_none xs c hi
        simp [cut, hx, ih]
      | some j => simp [hi] at h

theorem cut_of_index_some :
    ∀ (s : Str) (c : Char) (i : Nat), index s [c] = some i → cut s c = (s.take i, s.drop (i + 1))
  | [], _, _, h => by simp [index] at h
  | x :: xs, c, i, h => by
    simp only [index] at h
    split at h
    · next hp =>
      cases h
      have hx : x = c := by
        have hcx : c = x := by simpa [List.isPrefixOf] using hp
        exact hcx.symm
      simp [cut, hx]
    · next hp =>
      have hx : ¬ (x = c) := by
        intro hxc
        apply hp
        simp [List.isPrefixOf, hxc]
      cases hi : index xs [c] with
      | none => simp [hi] at h
      | some j =>
        simp only [hi, Option.map_some', Option.some.injEq] at h
        subst h
        have ih := cut_of_index_some xs c j hi
        simp [cut, hx, ih]

theorem cut_append_of_not_mem {pre : Str} {c : Char} (h : c ∉ pre) (x : Str) :
    (cut (pre ++ x) c).2 = (cut x c).2 := by
  induction pre with
  | nil => rfl
  | cons a as ih =>
    have ha : ¬ (a = c) := fun hac => h (by simp [hac])
    have has : c ∉ as := fun hm => h (by simp [hm])
    simp [cut, ha, ih has]

theorem getSchemeLoop_query (rawURL : Str) :
    ∀ (cs pre : Str) (i : Nat) (scheme rest : Str), rawURL = pre ++ cs → pre.length = i →
      '?' ∉ pre → getSchemeLoop rawURL i cs = some (scheme, rest) →
      (cut rest '?').2 = (cut rawURL '?').2
  | [], pre, i, scheme, rest, _, _, _, h => by
    simp only [getSchemeLoop, Option.some.injEq, Prod.mk.injEq] at h
    rw [h.2]
  | c :: cs, pre, i, scheme, rest, hraw, hlen, hpre, h => by
    by_cases hq : c = '?'
    · subst hq
      simp only [getSchemeLoop] at h
      rw [if_neg (by decide), if_neg (by decide), if_neg (by decide)] at h
      simp only [Option.some.injEq, Prod.mk.injEq] at h
      rw [h.2]
    · have hpre' : '?' ∉ pre ++ [c] := by
        simp only [List.mem_append, List.mem_singleton, not_or]
        exact ⟨hpre, fun h => hq h.symm⟩
      have hraw' : rawURL = (pre ++ [c]) ++ cs := by simp [hraw]
      have hlen' : (pre ++ [c]).length = i + 1 := by simp [hlen]
      simp only [getSchemeLoop] at h
      split at h
      · exact getSchemeLoop_query rawURL cs (pre ++ [c]) (i + 1) scheme rest hraw' hlen' hpre' h
      · split at h
        · split at h
          · simp only [Option.some.injEq, Prod.mk.injEq] at h
            rw [h.2]
          · exact getSchemeLoop_query rawURL cs (pre ++ [c]) (i + 1) scheme rest hraw' hlen'
              hpre' h
        · split at h
          · split at h
            · cases h
            · simp only [Option.some.injEq, Prod.mk.injEq] at h
              have hdrop : rawURL.drop (i + 1) = cs := by
                rw [hraw', ← hlen', List.drop_left]
              rw [← h.2, hdrop]
              conv_rhs => rw [hraw']
              exact (cut_append_of_not_mem hpre' cs).symm
          · simp only [Option.some.injEq, Prod.mk.injEq] at h
            rw [h.2]

theorem getScheme_query {rawURL scheme rest : Str} (h : getScheme rawURL = some (scheme, rest)) :
    (cut rest '?').2 = (cut rawURL '?').2 :=
  getSchemeLoop_query rawURL rawURL [] 0 scheme rest rfl rfl (by simp) h

theorem cut_forceQuery {rest0 : Str} (hs : hasSuffix rest0 ['?'] = true)
    (hc : rest0.count '?' = 1) : (cut rest0 '?').2 = [] := by
  simp only [hasSuffix, List.reverse_cons, List.reverse_nil, List.nil_append] at hs
  cases hr : rest0.reverse with
  | nil => simp [hr, List.isPrefixOf] at hs
  | cons x t =>
    rw [hr] at hs
    have hx : x = '?' := by
      have hqx : '?' = x := by simpa [List.isPrefixOf] using hs
      exact hqx.symm
    subst hx
    have hrest : rest0 = t.reverse ++ ['?'] := by
      have := congrArg List.reverse hr
      simpa using this
    rw [hrest] at hc ⊢
    have hnot : '?' ∉ t.reverse := by
      rw [List.count_append] at hc
      simp only [List.count_singleton_self] at hc
      exact List.count_eq_zero.1 (by omega)
    rw [cut_append_of_not_mem hnot]
    simp [cut]

theorem setPath_query {u v : URL} {p : Str} (h : u.setPath p = some v) :
    v.RawQuery = u.RawQuery ∧ v.Fragment = u.Fragment ∧ v.RawFragment = u.RawFragment := by
  simp only [URL.setPath, Option.map_eq_some'] at h
  obtain ⟨path, -, rfl⟩ := h
  exact ⟨rfl, rfl, rfl⟩

theorem parseNoFragment_query {rawURL : Str} {u : URL} (h : parseNoFragment rawURL = some u) :
    u.RawQuery = (cut rawURL '?').2 ∧ u.Fragment = [] ∧ u.RawFragment = [] := by
  unfold parseNoFragment at h
  split at h
  · cases h
  · split at h
    · next hstar =>
      simp only [Option.some.injEq] at h
      subst h
      subst hstar
      exact ⟨by decide, rfl, rfl⟩
    · split at h
      · cases h
      · next scheme rest0 hsch =>
        have hq : (if (hasSuffix rest0 ['?'] && rest0.count '?' == 1) = true then []
            else (cut rest0 '?').2) = (cut rawURL '?').2 := by
          rw [← getScheme_query hsch]
          split
          · next hf =>
            simp only [Bool.and_eq_true, beq_iff_eq] at hf
            exact (cut_forceQuery hf.1 hf.2).symm
          · rfl
        rw [← hq]
        dsimp only at h
        generalize (if (hasSuffix rest0 ['?'] && rest0.count '?' == 1) = true then []
            else (cut rest0 '?').2) = q at h ⊢
        generalize (if (hasSuffix rest0 ['?'] && rest0.count '?' == 1) = true
            then rest0.dropLast else (cut rest0 '?').1) = rest at h
        split at h
        · simp only [Option.some.injEq] at h
          subst h
          exact ⟨rfl, rfl, rfl⟩
        · split at h
          · cases h
          · split at h
            · split at h
              · simp only [Option.bind_eq_some] at h
                obtain ⟨⟨user, host⟩, -, h⟩ := h
                exact setPath_query h
              · simp only [Option.bind_eq_some] at h
                obtain ⟨⟨user, host⟩, -, h⟩ := h
                exact setPath_query h
            · split at h
              · exact setPath_query h
              · exact setPath_query h

theorem Parse_query_fragment {rawURL : Str} {u : URL} (h : Parse rawURL = some u) :
    u.RawQuery = (cut (cut rawURL '#').1 '?').2 ∧
      unescape (cut rawURL '#').2 .encodeFragment = some u.Fragment := by
  unfold Parse at h
  split at h
  · next hi =>
    rw [cut_of_index_none _ _ hi]
    obtain ⟨h1, h2, -⟩ := parseNoFragment_query h
    exact ⟨h1, by rw [h2]; rfl⟩
  · next i hi =>
    rw [cut_of_index_some _ _ _ hi]
    simp only [Option.bind_eq_some] at h
    obtain ⟨url, hurl, h⟩ := h
    obtain ⟨h1, h2, -⟩ := parseNoFragment_query hurl
    split at h
    · next hnil =>
      simp only [Option.some.injEq] at h
      subst h
      exact ⟨h1, by rw [hnil, h2]; rfl⟩
    · simp only [URL.setFragment, Option.map_eq_some'] at h
      obtain ⟨frag, hfrag, rfl⟩ := h
      exact ⟨h1, hfrag⟩

theorem unescape_of_no_percent (mode : Encoding) (hm : mode ≠ .encodeHost) :
    ∀ (s : Str), '%' ∉ s → unescape s mode = some s
  | [], _ => rfl
  | c :: rest, h => by
    have hc : ¬ (c = '%') := fun hc => h (by simp [hc])
    have hrest : '%' ∉ rest := fun hr => h (by simp [hr])
    have ih := unescape_of_no_percent mode hm rest hrest
    unfold unescape
    split
    · next heq => cases heq
    · next a b r heq =>
      simp only [List.cons.injEq] at heq
      exact absurd heq.1 hc
    · next heq =>
      simp only [List.cons.injEq] at heq
      exact absurd heq.1 hc
    · next c' rest' _ _ heq =>
      simp only [List.cons.injEq] at heq
      obtain ⟨rfl, rfl⟩ := heq
      simp [hm, ih]

theorem localPath_eq_localMappedPath (urlPath : Str) :
    (if hasPrefix
          (if urlPath = [] || hasSuffix urlPath ['/'] then urlPath ++ "index.html".toList
            else urlPath) ['/'] = true
      then '.' :: (if urlPath = [] || hasSuffix urlPath ['/'] then urlPath ++ "index.html".toList
            else urlPath)
      else (if urlPath = [] || hasSuffix urlPath ['/'] then urlPath ++ "index.html".toList
            else urlPath)) = localMappedPath urlPath := by
  unfold localMappedPath mirrorPath
  cases urlPath with
  | nil => decide
  | cons c cs =>
    by_cases hc : c = '/'
    · subst hc
      by_cases hs : hasSuffix ('/' :: cs) ['/'] = true <;> simp [hasPrefix, hs]
    · have hc' : ¬ ('/' = c) := fun h => hc h.symm
      by_cases hs : hasSuffix (c :: cs) ['/'] = true <;> simp [hasPrefix, hs, hc, hc']

/-- C11 (fails on the code): the fragment `a%20b` of the URL is written as
`a b`, in its decoded form, not as it stands in the URL. -/
theorem escaped_fragment_is_decoded :
    urlToLocalPath "http://ex.test/a.html?x=1#a%20b".toList exBase =
      "./a.html?x=1#a b".toList := by
  decide

/-- C11, as amended. For every URL that parses and has the host name of the
base, `urlToLocalPath` returns the mapped path, followed by `?` and the query
exactly as written in the URL (the text between the first `?` and the first
`#`) when it is not empty, followed by `#` and the fragment when it is not
empty; the fragment is the percent-decoded form of the text after the first
`#`, and is that text itself when it holds no `%`. -/
theorem urlToLocalPath_query_fragment (urlStr : Str) (baseURL u : URL)
    (hparse : Parse urlStr = some u) (hhost : u.Hostname = baseURL.Hostname) :
    urlToLocalPath urlStr baseURL =
      localMappedPath u.Path ++
        ((if (cut (cut urlStr '#').1 '?').2 ≠ [] then '?' :: (cut (cut urlStr '#').1 '?').2
          else []) ++
        (if u.Fragment ≠ [] then '#' :: u.Fragment else [])) ∧
    unescape (cut urlStr '#').2 .encodeFragment = some u.Fragment ∧
    ('%' ∉ (cut urlStr '#').2 → u.Fragment = (cut urlStr '#').2) := by
  obtain ⟨hq, hf⟩ := Parse_query_fragment hparse
  refine ⟨?_, hf, ?_⟩
  · rw [← hq]
    simp only [urlToLocalPath, hparse, hhost, ne_eq, not_true_eq_false, if_false,
      localPath_eq_localMappedPath]
    by_cases h1 : u.RawQuery = [] <;> by_cases h2 : u.Fragment = [] <;> simp [h1, h2]
  · intro hp
    rw [unescape_of_no_percent _ (by decide) _ hp] at hf
    exact (Option.some.inj hf).symm

/-- C11 at a URL with a query and a plain fragment, and at the URL of the
counterexample. -/
theorem urlToLocalPath_query_fragment_witness :
    urlToLocalPath "http://ex.test/dir/?x=1&y=%41#top".toList exBase =
      "./dir/index.html?x=1&y=%41#top".toList ∧
    unescape "a%20b".toList .encodeFragment = some "a b".toList := by
  have h1 := urlToLocalPath_query_fragment "http://ex.test/dir/?x=1&y=%41#top".toList exBase
    { Scheme := "http".toList, Host := "ex.test".toList, Path := "/dir/".toList,
      RawQuery := "x=1&y=%41".toList, Fragment := "top".toList } (by decide) (by decide)
  have h2 := urlToLocalPath_query_fragment "http://ex.test/a.html?x=1#a%20b".toList exBase
    { Scheme := "http".toList, Host := "ex.test".toList, Path := "/a.html".toList,
      RawQuery := "x=1".toList, Fragment := "a b".toList } (by decide) (by decide)
  refine ⟨?_, h2.2.1⟩
  rw [h1.1]
  decide

/-! ## Slices, and `strings.ToLower` on ASCII text -/

theorem index_le : ∀ (s sub : Str) (i : Nat), index s sub = some i → i ≤ s.length
  | [], sub, i, h => by
    simp only [index] at h
    split at h
    · cases h; exact Nat.le_refl _
    · cases h
  | c :: cs, sub, i, h => by
    simp only [index] at h
    split at h
    · cases h; exact Nat.zero_le _
    · cases hi : index cs sub with
      | none => simp [hi] at h
      | some j =>
        simp only [hi, Option.map_some', Option.some.injEq] at h
        subst h
        have := index_le cs sub j hi
        simp only [List.length_cons]
        omega

theorem index_add_length_le {s sub : Str} {i : Nat} (h : index s sub = some i) :
    i + sub.length ≤ s.length := by
  have h1 := index_le s sub i h
  have h2 := isPrefixOf_drop_of_index s sub i h
  rw [List.isPrefixOf_iff_prefix] at h2
  have h3 := h2.length_le
  rw [List.length_drop] at h3
  omega

theorem goToLower_of_ascii (lowerCase : Nat → Int) {s : Str} (h : ∀ c ∈ s, c.toNat < 0x80) :
    goToLower lowerCase s = toLower s := by
  have : s.all (fun c => decide (c.toNat < 0x80)) = true := by
    simpa [List.all_eq_true] using h
  simp only [goToLower, this, if_true]

theorem ascii_drop {s : Str} (h : ∀ c ∈ s, c.toNat < 0x80) (n : Nat) :
    ∀ c ∈ s.drop n, c.toNat < 0x80 := fun c hc => h c (List.mem_of_mem_drop hc)

theorem ascii_slice {s : Str} (h : ∀ c ∈ s, c.toNat < 0x80) (a b : Nat) :
    ∀ c ∈ slice s a b, c.toNat < 0x80 :=
  fun c hc => h c (List.mem_of_mem_drop (List.mem_of_mem_take hc))

theorem toLower_slice (s : Str) (a b : Nat) : toLower (slice s a b) = slice (toLower s) a b := by
  simp [toLower, slice, List.map_take, List.map_drop]

/-- On ASCII content every slice of `extractLinks` is in range and the case
table is not consulted: the loop returns, and returns the same for every
table. -/
theorem extractLinksLoop_ascii (lowerCase lowerCase' : Nat → Int)
    (content tagStart attrPattern : Str) (baseURL : URL)
    (hc : ∀ c ∈ content, c.toNat < 0x80) :
    ∀ (fuel pos : Nat) (results : List Str), pos ≤ content.length →
      ∃ out,
        extractLinksLoop lowerCase content tagStart attrPattern baseURL fuel pos results =
          some out ∧
        extractLinksLoop lowerCase' content tagStart attrPattern baseURL fuel pos results =
          some out := by
  intro fuel
  induction fuel with
  | zero => intro pos results _; exact ⟨results, rfl, rfl⟩
  | succ k ih =>
    intro pos results hpos
    have h0 : sliceFrom? content pos = some (content.drop pos) := by simp [sliceFrom?, hpos]
    simp only [extractLinksLoop, h0, Option.bind_eq_bind, Option.some_bind,
      goToLower_of_ascii lowerCase (ascii_drop hc pos),
      goToLower_of_ascii lowerCase' (ascii_drop hc pos)]
    cases htag : index (toLower (content.drop pos)) tagStart with
    | none => exact ⟨results, rfl, rfl⟩
    | some tagRel =>
      have hb := index_le _ _ _ htag
      simp only [toLower, List.length_map, List.length_drop] at hb
      have h1 : sliceFrom? content (tagRel + pos) = some (content.drop (tagRel + pos)) := by
        simp only [sliceFrom?]
        rw [if_pos (by omega)]
      simp only [h1, Option.some_bind]
      cases hend : index (content.drop (tagRel + pos)) ['>'] with
      | none => exact ⟨results, rfl, rfl⟩
      | some endRel =>
        have he := index_add_length_le hend
        simp only [List.length_drop, List.length_singleton] at he
        have h2 : slice? content (tagRel + pos) (endRel + (tagRel + pos)) =
            some (slice content (tagRel + pos) (endRel + (tagRel + pos))) := by
          simp only [slice?]
          rw [if_pos ⟨by omega, by omega⟩]
        simp only [h2, Option.some_bind,
          goToLower_of_ascii lowerCase (ascii_slice hc _ _),
          goToLower_of_ascii lowerCase' (ascii_slice hc _ _)]
        have hk : ∀ R : List Str, ∃ out,
            (if endRel + (tagRel + pos) + 1 ≥ content.length then some R
              else extractLinksLoop lowerCase content tagStart attrPattern baseURL k
                (endRel + (tagRel + pos) + 1) R) = some out ∧
            (if endRel + (tagRel + pos) + 1 ≥ content.length then some R
              else extractLinksLoop lowerCase' content tagStart attrPattern baseURL k
                (endRel + (tagRel + pos) + 1) R) = some out := by
          intro R
          split
          · exact ⟨R, rfl, rfl⟩
          · exact ih _ _ (by omega)
        cases hattr : index (toLower (slice content (tagRel + pos) (endRel + (tagRel + pos))))
            attrPattern with
        | none => exact hk results
        | some attrPos =>
          simp only []
          by_cases hstop : scanUntil content (tagRel + pos + attrPos + attrPattern.length)
              (· == '"') < content.length
          · have h3 : slice? content (tagRel + pos + attrPos + attrPattern.length)
                (scanUntil content (tagRel + pos + attrPos + attrPattern.length) (· == '"')) =
                some (slice content (tagRel + pos + attrPos + attrPattern.length)
                  (scanUntil content (tagRel + pos + attrPos + attrPattern.length)
                    (· == '"'))) := by
              simp only [slice?]
              rw [if_pos ⟨Nat.le_add_right _ _, by omega⟩]
            simp only [hstop, if_true, h3, Option.some_bind, isValidLink,
              goToLower_of_ascii lowerCase (ascii_slice hc _ _),
              goToLower_of_ascii lowerCase' (ascii_slice hc _ _)]
            split
            · split
              · exact hk _
              · exact hk _
            · exact hk _
          · simp only [hstop, if_false]
            exact hk _

/-- On ASCII content every slice of `replaceLinksInTag` is in range and the
case table is not consulted: the loop returns, and returns the same for every
table. -/
theorem replaceLinksInTagLoop_ascii (lowerCase lowerCase' : Nat → Int)
    (content tagStart attrPattern : Str) (baseURL : URL)
    (hc : ∀ c ∈ content, c.toNat < 0x80) :
    ∀ (fuel pos : Nat) (result : Str), pos ≤ content.length →
      ∃ out,
        replaceLinksInTagLoop lowerCase content tagStart attrPattern baseURL fuel pos result =
          some out ∧
        replaceLinksInTagLoop lowerCase' content tagStart attrPattern baseURL fuel pos result =
          some out := by
  intro fuel
  induction fuel with
  | zero => intro pos result _; exact ⟨result, rfl, rfl⟩
  | succ k ih =>
    intro pos result hpos
    have h0 : sliceFrom? content pos = some (content.drop pos) := by simp [sliceFrom?, hpos]
    simp only [replaceLinksInTagLoop, h0, Option.bind_eq_bind, Option.some_bind,
      goToLower_of_ascii lowerCase (ascii_drop hc pos),
      goToLower_of_ascii lowerCase' (ascii_drop hc pos)]
    cases htag : index (toLower (content.drop pos)) tagStart with
    | none => exact ⟨_, rfl, rfl⟩
    | some tagRel =>
      have hb := index_le _ _ _ htag
      simp only [toLower, List.length_map, List.length_drop] at hb
      have h1 : sliceFrom? content (tagRel + pos) = some (content.drop (tagRel + pos)) := by
        simp only [sliceFrom?]
        rw [if_pos (by omega)]
      have h1' : slice? content pos (tagRel + pos) = some (slice content pos (tagRel + pos)) := by
        simp only [slice?]
        rw [if_pos ⟨by omega, by omega⟩]
      simp only [h1, h1', Option.some_bind]
      cases hend : index (content.drop (tagRel + pos)) ['>'] with
      | none => exact ⟨_, rfl, rfl⟩
      | some endRel =>
        have he := index_add_length_le hend
        simp only [List.length_drop, List.length_singleton] at he
        have h2 : slice? content (tagRel + pos) (endRel + (tagRel + pos)) =
            some (slice content (tagRel + pos) (endRel + (tagRel + pos))) := by
          simp only [slice?]
          rw [if_pos ⟨by omega, by omega⟩]
        simp only [h2, Option.some_bind,
          goToLower_of_ascii lowerCase (ascii_slice hc _ _),
          goToLower_of_ascii lowerCase' (ascii_slice hc _ _)]
        have hk : ∀ R : Str, ∃ out,
            (if endRel + (tagRel + pos) ≥ content.length then some R
              else replaceLinksInTagLoop lowerCase content tagStart attrPattern baseURL k
                (endRel + (tagRel + pos)) R) = some out ∧
            (if endRel + (tagRel + pos) ≥ content.length then some R
              else replaceLinksInTagLoop lowerCase' content tagStart attrPattern baseURL k
                (endRel + (tagRel + pos)) R) = some out := by
          intro R
          split
          · exact ⟨R, rfl, rfl⟩
          · exact ih _ _ (by omega)
        have hasc := ascii_slice hc (tagRel + pos) (endRel + (tagRel + pos))
        generalize slice content (tagRel + pos) (endRel + (tagRel + pos)) = tagContent at hasc ⊢
        cases hattr : index (toLower tagContent) attrPattern with
        | none => exact hk _
        | some attrPos =>
          simp only []
          by_cases hstop : scanUntil tagContent (attrPos + attrPattern.length) (· == '"') <
              tagContent.length
          · have h3 : slice? tagContent (attrPos + attrPattern.length)
                (scanUntil tagContent (attrPos + attrPattern.length) (· == '"')) =
                some (slice tagContent (attrPos + attrPattern.length)
                  (scanUntil tagContent (attrPos + attrPattern.length) (· == '"'))) := by
              simp only [slice?]
              rw [if_pos ⟨Nat.le_add_right _ _, by omega⟩]
            have hle : attrPos + attrPattern.length ≤
                scanUntil tagContent (attrPos + attrPattern.length) (· == '"') :=
              Nat.le_add_right _ _
            have h4 : slice? tagContent 0 (attrPos + attrPattern.length) =
                some (tagContent.take (attrPos + attrPattern.length)) := by
              simp only [slice?]
              rw [if_pos ⟨Nat.zero_le _, by omega⟩]
              simp [slice]
            have h5 : sliceFrom? tagContent
                (scanUntil tagContent (attrPos + attrPattern.length) (· == '"')) =
                some (tagContent.drop
                  (scanUntil tagContent (attrPos + attrPattern.length) (· == '"'))) := by
              simp only [sliceFrom?]
              rw [if_pos (by omega)]
            simp only [hstop, if_true, h3, h4, h5, Option.some_bind, isValidLink,
              goToLower_of_ascii lowerCase (ascii_slice hasc _ _),
              goToLower_of_ascii lowerCase' (ascii_slice hasc _ _)]
            split
            · split
              · exact hk _
              · exact hk _
            · exact hk _
          · simp only [hstop, if_false]
            exact hk _

/-- On ASCII text `extractLinks` and `replaceLinksInTag` make no slice out of
range and do not consult the case table: both return, with the same result
for every table. -/
theorem slices_in_range_of_ascii (lowerCase lowerCase' : Nat → Int) (content tag attr : Str)
    (baseURL : URL)
    (hc : ∀ c ∈ content, c.toNat < 0x80) (ht : ∀ c ∈ tag, c.toNat < 0x80)
    (ha : ∀ c ∈ attr, c.toNat < 0x80) :
    (∃ links, extractLinks lowerCase content tag attr baseURL = some links ∧
      extractLinks lowerCase' content tag attr baseURL = some links) ∧
    ∃ page, replaceLinksInTag lowerCase content tag attr baseURL = some page ∧
      replaceLinksInTag lowerCase' content tag attr baseURL = some page := by
  simp only [extractLinks, replaceLinksInTag, goToLower_of_ascii lowerCase ht,
    goToLower_of_ascii lowerCase ha, goToLower_of_ascii lowerCase' ht,
    goToLower_of_ascii lowerCase' ha]
  exact ⟨extractLinksLoop_ascii lowerCase lowerCase' content _ _ baseURL hc _ 0 []
      (Nat.zero_le _),
    replaceLinksInTagLoop_ascii lowerCase lowerCase' content _ _ baseURL hc _ 0 []
      (Nat.zero_le _)⟩



/-! ## C12 and C14: accepted links and quoting -/

/-- C14 (fails on the code). On the page `http://ex.test/a.html`,
`extractLinks` finds the double-quoted value whatever the letter case of the
tag and the attribute, but it only looks for `href="`: from
`<A HREF='/b.html'>` it extracts nothing, while `FindAll`, which also tries
`href='`, returns `/b.html`. -/
theorem single_quoted_link_not_extracted :
    extractLinks noCase "<a href=\"/b.html\">".toList "a".toList "href".toList exBase =
      some ["http://ex.test/b.html".toList] ∧
    extractLinks noCase "<A HREF=\"/b.html\">".toList "a".toList "href".toList exBase =
      some ["http://ex.test/b.html".toList] ∧
    extractLinks noCase "<A HREF='/b.html'>".toList "a".toList "href".toList exBase =
      some [] ∧
    (parseHTMLSimple noCase "<A HREF='/b.html'>".toList exBase).map Prod.fst = some [] ∧
    FindAll "<A HREF='/b.html'>".toList "a".toList "href".toList = ["/b.html".toList] := by
  decide

/-- C17 (fails on the code): a response with the 2xx status 204 is a fetch
error carrying 204, not a success. -/
theorem status_204_is_fetch_error :
    downloadResource (statusWorld 204) "http://ex.test/a.html".toList =
      .error (.status 204) := by
  rfl

/-- C17, as amended. For a URL that parses and a server that answers with
status `s`: `downloadResource` returns the fetch error carrying `s` if and
only if `s` is not 200, it never returns a status error carrying another
code, and a 200 response whose body can be read yields the body and the
`Content-Type` header. -/
theorem downloadResource_status (w : World) (urlStr : Str) (u : URL) (statusCode : Nat)
    (body : Option Str) (contentType : Str) (hparse : Parse urlStr = some u)
    (hget : w.httpGet urlStr = some (statusCode, body, contentType)) :
    (downloadResource w urlStr = .error (.status statusCode) ↔ statusCode ≠ 200) ∧
    (∀ code, downloadResource w urlStr = .error (.status code) → code = statusCode) ∧
    (statusCode = 200 → ∀ content, body = some content →
      downloadResource w urlStr = .ok (content, contentType)) := by
  simp only [downloadResource, hparse, hget]
  by_cases hs : statusCode = 200
  · subst hs
    cases body <;> simp
  · simp [hs]

/-- C17 at the statuses 200, 204 and 404. -/
theorem downloadResource_status_witness :
    downloadResource (statusWorld 200) "http://ex.test/a.html".toList =
      .ok ("ok".toList, "text/plain".toList) ∧
    (downloadResource (statusWorld 204) "http://ex.test/a.html".toList =
      .error (.status 204) ↔ 204 ≠ 200) ∧
    (downloadResource (statusWorld 404) "http://ex.test/a.html".toList =
      .error (.status 404) ↔ 404 ≠ 200) :=
  ⟨(downloadResource_status (statusWorld 200) "http://ex.test/a.html".toList exBase 200
      (some "ok".toList) "text/plain".toList (by decide) rfl).2.2 rfl _ rfl,
    (downloadResource_status (statusWorld 204) "http://ex.test/a.html".toList exBase 204
      (some "ok".toList) "text/plain".toList (by decide) rfl).1,
    (downloadResource_status (statusWorld 404) "http://ex.test/a.html".toList exBase 404
      (some "ok".toList) "text/plain".toList (by decide) rfl).1⟩

/-! ## C18: a failed task is dropped -/

/-- C18. In a reachable state, a worker whose fetch of `task` fails, or whose
save of it fails, drops the task in one step: nothing is sent to the queue,
no file is written, the visited set is unchanged and still holds the URL of
the task, and the worker is back at the receive, where its next step takes
the head of the queue, if there is one. -/
theorem failed_task_is_dropped (w : World) (config : Config) (s : State) (id : Nat)
    (pc : WorkerPc) (task : DownloadTask) (hreach : Reachable w config s)
    (hr : s.mainPc ≠ .returned) (he : s.mainPc ≠ .exited)
    (hpc : s.workers.get? id = some pc)
    (hfail : (pc = .fetch task ∧ ∃ err, downloadResource w task.URL = .error err) ∨
      (∃ content contentType, pc = .save task content contentType ∧
        saveResource w config task.URL content s.files = none)) :
    ∃ s', step w config s (.worker id) = some s' ∧
      s'.workers.get? id = some .recv ∧
      s'.queue = s.queue ∧ s'.sent = s.sent ∧ s'.files = s.files ∧
      s'.visited = s.visited ∧ task.URL ∈ s'.visited ∧
      ∀ next rest, s'.queue = next :: rest →
        ∃ s'', step w config s' (.worker id) = some s'' ∧
          s''.workers.get? id = some (.check next) ∧ s''.queue = rest := by
  have hlt : id < s.workers.length := by
    rw [List.get?_eq_some] at hpc
    exact hpc.1
  have hvis : task.URL ∈ s.visited := by
    have hinv := (pageInv_of_reachable hreach).claimed pc (mem_of_get?_eq hpc) task
    rcases hfail with ⟨rfl, -⟩ | ⟨c, ct, rfl, -⟩ <;> exact hinv rfl
  have hnext : ∀ (s' : State), s'.mainPc = s.mainPc → s'.workers = s.workers.set id .recv →
      ∀ next rest, s'.queue = next :: rest →
        ∃ s'', step w config s' (.worker id) = some s'' ∧
          s''.workers.get? id = some (.check next) ∧ s''.queue = rest := by
    intro s' hm hw next rest hq
    have hget : s'.workers.get? id = some .recv := by
      rw [hw]
      simp [hlt]
    refine ⟨{ s' with queue := rest, workers := s'.workers.set id (.check next) }, ?_, ?_, ?_⟩
    · rw [step_worker (by rw [hm]; exact hr) (by rw [hm]; exact he) hget]
      simp only [stepWorker, hq]
    · simp [hw, hlt]
    · rfl
  rw [step_worker hr he hpc]
  rcases hfail with ⟨rfl, err, herr⟩ | ⟨c, ct, rfl, hsave⟩
  · exact ⟨{ s with fetched := s.fetched ++ [task], workers := s.workers.set id .recv },
      by simp only [stepWorker, herr], by simp [hlt], rfl, rfl, rfl, rfl, hvis,
      hnext _ rfl rfl⟩
  · exact ⟨{ s with workers := s.workers.set id .recv },
      by simp only [stepWorker, hsave], by simp [hlt], rfl, rfl, rfl, rfl, hvis,
      hnext _ rfl rfl⟩

set_option maxRecDepth 100000 in
/-- C18 on `brokenLinkSite`: the worker is about to fetch `/b.html`, the fetch
fails, and the task is dropped with the URL left in the visited set. -/
theorem failed_task_is_dropped_witness :
    ∃ s s', crawl brokenLinkSite (exConfig 1) brokenLinkSchedule = some s ∧
      s.workers = [.fetch exChild] ∧
      step brokenLinkSite (exConfig 1) s (.worker 0) = some s' ∧
      s'.workers.get? 0 = some .recv ∧ s'.queue = s.queue ∧ s'.sent = s.sent ∧
      s'.files = s.files ∧ exChild.URL ∈ s'.visited := by
  have h : (crawl brokenLinkSite (exConfig 1) brokenLinkSchedule).isSome = true := by decide
  obtain ⟨s, hs⟩ := Option.isSome_iff_exists.1 h
  have h1 : (crawl brokenLinkSite (exConfig 1) brokenLinkSchedule).map
      (fun s => (s.workers, s.mainPc)) = some ([.fetch exChild], .wait) := by decide
  rw [hs] at h1
  simp only [Option.map_some', Option.some.injEq, Prod.mk.injEq] at h1
  obtain ⟨hw, hm⟩ := h1
  obtain ⟨s', hstep, hrecv, hq, hsent, hfiles, -, hvis, -⟩ :=
    failed_task_is_dropped brokenLinkSite (exConfig 1) s 0 (.fetch exChild) exChild
      (reachable_crawl hs) (by simp [hm]) (by simp [hm]) (by simp [hw])
      (Or.inl ⟨rfl, FetchError.transport, rfl⟩)
  exact ⟨s, s', hs, hw, hstep, hrecv, hq, hsent, hfiles, hvis⟩

/-! ## C13: where the scheme filter is -/

theorem setPath_getD_scheme (u : URL) (p : Str) : ((u.setPath p).getD u).Scheme = u.Scheme := by
  unfold URL.setPath
  cases unescape p .encodePath <;> rfl

theorem resolveReference_scheme (u ref : URL) (h : ref.Scheme = []) :
    (u.ResolveReference ref).Scheme = u.Scheme := by
  unfold URL.ResolveReference
  simp only [h, if_true]
  split
  · rw [setPath_getD_scheme]
  · split
    · rfl
    · split
      · split <;> (try split) <;> rfl
      · rw [setPath_getD_scheme]
        split <;> (try split) <;> rfl

/-- The text of a URL with a scheme begins with the scheme and a colon. -/
theorem string_scheme_prefix (u : URL) (h : u.Scheme ≠ []) :
    ∃ rest, u.String = u.Scheme ++ ':' :: rest := by
  unfold URL.String
  simp only [h, ne_eq, not_false_eq_true, if_true, decide_True, Bool.true_or]
  split
  · exact ⟨_, by simp only [List.append_assoc, List.singleton_append]; rfl⟩
  · have hne : ∀ a b : Str, (u.Scheme ++ [':'] ++ a ++ b = []) = False := by
      intro a b
      simp
    split
    · simp only [hne, decide_False, Bool.false_and, Bool.false_eq_true, if_false]
      exact ⟨_, by simp only [List.append_assoc, List.singleton_append]; rfl⟩
    · simp only [hne, decide_False, Bool.false_and, Bool.false_eq_true, if_false]
      exact ⟨_, by simp only [List.append_assoc, List.singleton_append]; rfl⟩

/-- C13 (fails on the code): `extractLinks` yields the `ftp:` and the `tel:`
link of a page as they stand. -/
theorem ftp_link_is_extracted :
    extractLinks noCase
      "<a href=\"ftp://ex.test/f.txt\">f</a><a href=\"tel:+123\">t</a>".toList
      "a".toList "href".toList exBase =
      some ["ftp://ex.test/f.txt".toList, "tel:+123".toList] := by
  decide

/-- C13 (amended). `resolveURL` has no test of the scheme. For a reference
that parses and has a scheme it returns the text `url.String` of the parsed
reference, which is not empty and begins with the scheme of the parsed
reference and a colon, whatever that scheme is; for a non-empty reference that
parses and has no scheme it returns the text of the reference resolved against
the base, which has the scheme of the base and, when the base has a scheme,
begins with it and a colon. The scheme filter is `shouldDownload`, which the
worker applies to the anchor links: every page task that a crawl enqueues for
a page has the scheme `http` or `https`. -/
theorem scheme_filter_on_page_tasks (w : World) (config : Config) (s : State)
    (hreach : Reachable w config s) :
    (∀ href baseURL parsed, Parse href = some parsed → parsed.IsAbs = true →
      resolveURL href baseURL = parsed.String ∧
        ∃ rest, resolveURL href baseURL = parsed.Scheme ++ ':' :: rest) ∧
    (∀ href baseURL parsed, href ≠ [] → Parse href = some parsed → parsed.IsAbs = false →
      resolveURL href baseURL = (baseURL.ResolveReference parsed).String ∧
        (baseURL.ResolveReference parsed).Scheme = baseURL.Scheme ∧
        (baseURL.Scheme ≠ [] →
          ∃ rest, resolveURL href baseURL = baseURL.Scheme ++ ':' :: rest)) ∧
    ∀ parent child, (some parent, child) ∈ s.sent → child.Typ = "html".toList →
      ∃ u, Parse child.URL = some u ∧
        (u.Scheme = "http".toList ∨ u.Scheme = "https".toList) := by
  refine ⟨?_, ?_, ?_⟩
  · intro href baseURL parsed hp ha
    have hne : href ≠ [] := by
      rintro rfl
      have h0 : Parse [] = some {} := by decide
      rw [h0] at hp
      cases hp
      revert ha
      decide
    have h1 : resolveURL href baseURL = parsed.String := by simp [resolveURL, hne, hp, ha]
    refine ⟨h1, ?_⟩
    rw [h1]
    exact string_scheme_prefix parsed (by simpa [URL.IsAbs] using ha)
  · intro href baseURL parsed hne hp ha
    have h1 : resolveURL href baseURL = (baseURL.ResolveReference parsed).String := by
      simp [resolveURL, hne, hp, ha]
    have h2 : (baseURL.ResolveReference parsed).Scheme = baseURL.Scheme :=
      resolveReference_scheme _ _ (by simpa [URL.IsAbs] using ha)
    refine ⟨h1, h2, fun hb => ?_⟩
    rw [h1, ← h2]
    exact string_scheme_prefix _ (by rw [h2]; exact hb)
  · intro parent child hm ht
    obtain ⟨base, hb⟩ := (pageInv_of_reachable hreach).sent_page _ hm parent rfl ht
    obtain ⟨p, hp, hs, _⟩ := shouldDownload_host hb
    exact ⟨p, hp, hs⟩

set_option maxRecDepth 100000 in
/-- C13 at the end of `raceSchedule`: the page task of `/b.html` was sent for
the seed, and its URL has the scheme `http` or `https`; and `resolveURL`
returns the reference `HTTP://other.test/c.html` with the scheme that
`url.Parse` read, `http`. -/
theorem scheme_filter_on_page_tasks_witness :
    ∃ s, crawl raceSite (exConfig 2) raceSchedule = some s ∧
      (some exSeed, exChild) ∈ s.sent ∧
      (∃ u, Parse exChild.URL = some u ∧
        (u.Scheme = "http".toList ∨ u.Scheme = "https".toList)) ∧
      (Parse "HTTP://other.test/c.html".toList).map URL.Scheme = some "http".toList ∧
      resolveURL "HTTP://other.test/c.html".toList exBase = "http://other.test/c.html".toList ∧
      ∃ rest, resolveURL "HTTP://other.test/c.html".toList exBase =
        "http".toList ++ ':' :: rest := by
  have h : (crawl raceSite (exConfig 2) raceSchedule).isSome = true := by decide
  obtain ⟨s, hs⟩ := Option.isSome_iff_exists.1 h
  have h1 : (crawl raceSite (exConfig 2) raceSchedule).map
      (fun s => decide ((some exSeed, exChild) ∈ s.sent)) = some true := by decide
  rw [hs] at h1
  simp only [Option.map_some', Option.some.injEq, decide_eq_true_eq] at h1
  have hthm := scheme_filter_on_page_tasks raceSite (exConfig 2) s (reachable_crawl hs)
  have hp : Parse "HTTP://other.test/c.html".toList =
      some { Scheme := "http".toList, Host := "other.test".toList, Path := "/c.html".toList } := by
    decide
  exact ⟨s, hs, h1, hthm.2.2 exSeed exChild h1 rfl, by decide, by decide,
    (hthm.1 "HTTP://other.test/c.html".toList exBase _ hp (by decide)).2⟩

/-! ## C19: when the saved page is rewritten -/

theorem runSchedule_append {w : World} {config : Config} :
    ∀ (as bs : List Actor) (s : State),
      runSchedule w config s (as ++ bs) =
        (runSchedule w config s as).bind fun s1 => runSchedule w config s1 bs
  | [], _, _ => rfl
  | a :: as, bs, s => by
    simp only [List.cons_append, runSchedule]
    cases step w config s a with
    | none => rfl
    | some s1 => exact runSchedule_append as bs s1

theorem saveResource_writes {w : World} {config : Config} {urlStr content localPath : Str}
    {files files1 : List (Str × Str)}
    (h : saveResource w config urlStr content files = some (localPath, files1)) :
    w.writeFile files localPath = true ∧ files1 = (localPath, content) :: files := by
  unfold saveResource at h
  split at h
  · cases h
  · split at h
    · cases h
    · split at h
      · cases h
      · next hw =>
        simp only [Option.some.injEq, Prod.mk.injEq] at h
        obtain ⟨rfl, rfl⟩ := h
        exact ⟨by simpa using hw, rfl⟩

/-- A step of a worker only adds to the log of the file writes. -/
theorem stepWorker_files {w : World} {config : Config} {s s' : State} {id : Nat}
    {pc : WorkerPc} (h : stepWorker w config s id pc = some s') : s.files <:+ s'.files := by
  unfold stepWorker at h
  simp only at h
  split at h
  case h_5 task content contentType =>
    cases hsave : saveResource w config task.URL content s.files with
    | none =>
      simp only [hsave, Option.some.injEq] at h
      subst h
      exact List.suffix_refl _
    | some r =>
      obtain ⟨localPath, files⟩ := r
      obtain ⟨-, rfl⟩ := saveResource_writes hsave
      simp only [hsave] at h
      split at h <;> (try split at h) <;>
        simp only [Option.some.injEq, reduceCtorEq] at h <;> subst h <;>
        exact List.suffix_cons _ _
  all_goals
    (try split at h) <;> (try split at h) <;>
      simp only [Option.some.injEq, reduceCtorEq] at h <;> subst h <;>
      first
        | exact List.suffix_refl _
        | exact List.suffix_cons _ _

theorem step_files {w : World} {config : Config} {s s' : State} {a : Actor}
    (h : step w config s a = some s') : s.files <:+ s'.files := by
  cases a with
  | main =>
    simp only [step] at h
    unfold stepMain at h
    split at h <;> (try split at h) <;> (try split at h) <;> (try split at h) <;>
      simp only [Option.some.injEq, reduceCtorEq] at h <;> subst h <;>
      exact List.suffix_refl _
  | worker j =>
    simp only [step] at h
    split at h
    · cases h
    · split at h
      · cases h
      · exact stepWorker_files h

/-- A step of a worker in the expansion of a page: it stays in the expansion
and writes nothing, or it stands at the rewrite, and then it panics when
`replaceLinksSimple` does, and otherwise goes back to the queue having
written the rewritten page to the path of the page when that write succeeds,
and nothing when it fails. -/
theorem stepWorker_in_page {w : World} {config : Config} {s s' : State} {id : Nat}
    {pc : WorkerPc} {pg : Page} (hpg : pc.page? = some pg)
    (h : stepWorker w config s id pc = some s') :
    (∃ pc', s'.workers = s.workers.set id pc' ∧ pc'.page? = some pg ∧ s'.files = s.files) ∨
    (replaceLinksSimple w.lowerCase pg.content pg.baseURL pg.localPath = none ∧
      s'.workers = s.workers.set id .panicked ∧ s'.mainPc = .exited ∧ s'.files = s.files) ∨
    (∃ updatedHTML,
      replaceLinksSimple w.lowerCase pg.content pg.baseURL pg.localPath = some updatedHTML ∧
      ((w.writeFile s.files pg.localPath = true ∧
          s'.files = (pg.localPath, updatedHTML) :: s.files) ∨
        (w.writeFile s.files pg.localPath = false ∧ s'.files = s.files))) := by
  unfold stepWorker at h
  simp only at h
  split at h <;> simp only [WorkerPc.page?, Option.some.injEq, reduceCtorEq] at hpg <;>
    subst hpg
  case h_12 page =>
    cases hrep : replaceLinksSimple w.lowerCase page.content page.baseURL page.localPath with
    | none =>
      simp only [hrep, Option.some.injEq] at h
      subst h
      exact Or.inr (Or.inl ⟨rfl, rfl, rfl, rfl⟩)
    | some updatedHTML =>
      simp only [hrep] at h
      refine Or.inr (Or.inr ⟨updatedHTML, rfl, ?_⟩)
      split at h
      · next hw =>
        simp only [Option.some.injEq] at h
        subst h
        exact Or.inl ⟨hw, rfl⟩
      · next hw =>
        simp only [Option.some.injEq] at h
        subst h
        exact Or.inr ⟨by simpa using hw, rfl⟩
  all_goals
    (try split at h) <;> simp only [Option.some.injEq, reduceCtorEq] at h <;> subst h <;>
      exact Or.inl ⟨_, rfl, rfl, rfl⟩


set_option maxRecDepth 100000 in
/-- C19 (fails on the code). With `MaxDepth = 0` the seed page of `specSite`
is saved as it was fetched and the worker is back at the queue; no goroutine
can take a further step, so the file is never overwritten, although the
rewriter would change the page. With `MaxDepth = 1` the seed page of
`tornSite` is saved, the worker panics in `extractLinks` and the process ends
with the page as it was fetched. And on `writeOnceSite` the seed page is
saved and expanded, but the write of the rewritten page fails: the worker is
back at the queue and the file holds the page as it was fetched. -/
theorem page_at_max_depth_not_rewritten :
    (crawl specSite depthZeroConfig linklessSchedule).map (fun s => (s.workers, s.files)) =
      some ([.recv], [("mirror/ex.test/a.html".toList, specPage)]) ∧
    (crawl specSite depthZeroConfig linklessSchedule).map
        (fun s => step specSite depthZeroConfig s .main) = some none ∧
    (crawl specSite depthZeroConfig linklessSchedule).map
        (fun s => step specSite depthZeroConfig s (.worker 0)) = some none ∧
    replaceLinksSimple noCase specPage exBase "mirror/ex.test/a.html".toList ≠ some specPage ∧
    (crawl tornSite (exConfig 1) linklessSchedule).map
        (fun s => (s.mainPc, s.workers, s.files)) =
      some (.exited, [.panicked], [("mirror/ex.test/a.html".toList, tornPage)]) ∧
    (crawl writeOnceSite (exConfig 1) (mainToWait 1 ++ List.replicate 13 (Actor.worker 0))).map
        (fun s => (s.workers, s.files)) =
      some ([.recv], [("mirror/ex.test/a.html".toList, specPage)]) := by
  refine ⟨by decide, by decide, by decide, by decide, by decide, by decide⟩

/-- C19 (amended). A worker has fetched `task` and saves it successfully:
the fetched content is written to `localPath`.

* If the content type is not HTML or `task.Depth` is not below `MaxDepth`,
  the next step of the worker takes it back to the queue, and the file keeps
  the fetched content.
* If the content type is HTML and `task.Depth < MaxDepth`, then under every
  interleaving of the goroutines, once the worker has taken its step, the
  write of the fetched content stays in the log of the writes, and one of
  three holds: the worker is in the expansion of the page; or it has panicked
  (`parseHTMLSimple` or `replaceLinksSimple` panics on the content) and the
  process has ended; or `replaceLinksSimple` has returned on the fetched
  content and the worker has made the second write to `localPath` on a log
  `log` of writes later than the save: when that write succeeds, the
  rewritten page was written to `localPath` right after `log`, and when it
  fails, nothing was written.
* If moreover `parseHTMLSimple` and `replaceLinksSimple` return, the queue has
  room for both lists and the second write succeeds, the worker, running
  alone, comes back to the queue after it has overwritten the saved file with
  the rewritten page. -/
theorem rewrite_below_max_depth (w : World) (config : Config) (s : State) (id : Nat)
    (task : DownloadTask) (content contentType localPath : Str) (files : List (Str × Str))
    (hr : s.mainPc ≠ .returned) (he : s.mainPc ≠ .exited)
    (hpc : s.workers.get? id = some (.save task content contentType))
    (hsave : saveResource w config task.URL content s.files = some (localPath, files)) :
    files = (localPath, content) :: s.files ∧
    (¬ (isHTMLContent w.lowerCase contentType = true ∧ task.Depth < config.MaxDepth) →
      ∃ s', step w config s (.worker id) = some s' ∧
        s'.workers.get? id = some .recv ∧ s'.files = (localPath, content) :: s.files) ∧
    (isHTMLContent w.lowerCase contentType = true → task.Depth < config.MaxDepth →
      ∀ (schedule : List Actor) (s' : State),
        runSchedule w config s (.worker id :: schedule) = some s' →
        (localPath, content) :: s.files <:+ s'.files ∧
        ((∃ pc, s'.workers.get? id = some pc ∧
            pc.page? = some ⟨task, content, localPath, (Parse task.URL).getD {}⟩) ∨
          (s'.workers.get? id = some .panicked ∧ s'.mainPc = .exited ∧
            (parseHTMLSimple w.lowerCase content ((Parse task.URL).getD {}) = none ∨
              replaceLinksSimple w.lowerCase content ((Parse task.URL).getD {}) localPath =
                none)) ∨
          ∃ updatedHTML log,
            replaceLinksSimple w.lowerCase content ((Parse task.URL).getD {}) localPath =
              some updatedHTML ∧
            (localPath, content) :: s.files <:+ log ∧
            ((w.writeFile log localPath = true ∧
                (localPath, updatedHTML) :: log <:+ s'.files) ∨
              (w.writeFile log localPath = false ∧ log <:+ s'.files)))) ∧
    (isHTMLContent w.lowerCase contentType = true → task.Depth < config.MaxDepth →
      ∀ links resources updatedHTML,
        parseHTMLSimple w.lowerCase content ((Parse task.URL).getD {}) =
          some (links, resources) →
        replaceLinksSimple w.lowerCase content ((Parse task.URL).getD {}) localPath =
          some updatedHTML →
        s.queue.length + links.length + resources.length ≤ queueCap →
        w.writeFile ((localPath, content) :: s.files) localPath = true →
        ∃ n s', runSchedule w config s (List.replicate n (.worker id)) = some s' ∧
          s'.workers.get? id = some .recv ∧
          s'.files = (localPath, updatedHTML) :: (localPath, content) :: s.files) := by
  obtain ⟨-, rfl⟩ := saveResource_writes hsave
  have hlt : id < s.workers.length := by
    rw [List.get?_eq_some] at hpc
    exact hpc.1
  refine ⟨rfl, ?_, ?_, ?_⟩
  · intro hno
    rw [step_worker hr he hpc]
    have hg : (isHTMLContent w.lowerCase contentType &&
        decide (task.Depth < config.MaxDepth)) = false := by
      simpa using hno
    exact ⟨{ s with workers := s.workers.set id .recv, files := (localPath, content) :: s.files },
      by simp only [stepWorker, hsave, hg, Bool.false_eq_true, if_false],
      by simp [hlt], rfl⟩
  · intro hhtml hdepth schedule s' hrun
    generalize hb : (Parse task.URL).getD {} = baseURL at *
    -- what holds from the step of the save on
    let Q : State → Prop := fun t =>
      (localPath, content) :: s.files <:+ t.files ∧
      ((∃ pc, t.workers.get? id = some pc ∧
          pc.page? = some ⟨task, content, localPath, baseURL⟩) ∨
        (t.workers.get? id = some .panicked ∧ t.mainPc = .exited ∧
          (parseHTMLSimple w.lowerCase content baseURL = none ∨
            replaceLinksSimple w.lowerCase content baseURL localPath = none)) ∨
        ∃ updatedHTML log,
          replaceLinksSimple w.lowerCase content baseURL localPath = some updatedHTML ∧
          (localPath, content) :: s.files <:+ log ∧
          ((w.writeFile log localPath = true ∧ (localPath, updatedHTML) :: log <:+ t.files) ∨
            (w.writeFile log localPath = false ∧ log <:+ t.files)))
    have hstep : ∀ (a : Actor) (t t' : State), Q t → step w config t a = some t' → Q t' := by
      intro a t t' hq hst
      obtain ⟨hsuf, hcase⟩ := hq
      have hf := step_files hst
      refine ⟨hsuf.trans hf, ?_⟩
      rcases hcase with ⟨pc, hpc1, hpg⟩ | ⟨hp, hex, hnone⟩ | ⟨upd, log, hrep, hlog, hw⟩
      · by_cases ha : a = .worker id
        · subst ha
          simp only [step] at hst
          split at hst
          · cases hst
          · rw [hpc1] at hst
            simp only at hst
            have hlt1 : id < t.workers.length := by
              rw [List.get?_eq_some] at hpc1
              exact hpc1.1
            rcases stepWorker_in_page hpg hst with ⟨pc', hw', hpg', -⟩ |
                ⟨hrep, hw', hex', -⟩ | ⟨upd, hrep, hw'⟩
            · exact Or.inl ⟨pc', by rw [hw']; simp [hlt1], hpg'⟩
            · exact Or.inr (Or.inl ⟨by rw [hw']; simp [hlt1], hex', Or.inr hrep⟩)
            · refine Or.inr (Or.inr ⟨upd, t.files, hrep, hsuf, ?_⟩)
              rcases hw' with ⟨h1, h2⟩ | ⟨h1, h2⟩
              · exact Or.inl ⟨h1, by rw [h2]⟩
              · exact Or.inr ⟨h1, by rw [h2]⟩
        · exact Or.inl ⟨pc, step_other ha hst hpc1, hpg⟩
      · exfalso
        cases a with
        | main =>
          simp only [step] at hst
          unfold stepMain at hst
          rw [hex] at hst
          cases hst
        | worker j =>
          simp only [step, hex, decide_True, Bool.or_true, if_true] at hst
          cases hst
      · refine Or.inr (Or.inr ⟨upd, log, hrep, hlog, ?_⟩)
        rcases hw with ⟨h1, h2⟩ | ⟨h1, h2⟩
        · exact Or.inl ⟨h1, h2.trans hf⟩
        · exact Or.inr ⟨h1, h2.trans hf⟩
    have hrunQ : ∀ (sched : List Actor) (t t' : State), Q t →
        runSchedule w config t sched = some t' → Q t' := by
      intro sched
      induction sched with
      | nil =>
        intro t t' hq h
        simp only [runSchedule, Option.some.injEq] at h
        exact h ▸ hq
      | cons a rest ih =>
        intro t t' hq h
        simp only [runSchedule] at h
        split at h
        · cases h
        · next t1 h1 => exact ih t1 t' (hstep a t t1 hq h1) h
    simp only [runSchedule] at hrun
    rw [step_worker hr he hpc] at hrun
    simp only [stepWorker, hsave, hhtml, hdepth, decide_True, Bool.and_self, if_true, hb]
      at hrun
    suffices hq : Q s' from hq
    cases hparse : parseHTMLSimple w.lowerCase content baseURL with
    | none =>
      simp only [hparse] at hrun
      refine hrunQ schedule _ s'
        ⟨List.suffix_refl _, Or.inr (Or.inl ⟨?_, rfl, Or.inl hparse⟩)⟩ hrun
      simp [hlt]
    | some parsed =>
      simp only [hparse] at hrun
      refine hrunQ schedule _ s' ⟨List.suffix_refl _,
        Or.inl ⟨.links ⟨task, content, localPath, baseURL⟩ parsed.1 parsed.2, ?_, rfl⟩⟩ hrun
      simp [hlt]
  · intro hhtml hdepth links resources updatedHTML hparse hrep hcap hwrite
    generalize hb : (Parse task.URL).getD {} = baseURL at *
    obtain ⟨n, hn⟩ := save_expands w config s id task content contentType localPath _
      links resources hr he hpc hsave hhtml hdepth (by rw [hb]; exact hparse) hcap
    rw [hb] at hn
    refine ⟨n + 1, ?_⟩
    rw [List.replicate_succ', runSchedule_append, hn, Option.some_bind]
    simp only [runSchedule]
    rw [step_worker (by simpa [State.sends] using hr) (by simpa [State.sends] using he)
      (sends_get? (s := { s with files := (localPath, content) :: s.files }) hpc _ _ _)]
    simp only [stepWorker, hrep, State.sends, hwrite, if_true]
    exact ⟨_, rfl, by simp [hlt], rfl⟩

set_option maxRecDepth 100000 in
/-- C19 on `specSaveState` with `MaxDepth = 1`: the worker, running alone,
comes back to the queue, and the last write to the saved file of the seed is
the rewritten page. -/
theorem rewrite_below_max_depth_witness :
    ∃ n s', runSchedule specSite (exConfig 1) specSaveState
        (List.replicate n (.worker 0)) = some s' ∧
      s'.workers.get? 0 = some .recv ∧
      s'.files =
        ("mirror/ex.test/a.html".toList,
          "<a href=\"./b.html\">b</a><img src=\"./x.png\"><a href=\"http://other.test/c.html\">c</a>".toList) ::
          ("mirror/ex.test/a.html".toList, specPage) :: specSaveState.files :=
  (rewrite_below_max_depth specSite (exConfig 1) specSaveState 0 exSeed specPage
    "text/html".toList "mirror/ex.test/a.html".toList
    [("mirror/ex.test/a.html".toList, specPage)]
    (by decide) (by decide) (by decide) (by decide)).2.2.2 (by decide) (by decide)
    ["http://ex.test/b.html".toList, "http://other.test/c.html".toList]
    ["http://ex.test/x.png".toList] _ (by decide) (by decide) (by decide) (by decide)

/-! ## C20: what decides the expansion of a task -/

set_option maxRecDepth 100000 in
/-- C20 (fails on the code): with `MaxDepth = 2` the frame `/f.html` of the
seed is enqueued as a resource task at depth 1; it comes back as HTML, so the
worker extracts its link and enqueues `/g.html` for it. -/
theorem resource_task_is_expanded :
    (crawl iframeSite depthTwoConfig frameSchedule).map (fun s => s.sent) =
      some [(none, exSeed), (some exSeed, frameTask), (some frameTask, frameLinkTask)] := by
  decide

/-- C20 (amended). Expansion depends on the content type of the response and
on the depth, not on the kind of the task. Every task that a crawl enqueues
for a parent task has a parent below `MaxDepth` whose fetch returned HTML and
on whose content `parseHTMLSimple` returned. And a worker that has saved a
task, of either kind, calls `parseHTMLSimple` exactly when the content type is
HTML and `task.Depth < MaxDepth`: then it goes on to send the links returned,
or, when `parseHTMLSimple` panics, the goroutine panics and the process ends;
otherwise it goes back to the queue. Nothing is sent in this step. -/
theorem expansion_by_content_type (w : World) (config : Config) (s : State)
    (hreach : Reachable w config s) :
    (∀ parent child, (some parent, child) ∈ s.sent →
      parent.Depth < config.MaxDepth ∧
        ∃ c ct parsed, downloadResource w parent.URL = .ok (c, ct) ∧
          isHTMLContent w.lowerCase ct = true ∧
          parseHTMLSimple w.lowerCase c ((Parse parent.URL).getD {}) = some parsed) ∧
    ∀ id task content contentType localPath files,
      s.mainPc ≠ .returned → s.mainPc ≠ .exited →
      s.workers.get? id = some (.save task content contentType) →
      saveResource w config task.URL content s.files = some (localPath, files) →
      ∃ s', step w config s (.worker id) = some s' ∧
        s'.queue = s.queue ∧ s'.sent = s.sent ∧
        s'.workers.get? id = some
          (if isHTMLContent w.lowerCase contentType = true ∧ task.Depth < config.MaxDepth then
            match parseHTMLSimple w.lowerCase content ((Parse task.URL).getD {}) with
            | some parsed =>
              .links ⟨task, content, localPath, (Parse task.URL).getD {}⟩ parsed.1 parsed.2
            | none => .panicked
          else .recv) ∧
        s'.mainPc =
          (if isHTMLContent w.lowerCase contentType = true ∧ task.Depth < config.MaxDepth ∧
              parseHTMLSimple w.lowerCase content ((Parse task.URL).getD {}) = none then
            .exited
          else s.mainPc) := by
  refine ⟨?_, ?_⟩
  · intro parent child hm
    obtain ⟨c, ct, hd, hh, hlt⟩ := (pageInv_of_reachable hreach).sent_parent _ hm parent rfl
    obtain ⟨-, c', ct', parsed, hd', hparse, -⟩ :=
      (expandInv_of_reachable hreach).sent_listed _ hm parent rfl
    rw [hd] at hd'
    cases hd'
    exact ⟨hlt, c, ct, parsed, hd, hh, hparse⟩
  · intro id task content contentType localPath files hr he hpc hsave
    have hlt : id < s.workers.length := by
      rw [List.get?_eq_some] at hpc
      exact hpc.1
    rw [step_worker hr he hpc]
    generalize hb : (Parse task.URL).getD {} = baseURL
    by_cases hg : isHTMLContent w.lowerCase contentType = true ∧ task.Depth < config.MaxDepth
    · have hg' : (isHTMLContent w.lowerCase contentType &&
          decide (task.Depth < config.MaxDepth)) = true := by
        simpa using hg
      rw [if_pos hg]
      cases hparse : parseHTMLSimple w.lowerCase content baseURL with
      | none =>
        exact ⟨{ s with
            workers := s.workers.set id .panicked, files := files, mainPc := .exited },
          by simp only [stepWorker, hsave, hg', if_true, hb, hparse], rfl, rfl,
          by simp [hlt], by simp [hg]⟩
      | some parsed =>
        exact ⟨{ s with
            workers := s.workers.set id
              (.links ⟨task, content, localPath, baseURL⟩ parsed.1 parsed.2)
            files := files },
          by simp only [stepWorker, hsave, hg', if_true, hb, hparse], rfl, rfl,
          by simp [hlt], by simp⟩
    · have hg' : (isHTMLContent w.lowerCase contentType &&
          decide (task.Depth < config.MaxDepth)) = false := by
        simpa using hg
      rw [if_neg hg]
      refine ⟨{ s with workers := s.workers.set id .recv, files := files },
        by simp only [stepWorker, hsave, hg', Bool.false_eq_true, if_false], rfl, rfl,
        by simp [hlt], ?_⟩
      rw [if_neg]
      intro h
      exact hg ⟨h.1, h.2.1⟩

set_option maxRecDepth 100000 in
/-- C20 on `iframeSite`: the worker holds the resource task of the frame, at
depth 1 below `MaxDepth = 2` and fetched as HTML; its next step takes it to
the link loop with the link of the frame. -/
theorem expansion_by_content_type_witness :
    ∃ s s', crawl iframeSite depthTwoConfig frameSaveSchedule = some s ∧
      s.workers = [.save frameTask "<a href=\"/g.html\">g</a>".toList "text/html".toList] ∧
      step iframeSite depthTwoConfig s (.worker 0) = some s' ∧
      s'.workers.get? 0 = some
        (.links ⟨frameTask, "<a href=\"/g.html\">g</a>".toList,
            "mirror/ex.test/f.html".toList, (Parse frameTask.URL).getD {}⟩
          ["http://ex.test/g.html".toList] []) := by
  have h : (crawl iframeSite depthTwoConfig frameSaveSchedule).isSome = true := by decide
  obtain ⟨s, hs⟩ := Option.isSome_iff_exists.1 h
  have h1 : (crawl iframeSite depthTwoConfig frameSaveSchedule).map
      (fun s => (s.workers, s.mainPc, s.files)) =
      some ([.save frameTask "<a href=\"/g.html\">g</a>".toList "text/html".toList], .wait,
        [("mirror/ex.test/a.html".toList, "<iframe src=\"./f.html\"></iframe>".toList),
         ("mirror/ex.test/a.html".toList, "<iframe src=\"/f.html\"></iframe>".toList)]) := by
    decide
  rw [hs] at h1
  simp only [Option.map_some', Option.some.injEq, Prod.mk.injEq] at h1
  obtain ⟨hw, hm, hf⟩ := h1
  obtain ⟨s', hstep, -, -, hpc, -⟩ :=
    (expansion_by_content_type iframeSite depthTwoConfig s (reachable_crawl hs)).2 0 frameTask
      "<a href=\"/g.html\">g</a>".toList "text/html".toList "mirror/ex.test/f.html".toList
      (("mirror/ex.test/f.html".toList, "<a href=\"/g.html\">g</a>".toList) :: s.files)
      (by simp [hm]) (by simp [hm]) (by simp [hw]) (by rw [hf]; decide)
  refine ⟨s, s', hs, hw, hstep, ?_⟩
  rw [hpc]
  decide

/-! ## C15: slices out of range, and the unclosed quote -/

theorem goToLower_invalidBytes (lowerCase : Nat → Int) (h : lowerCase 0xFFFD = 0xFFFD) :
    goToLower lowerCase invalidBytes =
      [Char.ofNat 0xEF, Char.ofNat 0xBF, Char.ofNat 0xBD,
       Char.ofNat 0xEF, Char.ofNat 0xBF, Char.ofNat 0xBD, '<', 'a'] := by
  have h1 : unicodeToLower lowerCase runeError = 0xFFFD := by
    simp [unicodeToLower, runeError, h]
  have h2 : unicodeToLower lowerCase 0x3C = 0x3C := by simp [unicodeToLower]
  have h3 : unicodeToLower lowerCase 0x61 = 0x61 := by simp [unicodeToLower]
  have d1 : decodeRune invalidBytes = (runeError, 1) := by decide
  have d2 : decodeRune (invalidBytes.drop 1) = (runeError, 1) := by decide
  have d3 : decodeRune (invalidBytes.drop 2) = (0x3C, 1) := by decide
  have d4 : decodeRune (invalidBytes.drop 3) = (0x61, 1) := by decide
  have hall : invalidBytes.all (fun c => decide (c.toNat < 0x80)) = false := by decide
  have hne : invalidBytes ≠ [] := by decide
  have hne1 : invalidBytes.drop 1 ≠ [] := by decide
  have hne2 : invalidBytes.drop 2 ≠ [] := by decide
  have hne3 : invalidBytes.drop 3 ≠ [] := by decide
  have hlen : invalidBytes.length = 4 := rfl
  rw [goToLower, hall]
  simp only [Bool.false_eq_true, if_false, goMap, hlen, mapScan, mapRest, hne, hne1, hne2, hne3,
    d1, d2, d3, d4, h1, h2, h3, List.drop_drop]
  decide

/-- The page `<a href="/b.html>text</a><img alt="x">`, whose `href` has no
closing quote, is made of ASCII bytes. -/
theorem unclosed_quote_ascii :
    ∀ c ∈ "<a href=\"/b.html>text</a><img alt=\"x\">".toList, c.toNat < 0x80 := by
  decide

/-- C15 (fails on the code). The page content is `invalidBytes`, two bytes
that are not valid UTF-8 and then `<a`. `strings.ToLower` writes each
invalid byte as the three bytes of U+FFFD (`unicode.ToLower` leaves U+FFFD as
it is), so `<a` is found at index 6 of the lowered copy, and the slices
`content[6:]` of `extractLinks` and `content[0:6]` of `replaceLinksInTag` are
out of range for the four bytes of the content. And on a page of plain ASCII
whose anchor has no closing quote, `extractLinks` reads on to the next quote
of the page, in the `img` tag, and yields a link. -/
theorem lowered_index_out_of_range (lowerCase : Nat → Int) (h : lowerCase 0xFFFD = 0xFFFD) :
    extractLinks lowerCase invalidBytes "a".toList "href".toList exBase = none ∧
    replaceLinksInTag lowerCase invalidBytes "a".toList "href".toList exBase = none ∧
    extractLinks lowerCase "<a href=\"/b.html>text</a><img alt=\"x\">".toList "a".toList
        "href".toList exBase =
      some ["http://ex.test/b.html%3Etext%3C/a%3E%3Cimg%20alt=".toList] := by
  have ha : goToLower lowerCase "a".toList = "a".toList :=
    (goToLower_of_ascii lowerCase (by decide)).trans (by decide)
  have hh : goToLower lowerCase "href".toList = "href".toList :=
    (goToLower_of_ascii lowerCase (by decide)).trans (by decide)
  have s0 : sliceFrom? invalidBytes 0 = some invalidBytes := by decide
  have hl := goToLower_invalidBytes lowerCase h
  have hi : index [Char.ofNat 0xEF, Char.ofNat 0xBF, Char.ofNat 0xBD,
      Char.ofNat 0xEF, Char.ofNat 0xBF, Char.ofNat 0xBD, '<', 'a'] ('<' :: "a".toList) =
      some 6 := by decide
  have s6 : sliceFrom? invalidBytes (6 + 0) = none := by decide
  have s06 : slice? invalidBytes 0 (6 + 0) = none := by decide
  refine ⟨?_, ?_, ?_⟩
  · unfold extractLinks
    rw [ha, hh]
    show extractLinksLoop lowerCase invalidBytes _ _ exBase (4 + 1) 0 [] = none
    unfold extractLinksLoop
    simp only [s0, hl, hi, s6, Option.bind_eq_bind, Option.some_bind, Option.none_bind]
  · unfold replaceLinksInTag
    rw [ha, hh]
    show replaceLinksInTagLoop lowerCase invalidBytes _ _ exBase (4 + 1) 0 [] = none
    unfold replaceLinksInTagLoop
    simp only [s0, hl, hi, s06, Option.bind_eq_bind, Option.some_bind, Option.none_bind]
  · obtain ⟨links, h1, h2⟩ :=
      (slices_in_range_of_ascii lowerCase noCase _ "a".toList "href".toList exBase
        unclosed_quote_ascii (by decide) (by decide)).1
    rw [h1, ← h2]
    decide

/-- C15 with a table that changes no rune beyond ASCII. -/
theorem lowered_index_out_of_range_witness :
    extractLinks noCase invalidBytes "a".toList "href".toList exBase = none ∧
    replaceLinksInTag noCase invalidBytes "a".toList "href".toList exBase = none ∧
    extractLinks noCase "<a href=\"/b.html>text</a><img alt=\"x\">".toList "a".toList
        "href".toList exBase =
      some ["http://ex.test/b.html%3Etext%3C/a%3E%3Cimg%20alt=".toList] :=
  lowered_index_out_of_range noCase rfl

end Wget

/-! # Theorems on package `sort` -/

namespace GoSort

/-! ## Swaps -/

theorem get?_append_mid {α : Type} (pre : List α) (x : α) (post : List α) :
    (pre ++ x :: post).get? pre.length = some x := by
  induction pre with
  | nil => rfl
  | cons a pre ih => exact ih

theorem swap_append {α : Type} (pre mid post : List α) (x y : α) :
    swap (pre ++ x :: (mid ++ y :: post)) pre.length (pre.length + 1 + mid.length) =
      pre ++ y :: (mid ++ x :: post) := by
  have h1 : (pre ++ x :: (mid ++ y :: post)).get? pre.length = some x :=
    get?_append_mid _ _ _
  have h2 : (pre ++ x :: (mid ++ y :: post)).get? (pre.length + 1 + mid.length) = some y := by
    rw [show pre ++ x :: (mid ++ y :: post) = (pre ++ x :: mid) ++ y :: post by simp]
    rw [show pre.length + 1 + mid.length = (pre ++ x :: mid).length by simp; omega]
    exact get?_append_mid _ _ _
  simp only [swap, h1, h2]
  rw [List.set_append_right _ _ (Nat.le_refl _), Nat.sub_self, List.set_cons_zero]
  rw [show pre ++ y :: (mid ++ y :: post) = (pre ++ y :: mid) ++ y :: post by simp]
  rw [show pre.length + 1 + mid.length = (pre ++ y :: mid).length by simp; omega]
  rw [List.set_append_right _ _ (Nat.le_refl _), Nat.sub_self, List.set_cons_zero]
  simp

theorem swap_comm {α : Type} (l : List α) (i j : Nat) : swap l i j = swap l j i := by
  unfold swap
  cases hi : l.get? i with
  | none => cases hj : l.get? j <;> rfl
  | some x =>
    cases hj : l.get? j with
    | none => rfl
    | some y =>
      simp only []
      by_cases hij : i = j
      · subst hij
        rw [hi] at hj
        cases hj
        rfl
      · exact List.set_comm _ _ _ hij

theorem swap_adjacent {α : Type} (pre post : List α) (x y : α) :
    swap (pre ++ x :: y :: post) (pre.length + 1) pre.length = pre ++ y :: x :: post := by
  rw [swap_comm]
  have := swap_append pre [] post x y
  simpa using this

/-! ## Insertion sort: the inner loop -/

theorem insertDown_self {α : Type} (less : α → α → Bool) (a : Nat) (l : List α) :
    insertDown less a a l = l := by
  cases a with
  | zero => rfl
  | succ a => simp [insertDown]

/-- The inner loop of the insertion sort moves the element `x` at index `j`
down into the block before it, past the elements it is `less` than. -/
theorem insertDown_spec {α : Type} {less : α → α → Bool} {le : α → α → Prop}
    (hc : Compares less le) (pre : List α) (x : α) :
    ∀ (s1 s2 post : List α), ∃ t1 t2, s1 = t1 ++ t2 ∧
      insertDown less pre.length (pre.length + s1.length) (pre ++ s1 ++ x :: (s2 ++ post)) =
        pre ++ t1 ++ x :: (t2 ++ s2 ++ post) ∧
      (∀ y ∈ t2, le x y) ∧ (∀ y, t1.getLast? = some y → le y x) := by
  intro s1
  induction s1 using List.reverseRecOn with
  | nil =>
    intro s2 post
    exact ⟨[], [], rfl, by simp [insertDown_self], by simp, by simp⟩
  | append_singleton t y ih =>
    intro s2 post
    have hl : pre ++ (t ++ [y]) ++ x :: (s2 ++ post) = (pre ++ t) ++ y :: x :: (s2 ++ post) := by
      simp
    have hj : pre.length + (t ++ [y]).length = (pre ++ t).length + 1 := by
      simp; omega
    have g1 : ((pre ++ t) ++ y :: x :: (s2 ++ post)).get? (pre ++ t).length = some y :=
      get?_append_mid _ _ _
    have g2 : ((pre ++ t) ++ y :: x :: (s2 ++ post)).get? ((pre ++ t).length + 1) = some x := by
      rw [show (pre ++ t) ++ y :: x :: (s2 ++ post) = (pre ++ t ++ [y]) ++ x :: (s2 ++ post) by
        simp, show (pre ++ t).length + 1 = (pre ++ t ++ [y]).length by simp; omega]
      exact get?_append_mid _ _ _
    have ha : pre.length < (pre ++ t).length + 1 := by simp; omega
    rw [hl, hj]
    simp only [insertDown, ha, decide_True, Bool.true_and, lessAt, g1, g2]
    by_cases hless : less x y = true
    · obtain ⟨t1, t2, ht, hins, h2, h1⟩ := ih (y :: s2) post
      refine ⟨t1, t2 ++ [y], by rw [ht, List.append_assoc], ?_, ?_, h1⟩
      · rw [if_pos hless, swap_adjacent]
        have hlen : (pre ++ t).length = pre.length + t.length := by simp
        rw [hlen, show pre ++ t ++ x :: y :: (s2 ++ post) = pre ++ t ++ x :: (y :: s2 ++ post) by
          simp, hins]
        simp
      · intro z hz
        rcases List.mem_append.1 hz with hz | hz
        · exact h2 z hz
        · simp only [List.mem_singleton] at hz
          subst hz
          exact hc.of_less _ _ hless
    · refine ⟨t ++ [y], [], by simp, ?_, by simp, ?_⟩
      · rw [if_neg hless]
        simp
      · intro z hz
        have hzy : y = z := by simpa using hz
        subst hzy
        exact hc.of_not_less _ _ (by simpa using hless)

/-! ## Insertion sort sorts -/

theorem le_getLast_of_pairwise {α : Type} {le : α → α → Prop} :
    ∀ (t : List α) (y : α), t.Pairwise le → t.getLast? = some y → ∀ z ∈ t, z = y ∨ le z y := by
  intro t
  induction t using List.reverseRecOn with
  | nil => intro y _ _ z hz; simp at hz
  | append_singleton init w _ =>
    intro y hp hl z hz
    have hwy : w = y := by simpa using hl
    subst hwy
    rcases List.mem_append.1 hz with hz | hz
    · right
      exact (List.pairwise_append.1 hp).2.2 z hz w (List.mem_singleton_self _)
    · left
      simpa using hz

theorem pairwise_insert {α : Type} {less : α → α → Bool} {le : α → α → Prop}
    (hc : Compares less le) {t1 t2 : List α} {x : α} (hp : (t1 ++ t2).Pairwise le)
    (h2 : ∀ y ∈ t2, le x y) (h1 : ∀ y, t1.getLast? = some y → le y x) :
    (t1 ++ x :: t2).Pairwise le := by
  obtain ⟨hp1, hp2, h12⟩ := List.pairwise_append.1 hp
  have hall : ∀ z ∈ t1, le z x := by
    intro z hz
    cases hl : t1.getLast? with
    | none =>
      rw [List.getLast?_eq_none_iff] at hl
      subst hl
      simp at hz
    | some y =>
      rcases le_getLast_of_pairwise t1 y hp1 hl z hz with h | h
      · subst h
        exact h1 z hl
      · exact hc.trans _ _ _ h (h1 y hl)
  refine List.pairwise_append.2 ⟨hp1, List.pairwise_cons.2 ⟨h2, hp2⟩, ?_⟩
  intro z hz w hw
  rcases List.mem_cons.1 hw with hw | hw
  · subst hw
    exact hall z hz
  · exact h12 z hz w hw

theorem insertionSortLoop_spec {α : Type} {less : α → α → Bool} {le : α → α → Prop}
    (hc : Compares less le) (pre post : List α) :
    ∀ (todo sorted : List α) (fuel : Nat), todo.length ≤ fuel → sorted.Pairwise le →
      ∃ seg, insertionSortLoop less pre.length (pre.length + sorted.length + todo.length) fuel
          (pre.length + sorted.length) (pre ++ sorted ++ todo ++ post) = pre ++ seg ++ post ∧
        seg.Perm (sorted ++ todo) ∧ seg.Pairwise le := by
  intro todo
  induction todo with
  | nil =>
    intro sorted fuel _ hs
    refine ⟨sorted, ?_, by simp, hs⟩
    cases fuel with
    | zero => simp [insertionSortLoop]
    | succ k => simp [insertionSortLoop]
  | cons x rest ih =>
    intro sorted fuel hf hs
    cases fuel with
    | zero => simp at hf
    | succ k =>
      obtain ⟨t1, t2, ht, hins, h2, h1⟩ := insertDown_spec hc pre x sorted [] (rest ++ post)
      have hs' : (t1 ++ x :: t2).Pairwise le := pairwise_insert hc (ht ▸ hs) h2 h1
      obtain ⟨seg, hseg, hperm, hsorted⟩ := ih (t1 ++ x :: t2) k (by simpa using hf) hs'
      have hlen : (t1 ++ x :: t2).length = sorted.length + 1 := by
        rw [ht]; simp; omega
      refine ⟨seg, ?_, ?_, hsorted⟩
      · have hlt : pre.length + sorted.length <
            pre.length + sorted.length + (x :: rest).length := by simp
        simp only [insertionSortLoop, hlt, if_true]
        rw [show pre ++ sorted ++ x :: rest ++ post = pre ++ sorted ++ x :: ([] ++ (rest ++ post)) by
          simp, hins]
        rw [hlen] at hseg
        rw [show pre.length + sorted.length + (x :: rest).length =
          pre.length + (sorted.length + 1) + rest.length by simp; omega]
        rw [show pre.length + sorted.length + 1 = pre.length + (sorted.length + 1) by omega]
        rw [← hseg]
        simp
      · refine hperm.trans ?_
        rw [ht]
        simp only [List.append_assoc, List.cons_append]
        exact List.Perm.append_left t1 List.perm_middle.symm

theorem insertionSort_spec {α : Type} {less : α → α → Bool} {le : α → α → Prop}
    (hc : Compares less le) (pre seg post : List α) :
    ∃ seg', insertionSort_func less (pre ++ seg ++ post) pre.length
        (pre.length + seg.length) = pre ++ seg' ++ post ∧
      seg'.Perm seg ∧ seg'.Pairwise le := by
  cases seg with
  | nil => exact ⟨[], by simp [insertionSort_func, insertionSortLoop], List.Perm.refl _, by simp⟩
  | cons x rest =>
    obtain ⟨seg', h, hp, hs⟩ := insertionSortLoop_spec hc pre post rest [x] (rest.length + 1)
      (by omega) (by simp)
    refine ⟨seg', ?_, by simpa using hp, hs⟩
    simp only [insertionSort_func]
    rw [show pre.length + (x :: rest).length - pre.length = rest.length + 1 by simp,
      show pre.length + (x :: rest).length = pre.length + 1 + rest.length by simp; omega]
    simp only [List.length_singleton, List.append_assoc, List.singleton_append,
      List.cons_append] at h ⊢
    exact h

/-! ## The loops of the merge -/

/-- The binary search loops end inside their interval, with `right` holding
just before the result and not at it. -/
theorem searchLoop_spec (right : Nat → Bool) :
    ∀ (fuel i j : Nat), i ≤ j → j - i ≤ fuel →
      i ≤ searchLoop right fuel i j ∧ searchLoop right fuel i j ≤ j ∧
      (searchLoop right fuel i j = i ∨ right (searchLoop right fuel i j - 1) = true) ∧
      (searchLoop right fuel i j = j ∨ right (searchLoop right fuel i j) = false) := by
  intro fuel
  induction fuel with
  | zero =>
    intro i j hij hf
    have : i = j := by omega
    subst this
    simp [searchLoop]
  | succ k ih =>
    intro i j hij hf
    simp only [searchLoop]
    by_cases hlt : i < j
    · simp only [hlt, if_true]
      by_cases hr : right ((i + j) / 2) = true
      · simp only [hr, if_true]
        obtain ⟨h1, h2, h3, h4⟩ := ih ((i + j) / 2 + 1) j (by omega) (by omega)
        refine ⟨by omega, h2, ?_, h4⟩
        rcases h3 with h3 | h3
        · right
          rw [h3]
          simpa using hr
        · exact Or.inr h3
      · simp only [hr, Bool.false_eq_true, if_false]
        obtain ⟨h1, h2, h3, h4⟩ := ih i ((i + j) / 2) (by omega) (by omega)
        refine ⟨h1, by omega, h3, ?_⟩
        rcases h4 with h4 | h4
        · right
          rw [h4]
          simpa using hr
        · exact Or.inr h4
    · have : i = j := by omega
      subst this
      simp

theorem swapUp_spec {α : Type} (x : α) (post : List α) :
    ∀ (ys pre : List α),
      swapUp (pre ++ x :: (ys ++ post)) pre.length ys.length = pre ++ ys ++ x :: post
  | [], pre => by simp [swapUp]
  | y :: ys, pre => by
    have h := swap_append pre [] (ys ++ post) x y
    simp only [List.nil_append, List.length_nil, Nat.add_zero] at h
    simp only [swapUp, List.length_cons, List.cons_append, h]
    have ih := swapUp_spec x post ys (pre ++ [y])
    simp only [List.length_append, List.length_singleton, List.append_assoc,
      List.singleton_append] at ih
    rw [ih]
    simp

theorem swapDown_spec {α : Type} (y : α) (pre : List α) :
    ∀ (xs post : List α),
      swapDown (pre ++ xs ++ y :: post) (pre.length + xs.length) xs.length =
        pre ++ y :: (xs ++ post) := by
  intro xs
  induction xs using List.reverseRecOn with
  | nil => intro post; simp [swapDown]
  | append_singleton xs x ih =>
    intro post
    have h := swap_adjacent (pre ++ xs) post x y
    have hl : pre ++ (xs ++ [x]) ++ y :: post = pre ++ xs ++ x :: y :: post := by simp
    have hk : pre.length + (xs ++ [x]).length = (pre ++ xs).length + 1 := by
      simp only [List.length_append, List.length_singleton]; omega
    rw [hl, hk]
    simp only [List.length_append, List.length_singleton, swapDown, Nat.add_sub_cancel]
    simp only [List.length_append] at h
    rw [h]
    have ih' := ih (x :: post)
    rw [ih']
    simp

theorem swapRange_spec {α : Type} (post : List α) :
    ∀ (xs ys pre mid : List α), xs.length = ys.length →
      swapRange_func (pre ++ xs ++ mid ++ ys ++ post) pre.length
          (pre.length + xs.length + mid.length) xs.length =
        pre ++ ys ++ mid ++ xs ++ post
  | [], [], pre, mid, _ => by simp [swapRange_func]
  | [], _ :: _, _, _, h => by simp at h
  | _ :: _, [], _, _, h => by simp at h
  | x :: xs, y :: ys, pre, mid, h => by
    have hs := swap_append pre (xs ++ mid) (ys ++ post) x y
    have hl : pre ++ x :: xs ++ mid ++ y :: ys ++ post =
        pre ++ x :: (xs ++ mid ++ y :: (ys ++ post)) := by simp
    have hb : pre.length + (x :: xs).length + mid.length =
        pre.length + 1 + (xs ++ mid).length := by
      simp only [List.length_cons, List.length_append]; omega
    rw [hl, hb]
    simp only [List.length_cons, swapRange_func, hs]
    have ih := swapRange_spec post xs ys (pre ++ [y]) (mid ++ [x]) (by simpa using h)
    simp only [List.length_append, List.length_singleton, List.append_assoc,
      List.singleton_append] at ih
    rw [show pre.length + 1 + (xs ++ mid).length + 1 =
      pre.length + 1 + xs.length + (mid.length + 1) by
        simp only [List.length_append]; omega]
    simp only [List.append_assoc, List.cons_append] at ih ⊢
    rw [ih]

/-! ## Rotation -/

/-- The loop of `rotate_func` exchanges the two blocks on either side of
`m`. -/
theorem rotateLoop_spec {α : Type} :
    ∀ (fuel : Nat) (X Y pre post : List α) (m i j : Nat), m = pre.length + X.length →
      i = X.length → j = Y.length → 1 ≤ i → 1 ≤ j → i + j ≤ fuel →
      rotateLoop m fuel i j (pre ++ X ++ Y ++ post) = pre ++ Y ++ X ++ post := by
  intro fuel
  induction fuel with
  | zero => intro X Y pre post m i j _ _ _ hi hj hf; omega
  | succ k ih =>
    intro X Y pre post m i j hm hi hj hi1 hj1 hf
    subst hi hj hm
    simp only [rotateLoop]
    by_cases hne : X.length = Y.length
    · simp only [hne, ne_eq, not_true_eq_false, if_false]
      have h := swapRange_spec post X Y pre [] hne
      simp only [List.append_nil, List.length_nil, Nat.add_zero] at h
      rw [← hne, show pre.length + X.length - X.length = pre.length by omega]
      exact h
    · simp only [ne_eq, hne, not_false_eq_true, if_true]
      by_cases hgt : X.length > Y.length
      · simp only [hgt, if_true]
        have hX : X = X.take Y.length ++ X.drop Y.length := (List.take_append_drop _ X).symm
        have h1 : (X.take Y.length).length = Y.length := by rw [List.length_take]; omega
        have h2 : (X.drop Y.length).length = X.length - Y.length := by rw [List.length_drop]
        have h := swapRange_spec post (X.take Y.length) Y pre (X.drop Y.length) h1
        rw [h1, h2] at h
        have hl : pre ++ X ++ Y ++ post =
            pre ++ X.take Y.length ++ X.drop Y.length ++ Y ++ post := by
          conv_lhs => rw [hX]
          simp
        rw [show pre.length + X.length - X.length = pre.length by omega, hl,
          show pre.length + X.length = pre.length + Y.length + (X.length - Y.length) by omega, h]
        have ih' := ih (X.drop Y.length) (X.take Y.length) (pre ++ Y) post
          (pre.length + Y.length + (X.length - Y.length)) (X.length - Y.length) Y.length
          (by simp only [List.length_append]; omega) h2.symm h1.symm (by omega) hj1 (by omega)
        rw [ih']
        conv_rhs => rw [hX]
        simp
      · simp only [hgt, if_false]
        have hlt : X.length < Y.length := by omega
        have hY : Y = Y.take (Y.length - X.length) ++ Y.drop (Y.length - X.length) :=
          (List.take_append_drop _ Y).symm
        have h1 : (Y.take (Y.length - X.length)).length = Y.length - X.length := by
          rw [List.length_take]; omega
        have h2 : (Y.drop (Y.length - X.length)).length = X.length := by
          rw [List.length_drop]; omega
        have h := swapRange_spec post X (Y.drop (Y.length - X.length)) pre
          (Y.take (Y.length - X.length)) h2.symm
        rw [h1] at h
        have hl : pre ++ X ++ Y ++ post =
            pre ++ X ++ Y.take (Y.length - X.length) ++ Y.drop (Y.length - X.length) ++ post := by
          conv_lhs => rw [hY]
          simp
        rw [show pre.length + X.length - X.length = pre.length by omega, hl,
          show pre.length + X.length + Y.length - X.length =
            pre.length + X.length + (Y.length - X.length) by omega, h]
        have ih' := ih (Y.drop (Y.length - X.length)) (Y.take (Y.length - X.length)) pre
          (X ++ post) (pre.length + X.length) X.length (Y.length - X.length)
          (by omega) h2.symm h1.symm hi1 (by omega) (by omega)
        have hl2 : pre ++ Y.drop (Y.length - X.length) ++ Y.take (Y.length - X.length) ++ X ++
            post = pre ++ Y.drop (Y.length - X.length) ++ Y.take (Y.length - X.length) ++
              (X ++ post) := by simp
        rw [hl2, ih']
        conv_rhs => rw [hY]
        simp

/-- `rotate_func(data, a, m, b)` exchanges the blocks `data[a:m]` and
`data[m:b]`. -/
theorem rotate_spec {α : Type} (pre X Y post : List α) (hX : X ≠ []) (hY : Y ≠ []) :
    rotate_func (pre ++ X ++ Y ++ post) pre.length (pre.length + X.length)
        (pre.length + X.length + Y.length) =
      pre ++ Y ++ X ++ post := by
  have h1 : 1 ≤ X.length := List.length_pos.2 hX
  have h2 : 1 ≤ Y.length := List.length_pos.2 hY
  unfold rotate_func
  exact rotateLoop_spec _ X Y pre post _ _ _ rfl (by omega) (by omega) (by omega) (by omega)
    (by omega)

/-! ## Merging: one element on the left -/

theorem get?_block1 {α : Type} (pre u rest : List α) (k : Nat) (hk : k < u.length) :
    (pre ++ u ++ rest).get? (pre.length + k) = u.get? k := by
  simp only [List.get?_eq_getElem?]
  rw [List.append_assoc, List.getElem?_append_right (Nat.le_add_right _ _),
    Nat.add_sub_cancel_left, List.getElem?_append_left hk]

theorem get?_block2 {α : Type} (pre u v post : List α) (k : Nat) (hk : k < v.length) :
    (pre ++ u ++ v ++ post).get? (pre.length + u.length + k) = v.get? k := by
  have h := get?_block1 (pre ++ u) v post k hk
  simpa using h

theorem lessAt_eq {α : Type} (less : α → α → Bool) {l : List α} {i j : Nat} {x y : α}
    (hi : l.get? i = some x) (hj : l.get? j = some y) : lessAt less l i j = less x y := by
  simp only [lessAt, hi, hj]

theorem pairwise_get? {α : Type} {le : α → α → Prop} {v : List α} (hv : v.Pairwise le)
    {i j : Nat} {x y : α} (hij : i < j) (hi : v.get? i = some x) (hj : v.get? j = some y) :
    le x y := by
  rw [List.get?_eq_some] at hi hj
  obtain ⟨h1, rfl⟩ := hi
  obtain ⟨h2, rfl⟩ := hj
  exact List.pairwise_iff_get.1 hv ⟨i, h1⟩ ⟨j, h2⟩ hij

/-- In a sorted list, the elements before index `n` are below whatever the
element at `n - 1` is below. -/
theorem le_of_mem_take {α : Type} {less : α → α → Bool} {le : α → α → Prop}
    (hc : Compares less le) {v : List α} (hv : v.Pairwise le) {n : Nat} {x y : α}
    (hy : v.get? (n - 1) = some y) (hyx : le y x) : ∀ z ∈ v.take n, le z x := by
  intro z hz
  obtain ⟨i, hi, rfl⟩ := List.mem_take_iff_getElem.1 hz
  rw [List.get?_eq_getElem?, List.getElem?_eq_some] at hy
  obtain ⟨hy1, rfl⟩ := hy
  by_cases h : i = n - 1
  · subst h
    exact hyx
  · exact hc.trans _ _ _
      (List.pairwise_iff_getElem.1 hv i (n - 1) (by omega) hy1 (by omega)) hyx

/-- In a sorted list, the elements from index `n` on are above whatever the
element at `n` is above. -/
theorem le_of_mem_drop {α : Type} {less : α → α → Bool} {le : α → α → Prop}
    (hc : Compares less le) {v : List α} (hv : v.Pairwise le) {n : Nat} {x y : α}
    (hy : v.get? n = some y) (hxy : le x y) : ∀ z ∈ v.drop n, le x z := by
  intro z hz
  obtain ⟨i, hi, rfl⟩ := List.mem_drop_iff_getElem.1 hz
  rw [List.get?_eq_getElem?, List.getElem?_eq_some] at hy
  obtain ⟨hy1, rfl⟩ := hy
  by_cases h : i = 0
  · subst h
    exact hxy
  · exact hc.trans _ _ _ hxy
      (List.pairwise_iff_getElem.1 hv n (n + i) hy1 (by omega) (by omega))

theorem get?_some_of_lt {α : Type} (v : List α) {n : Nat} (h : n < v.length) :
    ∃ y, v.get? n = some y :=
  ⟨v.get ⟨n, h⟩, List.get?_eq_get h⟩

/-- The first case of `symMerge_func`: the one element of the left block is
inserted into the right block. -/
theorem symMerge_single_left {α : Type} {less : α → α → Bool} {le : α → α → Prop}
    (hc : Compares less le) (pre v post : List α) (x : α) (a m b : Nat)
    (ha : a = pre.length) (hm : m = a + 1) (hb : b = m + v.length) (hv : v.Pairwise le) :
    ∃ w, swapUp (pre ++ [x] ++ v ++ post) a
        (searchLoop (fun h => lessAt less (pre ++ [x] ++ v ++ post) h a) (b - m) m b - 1 - a) =
          pre ++ w ++ post ∧
      w.Perm ([x] ++ v) ∧ w.Pairwise le := by
  obtain ⟨h1, h2, h3, h4⟩ := searchLoop_spec
    (fun h => lessAt less (pre ++ [x] ++ v ++ post) h a) (b - m) m b (by omega) (Nat.le_refl _)
  generalize searchLoop (fun h => lessAt less (pre ++ [x] ++ v ++ post) h a) (b - m) m b = i
    at h1 h2 h3 h4
  have hx : (pre ++ [x] ++ v ++ post).get? a = some x := by
    have := get?_block1 pre [x] (v ++ post) 0 (by simp)
    simpa [ha] using this
  have hvi : ∀ k, k < v.length → (pre ++ [x] ++ v ++ post).get? (m + k) = v.get? k := by
    intro k hk
    have := get?_block2 pre [x] v post k hk
    rw [hm, ha]
    simpa using this
  have hlow : ∀ z ∈ v.take (i - m), le z x := by
    rcases h3 with h3 | h3
    · rw [h3]; simp
    · by_cases hi : i = m
      · rw [hi]; simp
      · obtain ⟨y, hy⟩ := get?_some_of_lt v (n := i - m - 1) (by omega)
        have hg := hvi (i - m - 1) (by omega)
        rw [show m + (i - m - 1) = i - 1 by omega, hy] at hg
        simp only [lessAt_eq less hg hx] at h3
        exact le_of_mem_take hc hv hy (hc.of_less _ _ h3)
  have hhigh : ∀ z ∈ v.drop (i - m), le x z := by
    rcases h4 with h4 | h4
    · rw [h4, show b - m = v.length by omega]; simp
    · by_cases hi : i = b
      · rw [hi, show b - m = v.length by omega]; simp
      · obtain ⟨y, hy⟩ := get?_some_of_lt v (n := i - m) (by omega)
        have hg := hvi (i - m) (by omega)
        rw [show m + (i - m) = i by omega, hy] at hg
        simp only [lessAt_eq less hg hx] at h4
        exact le_of_mem_drop hc hv hy (hc.of_not_less _ _ h4)
  have hsplit : v = v.take (i - m) ++ v.drop (i - m) := (List.take_append_drop _ _).symm
  refine ⟨v.take (i - m) ++ x :: v.drop (i - m), ?_, ?_, ?_⟩
  · have hs := swapUp_spec x (v.drop (i - m) ++ post) (v.take (i - m)) pre
    have hlen : (v.take (i - m)).length = i - 1 - a := by
      rw [List.length_take]; omega
    rw [hlen, ← ha] at hs
    have hl : pre ++ [x] ++ v ++ post =
        pre ++ x :: (v.take (i - m) ++ (v.drop (i - m) ++ post)) := by
      rw [← List.append_assoc (v.take (i - m)), List.take_append_drop]
      simp
    rw [hl, hs]
    simp
  · have hp : (v.take (i - m) ++ x :: v.drop (i - m)).Perm
        (x :: (v.take (i - m) ++ v.drop (i - m))) := List.perm_middle
    rw [List.take_append_drop] at hp
    simpa using hp
  · have hv' : (v.take (i - m) ++ v.drop (i - m)).Pairwise le := by rw [← hsplit]; exact hv
    obtain ⟨p1, p2, p3⟩ := List.pairwise_append.1 hv'
    refine List.pairwise_append.2 ⟨p1, List.pairwise_cons.2 ⟨hhigh, p2⟩, ?_⟩
    intro z hz w hw
    rcases List.mem_cons.1 hw with hw | hw
    · subst hw; exact hlow z hz
    · exact p3 z hz w hw

/-! ## Merging: one element on the right -/

/-- The second case of `symMerge_func`: the one element of the right block is
inserted into the left block. -/
theorem symMerge_single_right {α : Type} {less : α → α → Bool} {le : α → α → Prop}
    (hc : Compares less le) (pre u post : List α) (y : α) (a m : Nat)
    (ha : a = pre.length) (hm : m = a + u.length) (hu : u.Pairwise le) :
    ∃ w, swapDown (pre ++ u ++ [y] ++ post) m
        (m - searchLoop (fun h => !lessAt less (pre ++ u ++ [y] ++ post) m h) (m - a) a m) =
          pre ++ w ++ post ∧
      w.Perm (u ++ [y]) ∧ w.Pairwise le := by
  obtain ⟨h1, h2, h3, h4⟩ := searchLoop_spec
    (fun h => !lessAt less (pre ++ u ++ [y] ++ post) m h) (m - a) a m (by omega) (Nat.le_refl _)
  generalize searchLoop (fun h => !lessAt less (pre ++ u ++ [y] ++ post) m h) (m - a) a m = i
    at h1 h2 h3 h4
  have hy : (pre ++ u ++ [y] ++ post).get? m = some y := by
    have := get?_block2 pre u [y] post 0 (by simp)
    rw [hm, ha]
    simpa using this
  have hui : ∀ k, k < u.length → (pre ++ u ++ [y] ++ post).get? (a + k) = u.get? k := by
    intro k hk
    have := get?_block1 pre u ([y] ++ post) k hk
    rw [ha]
    simpa using this
  have hlow : ∀ z ∈ u.take (i - a), le z y := by
    rcases h3 with h3 | h3
    · rw [h3]; simp
    · by_cases hi : i = a
      · rw [hi]; simp
      · obtain ⟨x, hx⟩ := get?_some_of_lt u (n := i - a - 1) (by omega)
        have hg := hui (i - a - 1) (by omega)
        rw [show a + (i - a - 1) = i - 1 by omega, hx] at hg
        simp only [lessAt_eq less hy hg, Bool.not_eq_true'] at h3
        exact le_of_mem_take hc hu hx (hc.of_not_less _ _ h3)
  have hhigh : ∀ z ∈ u.drop (i - a), le y z := by
    rcases h4 with h4 | h4
    · rw [h4, show m - a = u.length by omega]; simp
    · by_cases hi : i = m
      · rw [hi, show m - a = u.length by omega]; simp
      · obtain ⟨x, hx⟩ := get?_some_of_lt u (n := i - a) (by omega)
        have hg := hui (i - a) (by omega)
        rw [show a + (i - a) = i by omega, hx] at hg
        simp only [lessAt_eq less hy hg, Bool.not_eq_false'] at h4
        exact le_of_mem_drop hc hu hx (hc.of_less _ _ h4)
  refine ⟨u.take (i - a) ++ y :: u.drop (i - a), ?_, ?_, ?_⟩
  · have hs := swapDown_spec y (pre ++ u.take (i - a)) (u.drop (i - a)) post
    have hlen : (pre ++ u.take (i - a)).length + (u.drop (i - a)).length = m := by
      simp only [List.length_append, List.length_take, List.length_drop]; omega
    have hlen2 : (u.drop (i - a)).length = m - i := by
      rw [List.length_drop]; omega
    rw [hlen, hlen2] at hs
    have hl : pre ++ u ++ [y] ++ post =
        pre ++ u.take (i - a) ++ u.drop (i - a) ++ y :: post := by
      rw [List.append_assoc pre (u.take (i - a)), List.take_append_drop]
      simp
    rw [hl, hs]
    simp
  · have hp : (u.take (i - a) ++ y :: u.drop (i - a)).Perm
        (y :: (u.take (i - a) ++ u.drop (i - a))) := List.perm_middle
    rw [List.take_append_drop] at hp
    exact hp.trans (List.perm_append_singleton y u).symm
  · have hu' : (u.take (i - a) ++ u.drop (i - a)).Pairwise le := by
      rw [List.take_append_drop]; exact hu
    obtain ⟨p1, p2, p3⟩ := List.pairwise_append.1 hu'
    refine List.pairwise_append.2 ⟨p1, List.pairwise_cons.2 ⟨hhigh, p2⟩, ?_⟩
    intro z hz w hw
    rcases List.mem_cons.1 hw with hw | hw
    · subst hw; exact hlow z hz
    · exact p3 z hz w hw

/-! ## The binary search of the merge -/

/-- The binary search of `symMerge_func` ends inside both blocks, and the
elements around the two cut points are ordered across the cut. -/
theorem symMergeStart_spec {α : Type} {less : α → α → Bool} {le : α → α → Prop}
    (hc : Compares less le) (pre u v post : List α) (a m b : Nat)
    (ha : a = pre.length) (hm : m = a + u.length) (hb : b = m + v.length) :
    a ≤ symMergeStart less (pre ++ u ++ v ++ post) a m b ∧
    symMergeStart less (pre ++ u ++ v ++ post) a m b ≤ m ∧
    symMergeStart less (pre ++ u ++ v ++ post) a m b ≤ (a + b) / 2 ∧
    (a + b) / 2 + m ≤ b + symMergeStart less (pre ++ u ++ v ++ post) a m b ∧
    (∀ start, start = symMergeStart less (pre ++ u ++ v ++ post) a m b →
      a < start → (a + b) / 2 + m - start < b →
      ∃ x y, u.get? (start - 1 - a) = some x ∧
        v.get? ((a + b) / 2 - start) = some y ∧ le x y) ∧
    (∀ start, start = symMergeStart less (pre ++ u ++ v ++ post) a m b →
      start < m → m < (a + b) / 2 + m - start →
      ∃ x y, v.get? ((a + b) / 2 - start - 1) = some x ∧
        u.get? (start - a) = some y ∧ le x y) := by
  have hU : ∀ k, k < u.length → (pre ++ u ++ v ++ post).get? (a + k) = u.get? k := by
    intro k hk
    have := get?_block1 pre u (v ++ post) k hk
    simpa [ha] using this
  have hV : ∀ k, k < v.length → (pre ++ u ++ v ++ post).get? (m + k) = v.get? k := by
    intro k hk
    have := get?_block2 pre u v post k hk
    simpa [ha, hm] using this
  generalize hl : pre ++ u ++ v ++ post = l at hU hV ⊢
  generalize hmid : (a + b) / 2 = mid
  have hmid1 : a + b ≤ 2 * mid + 1 := by omega
  have hmid2 : 2 * mid ≤ a + b := by omega
  have hstart : symMergeStart less l a m b =
      searchLoop (fun c => !lessAt less l (mid + m - 1 - c) c)
        ((if m > mid then mid else m) - (if m > mid then mid + m - b else a))
        (if m > mid then mid + m - b else a) (if m > mid then mid else m) := by
    simp only [symMergeStart, hmid]
  have hle : (if m > mid then mid + m - b else a) ≤ (if m > mid then mid else m) := by
    split <;> omega
  obtain ⟨h1, h2, h3, h4⟩ := searchLoop_spec (fun c => !lessAt less l (mid + m - 1 - c) c)
    ((if m > mid then mid else m) - (if m > mid then mid + m - b else a))
    (if m > mid then mid + m - b else a) (if m > mid then mid else m) hle (le_refl _)
  rw [← hstart] at h1 h2 h3 h4
  generalize symMergeStart less l a m b = s at h1 h2 h3 h4 ⊢
  have b1 : a ≤ s := by
    split at h1 <;> omega
  have b2 : s ≤ m := by
    split at h2 <;> omega
  have b3 : s ≤ mid := by
    split at h2 <;> omega
  have b4 : mid + m ≤ b + s := by
    split at h1 <;> omega
  refine ⟨b1, b2, b3, b4, ?_, ?_⟩
  · rintro start rfl hs1 hs2
    have hne : start ≠ (if m > mid then mid + m - b else a) := by
      split <;> omega
    have hr := h3.resolve_left hne
    obtain ⟨x, hx⟩ := get?_some_of_lt u (show start - 1 - a < u.length by omega)
    obtain ⟨y, hy⟩ := get?_some_of_lt v (show mid - start < v.length by omega)
    refine ⟨x, y, hx, hy, ?_⟩
    have e1 : l.get? (mid + m - 1 - (start - 1)) = some y := by
      rw [show mid + m - 1 - (start - 1) = m + (mid - start) by omega, hV _ (by omega), hy]
    have e2 : l.get? (start - 1) = some x := by
      rw [show start - 1 = a + (start - 1 - a) by omega, hU _ (by omega), hx]
    rw [lessAt_eq less e1 e2] at hr
    exact hc.of_not_less y x (by simpa using hr)
  · rintro start rfl hs1 hs2
    have hne : start ≠ (if m > mid then mid else m) := by
      split <;> omega
    have hr := h4.resolve_left hne
    obtain ⟨x, hx⟩ := get?_some_of_lt v (show mid - start - 1 < v.length by omega)
    obtain ⟨y, hy⟩ := get?_some_of_lt u (show start - a < u.length by omega)
    refine ⟨x, y, hx, hy, ?_⟩
    have e1 : l.get? (mid + m - 1 - start) = some x := by
      rw [show mid + m - 1 - start = m + (mid - start - 1) by omega, hV _ (by omega), hx]
    have e2 : l.get? start = some y := by
      rw [show start = a + (start - a) by omega, hU _ (by omega), hy]
    rw [lessAt_eq less e1 e2] at hr
    exact hc.of_less x y (by simpa using hr)

/-! ## The merge is correct -/

/-- The general case of `symMerge_func`, one step unfolded. -/
theorem symMerge_func_step {α : Type} (less : α → α → Bool) (k : Nat) (l : List α)
    (a m b : Nat) (c1 : m - a ≠ 1) (c2 : b - m ≠ 1) (start mid stop : Nat) (L1 L2 : List α)
    (hstart : start = symMergeStart less l a m b) (hmid : mid = (a + b) / 2)
    (hstop : stop = mid + m - start)
    (hL1 : L1 = if start < m ∧ m < stop then rotate_func l start m stop else l)
    (hL2 : L2 = if a < start ∧ start < mid then symMerge_func less k L1 a start mid else L1) :
    symMerge_func less (k + 1) l a m b =
      if mid < stop ∧ stop < b then symMerge_func less k L2 mid stop b else L2 := by
  subst hstart hmid hstop hL1 hL2
  simp only [symMerge_func, c1, c2, if_false, Bool.and_eq_true, decide_eq_true_eq]

/-- The merge `symMerge_func` of two adjacent sorted blocks is a sorted
permutation of the two, and leaves the rest of the list alone. -/
theorem symMerge_spec {α : Type} {less : α → α → Bool} {le : α → α → Prop}
    (hc : Compares less le) :
    ∀ (fuel : Nat) (pre u v post : List α) (a m b : Nat),
      a = pre.length → m = a + u.length → b = m + v.length → u ≠ [] → v ≠ [] →
      u.length + v.length ≤ fuel → u.Pairwise le → v.Pairwise le →
      ∃ w, symMerge_func less fuel (pre ++ u ++ v ++ post) a m b = pre ++ w ++ post ∧
        w.Perm (u ++ v) ∧ w.Pairwise le := by
  intro fuel
  induction fuel with
  | zero =>
    intro pre u v post a m b _ _ _ hune _ hf _ _
    have := List.length_pos.2 hune
    omega
  | succ k ih =>
    intro pre u v post a m b ha hm hb hune hvne hf hu hv
    have hul := List.length_pos.2 hune
    have hvl := List.length_pos.2 hvne
    by_cases c1 : m - a = 1
    · obtain ⟨x, rfl⟩ : ∃ x, u = [x] := List.length_eq_one.1 (by omega)
      simp only [symMerge_func, c1, if_true]
      exact symMerge_single_left hc pre v post x a m b ha (by simpa using hm) hb hv
    by_cases c2 : b - m = 1
    · obtain ⟨y, rfl⟩ : ∃ y, v = [y] := List.length_eq_one.1 (by omega)
      simp only [symMerge_func, c1, c2, if_false, if_true]
      exact symMerge_single_right hc pre u post y a m ha hm hu
    obtain ⟨b1, b2, b3, b4, F1, F2⟩ := symMergeStart_spec hc pre u v post a m b ha hm hb
    generalize hstart : symMergeStart less (pre ++ u ++ v ++ post) a m b = start
      at b1 b2 b3 b4 F1 F2
    have F1 := F1 start rfl
    have F2 := F2 start rfl
    generalize hmid : (a + b) / 2 = mid at b3 b4 F1 F2
    have hmid1 : a < mid := by omega
    have hmid2 : mid < b := by omega
    -- the four pieces
    generalize hu1 : u.take (start - a) = u1
    generalize hu2 : u.drop (start - a) = u2
    generalize hv1 : v.take (mid - start) = v1
    generalize hv2 : v.drop (mid - start) = v2
    have hu12 : u = u1 ++ u2 := by rw [← hu1, ← hu2, List.take_append_drop]
    have hv12 : v = v1 ++ v2 := by rw [← hv1, ← hv2, List.take_append_drop]
    have lu1 : u1.length = start - a := by rw [← hu1, List.length_take]; omega
    have lu2 : u2.length = m - start := by rw [← hu2, List.length_drop]; omega
    have lv1 : v1.length = mid - start := by rw [← hv1, List.length_take]; omega
    have lv2 : v2.length = b - m - (mid - start) := by rw [← hv2, List.length_drop]; omega
    have hu' := hu
    have hv' := hv
    rw [hu12, List.pairwise_append] at hu'
    rw [hv12, List.pairwise_append] at hv'
    obtain ⟨su1, su2, cu⟩ := hu'
    obtain ⟨sv1, sv2, cv⟩ := hv'
    have C1 : ∀ z ∈ u1, ∀ w ∈ v2, le z w := by
      intro z hz w hw
      have p1 := List.length_pos_of_mem hz
      have p2 := List.length_pos_of_mem hw
      obtain ⟨x, y, hx, hy, hxy⟩ := F1 (by omega) (by omega)
      rw [show start - 1 - a = start - a - 1 by omega] at hx
      have := le_of_mem_drop hc hv hy hxy w (by rw [hv2]; exact hw)
      exact le_of_mem_take hc hu hx this z (by rw [hu1]; exact hz)
    have C2 : ∀ z ∈ v1, ∀ w ∈ u2, le z w := by
      intro z hz w hw
      have p1 := List.length_pos_of_mem hz
      have p2 := List.length_pos_of_mem hw
      obtain ⟨x, y, hx, hy, hxy⟩ := F2 (by omega) (by omega)
      have := le_of_mem_drop hc hu hy hxy w (by rw [hu2]; exact hw)
      exact le_of_mem_take hc hv hx this z (by rw [hv1]; exact hz)
    -- the rotation
    have hL1 : (if start < m ∧ m < mid + m - start then
          rotate_func (pre ++ u ++ v ++ post) start m (mid + m - start)
        else pre ++ u ++ v ++ post) = pre ++ u1 ++ v1 ++ (u2 ++ v2 ++ post) := by
      split
      · rename_i h
        have n1 : u2 ≠ [] := by
          intro h0
          rw [h0] at lu2
          simp at lu2
          omega
        have n2 : v1 ≠ [] := by
          intro h0
          rw [h0] at lv1
          simp at lv1
          omega
        have := rotate_spec (pre ++ u1) u2 v1 (v2 ++ post) n1 n2
        rw [show (pre ++ u1).length = start by simp [lu1]; omega,
          show start + u2.length = m by omega,
          show m + v1.length = mid + m - start by omega] at this
        rw [hu12, hv12]
        simpa [List.append_assoc] using this
      · rename_i h
        have : u2 = [] ∨ v1 = [] := by
          by_cases h1 : start < m
          · right
            apply List.eq_nil_of_length_eq_zero
            omega
          · left
            apply List.eq_nil_of_length_eq_zero
            omega
        rw [hu12, hv12]
        rcases this with h0 | h0 <;> simp [h0]
    -- the first recursive merge
    obtain ⟨w1, hw1, hp1, hs1⟩ : ∃ w1, (if a < start ∧ start < mid then
          symMerge_func less k (pre ++ u1 ++ v1 ++ (u2 ++ v2 ++ post)) a start mid
        else pre ++ u1 ++ v1 ++ (u2 ++ v2 ++ post)) = pre ++ w1 ++ (u2 ++ v2 ++ post) ∧
        w1.Perm (u1 ++ v1) ∧ w1.Pairwise le := by
      split
      · rename_i h
        exact ih pre u1 v1 (u2 ++ v2 ++ post) a start mid ha (by omega) (by omega)
          (by intro h0; rw [h0] at lu1; simp at lu1; omega)
          (by intro h0; rw [h0] at lv1; simp at lv1; omega) (by omega) su1 sv1
      · rename_i h
        by_cases h1 : a < start
        · have h0 : v1 = [] := List.eq_nil_of_length_eq_zero (by omega)
          exact ⟨u1, by simp [h0], by simp [h0], su1⟩
        · have h0 : u1 = [] := List.eq_nil_of_length_eq_zero (by omega)
          exact ⟨v1, by simp [h0], by simp [h0], sv1⟩
    have lw1 : w1.length = mid - a := by
      rw [List.Perm.length_eq hp1, List.length_append]
      omega
    -- the second recursive merge
    obtain ⟨w2, hw2, hp2, hs2⟩ : ∃ w2, (if mid < mid + m - start ∧ mid + m - start < b then
          symMerge_func less k (pre ++ w1 ++ (u2 ++ v2 ++ post)) mid (mid + m - start) b
        else pre ++ w1 ++ (u2 ++ v2 ++ post)) = pre ++ w1 ++ w2 ++ post ∧
        w2.Perm (u2 ++ v2) ∧ w2.Pairwise le := by
      split
      · rename_i h
        have := ih (pre ++ w1) u2 v2 post mid (mid + m - start) b
          (by rw [List.length_append]; omega) (by omega) (by omega)
          (by intro h0; rw [h0] at lu2; simp at lu2; omega)
          (by intro h0; rw [h0] at lv2; simp at lv2; omega) (by omega) su2 sv2
        simpa [List.append_assoc] using this
      · rename_i h
        by_cases h1 : mid < mid + m - start
        · have h0 : v2 = [] := List.eq_nil_of_length_eq_zero (by omega)
          exact ⟨u2, by simp [h0], by simp [h0], su2⟩
        · have h0 : u2 = [] := List.eq_nil_of_length_eq_zero (by omega)
          exact ⟨v2, by simp [h0], by simp [h0], sv2⟩
    refine ⟨w1 ++ w2, ?_, ?_, ?_⟩
    · rw [symMerge_func_step less k _ a m b c1 c2 start mid (mid + m - start) _ _
        hstart.symm hmid.symm rfl hL1.symm hw1.symm, hw2, List.append_assoc pre w1 w2]
    · rw [hu12, hv12]
      refine (hp1.append hp2).trans ?_
      simp only [List.append_assoc]
      exact List.Perm.append_left u1 (List.perm_append_comm_assoc _ _ _)
    · rw [List.pairwise_append]
      refine ⟨hs1, hs2, ?_⟩
      intro x hx y hy
      have hx' := hp1.mem_iff.1 hx
      have hy' := hp2.mem_iff.1 hy
      rw [List.mem_append] at hx' hy'
      rcases hx' with hx' | hx' <;> rcases hy' with hy' | hy'
      · exact cu x hx' y hy'
      · exact C1 x hx' y hy'
      · exact C2 x hx' y hy'
      · exact cv x hx' y hy'

/-! ## Sorted blocks -/

theorem blockSorted_append {α : Type} {le : α → α → Prop} {bs : Nat} {u r : List α}
    (hlen : u.length = bs) (hu : u.Pairwise le) (hr : BlockSorted le bs r) :
    BlockSorted le bs (u ++ r) := by
  intro k
  cases k with
  | zero =>
    rw [Nat.zero_mul, List.drop_zero, List.take_append_of_le_length (by omega),
      List.take_of_length_le (by omega)]
    exact hu
  | succ k =>
    have : (k + 1) * bs = u.length + k * bs := by rw [hlen]; ring
    rw [this, List.drop_append]
    exact hr k

theorem blockSorted_of_short {α : Type} {le : α → α → Prop} {bs : Nat} {l : List α}
    (hl : l.Pairwise le) : BlockSorted le bs l := by
  intro k
  exact (hl.sublist (List.drop_sublist _ _)).sublist (List.take_sublist _ _)

theorem blockSorted_take {α : Type} {le : α → α → Prop} {bs : Nat} {l : List α}
    (h : BlockSorted le bs l) : (l.take bs).Pairwise le := by
  have := h 0
  simpa using this

theorem blockSorted_drop {α : Type} {le : α → α → Prop} {bs : Nat} {l : List α}
    (h : BlockSorted le bs l) : BlockSorted le bs (l.drop bs) := by
  intro k
  have := h (k + 1)
  rw [List.drop_drop]
  rw [show (k + 1) * bs = bs + k * bs by ring] at this
  exact this

theorem pairwise_of_blockSorted {α : Type} {le : α → α → Prop} {bs : Nat} {l : List α}
    (h : BlockSorted le bs l) (hlen : l.length ≤ bs) : l.Pairwise le := by
  have := blockSorted_take h
  rwa [List.take_of_length_le hlen] at this

/-! ## The stable sort sorts -/

/-- The first phase of `stable_func`: the loop over the blocks and the
insertion sort of what is left sort every block. -/
theorem blocks_spec {α : Type} {less : α → α → Bool} {le : α → α → Prop}
    (hc : Compares less le) (bs : Nat) (hbs : 0 < bs) :
    ∀ (fuel : Nat) (pre rest : List α) (a n : Nat),
      a = pre.length → n = a + rest.length → rest.length ≤ fuel →
      ∃ rest', insertionSort_func less (blocksLoop less n bs fuel a (pre ++ rest)).1
            (blocksLoop less n bs fuel a (pre ++ rest)).2 n = pre ++ rest' ∧
        rest'.Perm rest ∧ BlockSorted le bs rest' := by
  intro fuel
  induction fuel with
  | zero =>
    intro pre rest a n ha hn hf
    have h0 : rest = [] := List.eq_nil_of_length_eq_zero (by omega)
    subst h0
    have := insertionSort_spec hc pre [] []
    obtain ⟨seg', h1, h2, h3⟩ := this
    have hs : seg' = [] := by simpa using h2
    subst hs
    refine ⟨[], ?_, List.Perm.refl _, blockSorted_of_short List.Pairwise.nil⟩
    simp only [blocksLoop]
    rw [hn, ha]
    simpa using h1
  | succ k ih =>
    intro pre rest a n ha hn hf
    simp only [blocksLoop]
    by_cases h : a + bs ≤ n
    · simp only [if_pos h]
      have hsplit : rest = rest.take bs ++ rest.drop bs := (List.take_append_drop _ _).symm
      have lu : (rest.take bs).length = bs := by rw [List.length_take]; omega
      have lr : (rest.drop bs).length = rest.length - bs := List.length_drop _ _
      obtain ⟨seg', h1, h2, h3⟩ := insertionSort_spec hc pre (rest.take bs) (rest.drop bs)
      have e1 : pre ++ rest = pre ++ rest.take bs ++ rest.drop bs := by
        rw [List.append_assoc, List.take_append_drop]
      rw [lu, ← e1, ← ha] at h1
      rw [h1]
      have ls : seg'.length = bs := h2.length_eq.trans lu
      obtain ⟨r', g1, g2, g3⟩ := ih (pre ++ seg') (rest.drop bs)
        (a + bs) n (by rw [List.length_append]; omega)
        (by omega) (by omega)
      refine ⟨seg' ++ r', ?_, ?_, blockSorted_append (by omega) h3 g3⟩
      · rw [g1, List.append_assoc]
      · rw [hsplit]
        exact (h2.append g2).trans (by rw [List.take_append_drop])
    · simp only [if_neg h]
      obtain ⟨seg', h1, h2, h3⟩ := insertionSort_spec hc pre rest []
      refine ⟨seg', ?_, h2, blockSorted_of_short h3⟩
      rw [hn, ha]
      simpa using h1

/-- One round of the merge phase of `stable_func`: the loop over the pairs
of blocks and the merge of what is left double the size of the sorted
blocks. -/
theorem mergePairs_spec {α : Type} {less : α → α → Bool} {le : α → α → Prop}
    (hc : Compares less le) (bs : Nat) (hbs : 0 < bs) :
    ∀ (fuel : Nat) (pre rest : List α) (a n : Nat),
      a = pre.length → n = a + rest.length → rest.length ≤ fuel → BlockSorted le bs rest →
      ∃ rest', (if (mergePairsLoop less n bs fuel a (pre ++ rest)).2 + bs < n then
            symMerge_func less (n - (mergePairsLoop less n bs fuel a (pre ++ rest)).2)
              (mergePairsLoop less n bs fuel a (pre ++ rest)).1
              (mergePairsLoop less n bs fuel a (pre ++ rest)).2
              ((mergePairsLoop less n bs fuel a (pre ++ rest)).2 + bs) n
          else (mergePairsLoop less n bs fuel a (pre ++ rest)).1) = pre ++ rest' ∧
        rest'.Perm rest ∧ BlockSorted le (2 * bs) rest' := by
  intro fuel
  induction fuel with
  | zero =>
    intro pre rest a n ha hn hf hB
    have h0 : rest = [] := List.eq_nil_of_length_eq_zero (by omega)
    subst h0
    simp only [mergePairsLoop]
    rw [if_neg (by simp at hn; omega)]
    exact ⟨[], rfl, List.Perm.refl _, blockSorted_of_short List.Pairwise.nil⟩
  | succ k ih =>
    intro pre rest a n ha hn hf hB
    simp only [mergePairsLoop]
    by_cases h : a + 2 * bs ≤ n
    · simp only [if_pos h]
      have lu : (rest.take bs).length = bs := by rw [List.length_take]; omega
      have lv : ((rest.drop bs).take bs).length = bs := by
        rw [List.length_take, List.length_drop]; omega
      have lr : ((rest.drop bs).drop bs).length = rest.length - bs - bs := by
        rw [List.length_drop, List.length_drop]
      have hsplit : rest = rest.take bs ++ (rest.drop bs).take bs ++ (rest.drop bs).drop bs := by
        rw [List.append_assoc, List.take_append_drop, List.take_append_drop]
      have e1 : pre ++ rest =
          pre ++ rest.take bs ++ (rest.drop bs).take bs ++ (rest.drop bs).drop bs := by
        rw [List.append_assoc, List.append_assoc, List.take_append_drop,
          List.take_append_drop]
      obtain ⟨w, h1, h2, h3⟩ := symMerge_spec hc (2 * bs) pre (rest.take bs)
        ((rest.drop bs).take bs) ((rest.drop bs).drop bs) a (a + bs) (a + 2 * bs) ha
        (by omega) (by omega)
        (by intro h0; rw [h0] at lu; simp at lu; omega)
        (by intro h0; rw [h0] at lv; simp at lv; omega) (by omega)
        (blockSorted_take hB) (blockSorted_take (blockSorted_drop hB))
      rw [e1, h1]
      have lw : w.length = 2 * bs := by
        rw [h2.length_eq, List.length_append]; omega
      obtain ⟨r', g1, g2, g3⟩ := ih (pre ++ w) ((rest.drop bs).drop bs) (a + 2 * bs) n
        (by rw [List.length_append]; omega) (by omega) (by omega)
        (blockSorted_drop (blockSorted_drop hB))
      refine ⟨w ++ r', ?_, ?_, blockSorted_append lw h3 g3⟩
      · rw [g1, List.append_assoc]
      · exact (h2.append g2).trans (by rw [← hsplit])
    · simp only [if_neg h]
      by_cases h2 : a + bs < n
      · rw [if_pos h2]
        have lu : (rest.take bs).length = bs := by rw [List.length_take]; omega
        have lv : (rest.drop bs).length = rest.length - bs := List.length_drop _ _
        have e1 : pre ++ rest = pre ++ rest.take bs ++ rest.drop bs ++ [] := by
          rw [List.append_nil, List.append_assoc, List.take_append_drop]
        obtain ⟨w, h1, h2, h3⟩ := symMerge_spec hc (n - a) pre (rest.take bs)
          (rest.drop bs) [] a (a + bs) n ha (by omega) (by omega)
          (by intro h0; rw [h0] at lu; simp at lu; omega)
          (by intro h0; rw [h0] at lv; simp at lv; omega) (by omega)
          (blockSorted_take hB)
          (pairwise_of_blockSorted (blockSorted_drop hB) (by omega))
        rw [e1, h1]
        refine ⟨w, by simp, ?_, blockSorted_of_short h3⟩
        exact h2.trans (by rw [List.take_append_drop])
      · rw [if_neg h2]
        exact ⟨rest, rfl, List.Perm.refl _,
          blockSorted_of_short (pairwise_of_blockSorted hB (by omega))⟩

/-- The merge phase of `stable_func` ends with the whole list sorted. -/
theorem mergeLoop_spec {α : Type} {less : α → α → Bool} {le : α → α → Prop}
    (hc : Compares less le) (n : Nat) :
    ∀ (fuel bs : Nat) (l : List α), 0 < bs → l.length = n → BlockSorted le bs l →
      n ≤ bs * 2 ^ fuel →
      (mergeLoop less n fuel bs l).Perm l ∧ (mergeLoop less n fuel bs l).Pairwise le := by
  intro fuel
  induction fuel with
  | zero =>
    intro bs l _ hlen hB hn
    simp only [mergeLoop]
    exact ⟨List.Perm.refl _, pairwise_of_blockSorted hB (by simpa [hlen] using hn)⟩
  | succ k ih =>
    intro bs l hbs hlen hB hn
    simp only [mergeLoop]
    by_cases h : bs < n
    · rw [if_pos h]
      obtain ⟨r', h1, h2, h3⟩ := mergePairs_spec hc bs hbs n [] l 0 n rfl
        (by simp [hlen]) (by omega) hB
      simp only [List.nil_append] at h1
      rw [h1]
      have := ih (bs * 2) r' (by omega) (h2.length_eq.trans hlen)
        (by rwa [Nat.mul_comm]) (by rw [pow_succ] at hn; linarith)
      exact ⟨this.1.trans h2, this.2⟩
    · rw [if_neg h]
      exact ⟨List.Perm.refl _, pairwise_of_blockSorted hB (by omega)⟩

/-- The stable sort of Go returns a sorted permutation of its input, for every
comparison that is total and transitive. -/
theorem SliceStable_spec {α : Type} {less : α → α → Bool} {le : α → α → Prop}
    (hc : Compares less le) (l : List α) :
    (SliceStable less l).Perm l ∧ (SliceStable less l).Pairwise le := by
  obtain ⟨r', h1, h2, h3⟩ := blocks_spec hc 20 (by decide) l.length [] l 0 l.length rfl
    (by simp) (le_refl _)
  simp only [List.nil_append] at h1
  have hlt : l.length ≤ 20 * 2 ^ l.length := by
    have := Nat.lt_two_pow l.length
    omega
  have := mergeLoop_spec hc l.length l.length 20 r' (by decide) h2.length_eq h3 hlt
  simp only [SliceStable, stable_func]
  rw [h1]
  exact ⟨this.1.trans h2, this.2⟩

end GoSort

/-! # Theorems on the string unpacker -/

namespace StrUnpack
open Wget

/-! ## C21: strings without digits and backslashes -/

theorem unpackLoop_nil (nd : Nat → Bool) (fuel : Nat) (escaped : Bool) (out : Str) :
    unpackLoop nd fuel [] escaped out =
      if escaped then .error .trailingBackslash else .ok out := by
  cases fuel <;> rfl

theorem runesLoop_ne_nil (fuel : Nat) (s : Str) (h : s ≠ []) : runesLoop (fuel + 1) s ≠ [] := by
  simp [runesLoop, h]

theorem runes_ne_nil {s : Str} (h : s ≠ []) : runes s ≠ [] := by
  cases s with
  | nil => exact absurd rfl h
  | cons c cs => exact runesLoop_ne_nil _ _ h

theorem encodeRunes_cons (r : Nat) (rs : List Nat) :
    encodeRunes (r :: rs) = encodeRune r ++ encodeRunes rs := by
  simp [encodeRunes]

/-- The main loop on runes of which none is a digit or a backslash: each is
written once. -/
theorem unpackLoop_plain (nd : Nat → Bool) :
    ∀ (rs : List Nat) (fuel : Nat) (out : Str), rs.length ≤ fuel →
      (∀ r ∈ rs, unicodeIsDigit nd r = false ∧ r ≠ 0x5C) →
      unpackLoop nd fuel rs false out = .ok (out ++ encodeRunes rs)
  | [], fuel, out, _, _ => by simp [unpackLoop_nil, encodeRunes]
  | r :: rest, 0, out, hf, _ => by simp at hf
  | r :: rest, fuel + 1, out, hf, h => by
    have hr := h r (List.mem_cons_self _ _)
    have hrest : ∀ x ∈ rest, unicodeIsDigit nd x = false ∧ x ≠ 0x5C :=
      fun x hx => h x (List.mem_cons_of_mem _ hx)
    have hhead : (rest.head?.map (unicodeIsDigit nd)).getD false = false := by
      cases rest with
      | nil => rfl
      | cons d ds => simpa using (hrest d (List.mem_cons_self _ _)).1
    simp only [unpackLoop, Bool.false_eq_true, if_false, hr.2, hhead]
    rw [unpackLoop_plain nd rest fuel _ (by simpa using hf) hrest, encodeRunes_cons,
      List.append_assoc]

/-- C21 (fails on the code): the string of the single byte `0xFF`, which is
not valid UTF-8 and holds no digit and no backslash, comes back as the three
bytes of U+FFFD. -/
theorem invalid_byte_is_replaced :
    Unpack noDigits [Char.ofNat 0xFF] =
      .ok [Char.ofNat 0xEF, Char.ofNat 0xBF, Char.ofNat 0xBD] := by
  rfl

/-- C21 (amended). For every string whose runes hold no digit and no
backslash, `Unpack` returns without error the bytes of its runes written
back, each invalid byte having become U+FFFD; for a string of valid UTF-8,
the empty string included, that is the string unchanged. -/
theorem unpack_plain (nd : Nat → Bool) (s : Str)
    (h : ∀ r ∈ runes s, unicodeIsDigit nd r = false ∧ r ≠ 0x5C) :
    Unpack nd s = .ok (encodeRunes (runes s)) ∧
    (validString s = true → Unpack nd s = .ok s) := by
  have h1 : Unpack nd s = .ok (encodeRunes (runes s)) := by
    unfold Unpack
    split
    · next hs => subst hs; rfl
    · next hs =>
      rw [unpackLoop_plain nd (runes s) _ [] (Nat.le_refl _) h]
      simp only [List.nil_append]
      have hv : hasValidChar nd (runes s) false = true := by
        cases hr : runes s with
        | nil => exact absurd hr (runes_ne_nil hs)
        | cons r rest =>
          have hr' := h r (by rw [hr]; exact List.mem_cons_self _ _)
          simp [hasValidChar, hr'.1, hr'.2]
      simp [hv]
  refine ⟨h1, fun hv => ?_⟩
  rw [h1]
  simp only [validString, decide_eq_true_eq] at hv
  rw [hv]

/-- C21 at `abcd` and at the empty string. -/
theorem unpack_plain_witness :
    Unpack noDigits "abcd".toList = .ok "abcd".toList ∧
    Unpack noDigits [] = .ok [] :=
  ⟨(unpack_plain noDigits "abcd".toList (by decide)).2 (by decide),
    (unpack_plain noDigits [] (by decide)).2 (by decide)⟩

/-! ## C22 and C24: digits only, and a number after an escaped rune -/

/-- C22 (fails on the code): `45`, a string of digits only, is unpacked to
`44444` without error, the first digit being taken as the rune to repeat and
the second as its count; `3` comes back as it is. The error for digits only is
raised when nothing was written, as for `40`. -/
theorem digits_only_is_unpacked (nd : Nat → Bool) :
    Unpack nd "45".toList = .ok "44444".toList ∧
    Unpack nd "3".toList = .ok "3".toList ∧
    Unpack nd "40".toList = .error .onlyDigits := by
  refine ⟨rfl, rfl, rfl⟩

/-- C24 (fails on the code): in `qwe\45` the escaped `4` is written once and
the `5` after it is not read as its count but written as a rune of its own; the
result is `qwe45`, the same as for `qwe\4\5`, not `qwe44444`. -/
theorem escaped_rune_is_not_repeated (nd : Nat → Bool) :
    Unpack nd "qwe\\45".toList = .ok "qwe45".toList ∧
    Unpack nd "qwe\\4\\5".toList = .ok "qwe45".toList ∧
    Unpack nd "\\a3".toList = .ok "a3".toList ∧
    Unpack nd "a3".toList = .ok "aaa".toList := by
  refine ⟨rfl, rfl, rfl, rfl⟩

/-! ## Decoding what was written -/

theorem toNat_ofNat_lt (n : Nat) (h : n < 0xD800) : (Char.ofNat n).toNat = n := by
  have hv : n.isValidChar := Or.inl h
  simp only [Char.ofNat, hv, Char.toNat, Char.ofNatAux, dite_true]
  rfl

theorem decodeRune_bytes2 (b0 b1 : Nat) (rest : Str) (h0 : 0xC2 ≤ b0) (h0' : b0 ≤ 0xDF)
    (h1 : 0x80 ≤ b1) (h1' : b1 ≤ 0xBF) :
    decodeRune (Char.ofNat b0 :: Char.ofNat b1 :: rest) = (b0 % 32 * 64 + b1 % 64, 2) := by
  have a1 : (b0 < 128) = False := eq_false (by omega)
  have a2 : (b0 < 194) = False := eq_false (by omega)
  have a3 : (244 < b0) = False := eq_false (by omega)
  have a4 : (b0 < 224) = True := eq_true (by omega)
  have a5 : (b0 = 224) = False := eq_false (by omega)
  have a6 : (b0 = 240) = False := eq_false (by omega)
  have a7 : (b0 = 237) = False := eq_false (by omega)
  have a8 : (b0 = 244) = False := eq_false (by omega)
  have a9 : (b1 < 128) = False := eq_false (by omega)
  have a10 : (191 < b1) = False := eq_false (by omega)
  simp only [decodeRune, List.map_cons, toNat_ofNat_lt b0 (by omega),
    toNat_ofNat_lt b1 (by omega), a1, a2, a3, a4, a5, a6, a7, a8, a9, a10, if_true, if_false,
    decide_False, decide_True, Bool.or_self, Bool.false_eq_true, List.length_cons,
    Nat.le_refl]
  have : ((List.map Char.toNat rest).length + 1 + 1 < 2) = False := eq_false (by omega)
  simp only [this, if_false]

theorem decodeRune_bytes3 (b0 b1 b2 : Nat) (rest : Str) (h0 : 0xE0 ≤ b0) (h0' : b0 ≤ 0xEF)
    (h1 : (if b0 = 0xE0 then 0xA0 else 0x80) ≤ b1)
    (h1' : b1 ≤ (if b0 = 0xED then 0x9F else 0xBF))
    (h2 : 0x80 ≤ b2) (h2' : b2 ≤ 0xBF) :
    decodeRune (Char.ofNat b0 :: Char.ofNat b1 :: Char.ofNat b2 :: rest) =
      (b0 % 16 * 4096 + b1 % 64 * 64 + b2 % 64, 3) := by
  have hb1 : b1 < 0xD800 := by split at h1' <;> omega
  have a1 : (b0 < 128) = False := eq_false (by omega)
  have a2 : (b0 < 194) = False := eq_false (by omega)
  have a3 : (244 < b0) = False := eq_false (by omega)
  have a4 : (b0 < 224) = False := eq_false (by omega)
  have a4' : (b0 < 240) = True := eq_true (by omega)
  have a6 : (b0 = 240) = False := eq_false (by omega)
  have a8 : (b0 = 244) = False := eq_false (by omega)
  have a9 : (b2 < 128) = False := eq_false (by omega)
  have a10 : (191 < b2) = False := eq_false (by omega)
  have a11 : (b1 < if b0 = 224 then 160 else 128) = False := eq_false (by omega)
  have a12 : ((if b0 = 237 then 159 else 191) < b1) = False := eq_false (by omega)
  have a13 : ((3 : Nat) ≤ 2) = False := eq_false (by omega)
  have a14 : ((List.map Char.toNat rest).length + 1 + 1 + 1 < 3) = False := eq_false (by omega)
  simp only [decodeRune, List.map_cons, toNat_ofNat_lt b0 (by omega),
    toNat_ofNat_lt b1 hb1, toNat_ofNat_lt b2 (by omega), a1, a2, a3, a4, a4', a6, a8, a9, a10,
    a11, a12, a13, a14, if_true, if_false,
    decide_False, decide_True, Bool.or_self, Bool.false_eq_true, List.length_cons,
    Nat.le_refl]

theorem decodeRune_bytes4 (b0 b1 b2 b3 : Nat) (rest : Str) (h0 : 0xF0 ≤ b0) (h0' : b0 ≤ 0xF4)
    (h1 : (if b0 = 0xF0 then 0x90 else 0x80) ≤ b1)
    (h1' : b1 ≤ (if b0 = 0xF4 then 0x8F else 0xBF))
    (h2 : 0x80 ≤ b2) (h2' : b2 ≤ 0xBF) (h3 : 0x80 ≤ b3) (h3' : b3 ≤ 0xBF) :
    decodeRune (Char.ofNat b0 :: Char.ofNat b1 :: Char.ofNat b2 :: Char.ofNat b3 :: rest) =
      (b0 % 8 * 262144 + b1 % 64 * 4096 + b2 % 64 * 64 + b3 % 64, 4) := by
  have hb1 : b1 < 0xD800 := by split at h1' <;> omega
  have a1 : (b0 < 128) = False := eq_false (by omega)
  have a2 : (b0 < 194) = False := eq_false (by omega)
  have a3 : (244 < b0) = False := eq_false (by omega)
  have a4 : (b0 < 224) = False := eq_false (by omega)
  have a4' : (b0 < 240) = False := eq_false (by omega)
  have a6 : (b0 = 224) = False := eq_false (by omega)
  have a8 : (b0 = 237) = False := eq_false (by omega)
  have a9 : (b2 < 128) = False := eq_false (by omega)
  have a10 : (191 < b2) = False := eq_false (by omega)
  have a9' : (b3 < 128) = False := eq_false (by omega)
  have a10' : (191 < b3) = False := eq_false (by omega)
  have a11 : (b1 < if b0 = 240 then 144 else 128) = False := eq_false (by omega)
  have a12 : ((if b0 = 244 then 143 else 191) < b1) = False := eq_false (by omega)
  have a13 : ((4 : Nat) ≤ 2) = False := eq_false (by omega)
  have a13' : ((4 : Nat) ≤ 3) = False := eq_false (by omega)
  have a14 : ((List.map Char.toNat rest).length + 1 + 1 + 1 + 1 < 4) = False :=
    eq_false (by omega)
  simp only [decodeRune, List.map_cons, toNat_ofNat_lt b0 (by omega),
    toNat_ofNat_lt b1 hb1, toNat_ofNat_lt b2 (by omega), toNat_ofNat_lt b3 (by omega),
    a1, a2, a3, a4, a4', a6, a8, a9, a10, a9', a10',
    a11, a12, a13, a13', a14, if_true, if_false,
    decide_False, decide_True, Bool.or_self, Bool.false_eq_true, List.length_cons,
    Nat.le_refl]

theorem decodeRune_byte1 (b0 : Nat) (rest : Str) (h0 : b0 < 0x80) :
    decodeRune (Char.ofNat b0 :: rest) = (b0, 1) := by
  simp only [decodeRune, List.map_cons, toNat_ofNat_lt b0 (by omega), h0, if_true]

/-- Decoding what `WriteRune` wrote gives the rune back, or `RuneError` for a
surrogate and for a value above `MaxRune`. -/
theorem decodeRune_encodeRune (r : Nat) (rest : Str) :
    decodeRune (encodeRune r ++ rest) = (normRune r, (encodeRune r).length) := by
  unfold encodeRune normRune
  by_cases h1 : r ≤ 0x7F
  · have hn : (decide (0x10FFFF < r) || (decide (0xD800 ≤ r) && decide (r ≤ 0xDFFF))) = false := by
      simp only [Bool.or_eq_false_iff, Bool.and_eq_false_iff, decide_eq_false_iff_not]
      omega
    simp only [h1, if_true, hn, Bool.false_eq_true, if_false, List.singleton_append,
      List.length_singleton]
    exact decodeRune_byte1 r rest (by omega)
  · by_cases h2 : r ≤ 0x7FF
    · have hn : (decide (0x10FFFF < r) || (decide (0xD800 ≤ r) && decide (r ≤ 0xDFFF))) =
          false := by
        simp only [Bool.or_eq_false_iff, Bool.and_eq_false_iff, decide_eq_false_iff_not]
        omega
      simp only [h1, h2, if_true, hn, Bool.false_eq_true, if_false, List.cons_append,
        List.nil_append, List.length_cons, List.length_nil]
      rw [decodeRune_bytes2 _ _ rest (by omega) (by omega) (by omega) (by omega)]
      congr 1
      omega
    · by_cases h3 : 0x10FFFF < r ∨ (0xD800 ≤ r ∧ r ≤ 0xDFFF)
      · have hn : (decide (0x10FFFF < r) || (decide (0xD800 ≤ r) && decide (r ≤ 0xDFFF))) =
            true := by
          simpa using h3
        simp only [h1, h2, hn, if_true, if_false, List.cons_append, List.nil_append,
          List.length_cons, List.length_nil]
        rw [decodeRune_bytes3 _ _ _ rest (by omega) (by omega) (by simp) (by simp) (by omega)
          (by omega)]
        rfl
      · have hn : (decide (0x10FFFF < r) || (decide (0xD800 ≤ r) && decide (r ≤ 0xDFFF))) =
            false := by
          simp only [Bool.or_eq_false_iff, Bool.and_eq_false_iff, decide_eq_false_iff_not]
          omega
        by_cases h4 : r ≤ 0xFFFF
        · simp only [h1, h2, hn, h4, if_true, Bool.false_eq_true, if_false, List.cons_append,
            List.nil_append, List.length_cons, List.length_nil]
          rw [decodeRune_bytes3 _ _ _ rest (by omega) (by omega) (by split <;> omega)
            (by split <;> omega) (by omega) (by omega)]
          congr 1
          omega
        · simp only [h1, h2, hn, h4, if_true, Bool.false_eq_true, if_false, List.cons_append,
            List.nil_append, List.length_cons, List.length_nil]
          rw [decodeRune_bytes4 _ _ _ _ rest (by omega) (by omega) (by split <;> omega)
            (by split <;> omega) (by omega) (by omega) (by omega) (by omega)]
          congr 1
          omega

theorem encodeRune_length_pos (r : Nat) : 1 ≤ (encodeRune r).length := by
  unfold encodeRune
  split_ifs <;> simp

theorem encodeRune_normRune (r : Nat) : encodeRune (normRune r) = encodeRune r := by
  unfold normRune
  split
  · next h =>
    have h1 : ¬ r ≤ 0x7F := by
      simp only [Bool.or_eq_true, Bool.and_eq_true, decide_eq_true_eq] at h
      omega
    have h2 : ¬ r ≤ 0x7FF := by
      simp only [Bool.or_eq_true, Bool.and_eq_true, decide_eq_true_eq] at h
      omega
    conv_rhs => unfold encodeRune
    simp only [h1, h2, h, if_true, if_false]
    rfl
  · rfl

/-- The runes of the bytes written for a list of runes. -/
theorem runesLoop_encodeRunes :
    ∀ (rs : List Nat) (fuel : Nat), (encodeRunes rs).length ≤ fuel →
      runesLoop fuel (encodeRunes rs) = rs.map normRune
  | [], fuel, _ => by cases fuel <;> simp [encodeRunes, runesLoop]
  | r :: rs, 0, h => by
    have := encodeRune_length_pos r
    simp only [encodeRunes_cons, List.length_append] at h
    omega
  | r :: rs, fuel + 1, h => by
    have hpos := encodeRune_length_pos r
    simp only [encodeRunes_cons, List.length_append] at h
    have hne : encodeRune r ++ encodeRunes rs ≠ [] := by
      intro h0
      have := congrArg List.length h0
      simp only [List.length_append, List.length_nil] at this
      omega
    simp only [runesLoop, encodeRunes_cons, hne, if_false, decodeRune_encodeRune,
      List.drop_left, List.map_cons]
    rw [runesLoop_encodeRunes rs fuel (by omega)]

theorem runes_encodeRunes (rs : List Nat) : runes (encodeRunes rs) = rs.map normRune :=
  runesLoop_encodeRunes rs _ (Nat.le_refl _)

/-! ## C25: escaped runes -/

theorem escapeAll_eq (rs : List Nat) :
    escapeAll rs = encodeRunes (rs.flatMap fun r => [0x5C, r]) := by
  induction rs with
  | nil => rfl
  | cons r rs ih =>
    have h5 : encodeRune 0x5C = ['\\'] := by decide
    simp only [escapeAll, List.flatMap_cons] at ih ⊢
    rw [ih]
    simp [encodeRunes, h5]

/-- The main loop on runes that are each preceded by a backslash: each is
written once, whatever it is. -/
theorem unpackLoop_escaped (nd : Nat → Bool) :
    ∀ (rs : List Nat) (fuel : Nat) (out : Str), 2 * rs.length ≤ fuel →
      unpackLoop nd fuel (rs.flatMap fun r => [0x5C, r]) false out =
        .ok (out ++ encodeRunes rs)
  | [], fuel, out, _ => by simp [unpackLoop_nil, encodeRunes]
  | r :: rs, 0, out, h => by simp at h
  | r :: rs, 1, out, h => by simp at h; omega
  | r :: rs, fuel + 2, out, h => by
    show unpackLoop nd (fuel + 2) (0x5C :: r :: (rs.flatMap fun r => [0x5C, r])) false out = _
    simp only [unpackLoop, Bool.false_eq_true, if_false, if_true, reduceCtorEq]
    rw [unpackLoop_escaped nd rs fuel _ (by simp at h; omega), encodeRunes_cons,
      List.append_assoc]

theorem length_flatMap_pair (rs : List Nat) :
    (rs.flatMap fun r => [0x5C, r]).length = 2 * rs.length := by
  induction rs with
  | nil => rfl
  | cons r rs ih =>
    show ((0x5C :: r :: (rs.flatMap fun r => [0x5C, r])) : List Nat).length = _
    simp only [List.length_cons, ih]
    omega

/-- C25. For every non-empty list of runes, digits and backslashes included,
`Unpack` of the string in which each of them is preceded by a backslash returns
without error the string of these runes: none is read as a count. -/
theorem unpack_escaped (nd : Nat → Bool) (rs : List Nat) (h : rs ≠ []) :
    Unpack nd (escapeAll rs) = .ok (encodeRunes rs) := by
  have hs : escapeAll rs ≠ [] := by
    cases rs with
    | nil => exact absurd rfl h
    | cons r rs => simp [escapeAll]
  have hn : normRune 0x5C = 0x5C := by decide
  have hr : runes (escapeAll rs) = (rs.map normRune).flatMap fun r => [0x5C, r] := by
    rw [escapeAll_eq, runes_encodeRunes]
    clear h hs
    induction rs with
    | nil => rfl
    | cons r rs ih => simp [hn, ih]
  have he : encodeRunes (rs.map normRune) = encodeRunes rs := by
    simp [encodeRunes, List.flatMap_map, encodeRune_normRune]
  have hv : hasValidChar nd (runes (escapeAll rs)) false = true := by
    rw [hr]
    cases rs with
    | nil => exact absurd rfl h
    | cons r rs => simp [hasValidChar]
  unfold Unpack
  rw [if_neg hs]
  have hl := unpackLoop_escaped nd (rs.map normRune) (runes (escapeAll rs)).length []
    (by rw [hr, length_flatMap_pair, List.length_map])
  rw [← hr] at hl
  rw [hl, he]
  simp [hv]

/-- C25 at the runes `4` and `5`, and at the example of the source. -/
theorem unpack_escaped_witness :
    Unpack noDigits "\\4\\5".toList = .ok "45".toList ∧
    Unpack noDigits "qwe\\4\\5".toList = .ok "qwe45".toList :=
  ⟨unpack_escaped noDigits [0x34, 0x35] (by decide), rfl⟩

/-! ## C23: groups -/

end StrUnpack

/-! # Theorems on the sort utility -/

namespace SortUtil
open Wget

/-! ## C27 and C28: the flags -u and -c -/

/-- C27 (fails on the code). With `-u -k 2`, the lines `a<TAB>1`, `b<TAB>1`,
`a<TAB>1` have equal keys, so the stable sort leaves them in their order; the
loop of `-u` compares each line with the one before it only, and the line
`a<TAB>1` is printed twice. Without `-k` the same input is printed with that
line once. -/
theorem unique_prints_line_twice (lib : Library) :
    sortMain lib { unique := true, keyNum := 2 }
        ["a\t1".toList, "b\t1".toList, "a\t1".toList] =
      .printed ["a\t1".toList, "b\t1".toList, "a\t1".toList] ∧
    sortMain lib { unique := true } ["a\t1".toList, "b\t1".toList, "a\t1".toList] =
      .printed ["a\t1".toList, "b\t1".toList] := by
  refine ⟨rfl, rfl⟩

/-- C28 (fails on the code). With `-c -r` the two equal lines `a`, `a` are
reported as not sorted (status 1): under `-r` the comparison is the negation
of `a < b`, which holds of equal lines. Without `-r` the same input is
accepted, and with `-r` the lines `b`, `a` are accepted and `a`, `b` are
not. -/
theorem check_reverse_rejects_equal_lines (lib : Library) :
    sortMain lib { check := true, reverse := true } ["a".toList, "a".toList] = .exit 1 ∧
    sortMain lib { check := true } ["a".toList, "a".toList] = .exit 0 ∧
    sortMain lib { check := true, reverse := true } ["b".toList, "a".toList] = .exit 0 ∧
    sortMain lib { check := true, reverse := true } ["a".toList, "b".toList] = .exit 1 := by
  refine ⟨rfl, rfl, rfl, rfl⟩

/-! ## The plain order of the lines -/

theorem compares_str : GoSort.Compares (fun a b : Str => decide (a < b)) (fun a b => a ≤ b) where
  of_less := by
    intro x y h
    exact le_of_lt (by simpa using h)
  of_not_less := by
    intro x y h
    exact not_lt.1 (by simpa using h)
  trans := fun _ _ _ => le_trans

theorem compares_str_reverse :
    GoSort.Compares (fun a b : Str => !decide (a < b)) (fun a b => b ≤ a) where
  of_less := by
    intro x y h
    exact not_lt.1 (by simpa using h)
  of_not_less := by
    intro x y h
    exact le_of_lt (by simpa using h)
  trans := fun _ _ _ h1 h2 => le_trans h2 h1

/-- Without `-k`, `-n`, `-M` and `-h` the comparison of the program is `a < b`
on the lines, negated under `-r`. -/
theorem lessFunc_plain (lib : Library) (flags : Flags) (hk : flags.keyNum = 0)
    (hn : flags.numeric = false) (hM : flags.monthSort = false) (hh : flags.human = false) :
    lessFunc lib flags =
      if flags.reverse then (fun a b : Str => !decide (a < b)) else fun a b => decide (a < b) := by
  funext a b
  simp only [lessFunc, hk, hn, hM, hh]
  cases flags.reverse <;> simp

/-- On sorted lines the loop of `-u` keeps one line of every run of equal
lines: what it keeps is strictly sorted and has the same members. -/
theorem uniqueLoop_spec (le : Str → Str → Prop) (hanti : ∀ x y, le x y → le y x → x = y) :
    ∀ (rest : List Str) (prev : Str), (prev :: rest).Pairwise le →
      (prev :: uniqueLoop prev rest).Pairwise (fun x y => le x y ∧ x ≠ y) ∧
      ∀ x, x ∈ prev :: uniqueLoop prev rest ↔ x ∈ prev :: rest := by
  intro rest
  induction rest with
  | nil =>
    intro prev _
    simp [uniqueLoop]
  | cons line rest ih =>
    intro prev h
    have h' := h
    rw [List.pairwise_cons] at h'
    obtain ⟨hp, hrest⟩ := h'
    simp only [uniqueLoop]
    by_cases hl : line = prev
    · subst hl
      rw [if_neg (by simp)]
      have := ih line hrest
      refine ⟨this.1, ?_⟩
      intro x
      rw [this.2 x]
      simp
    · rw [if_pos hl]
      obtain ⟨g1, g2⟩ := ih line hrest
      refine ⟨?_, ?_⟩
      · rw [List.pairwise_cons]
        refine ⟨?_, g1⟩
        intro y hy
        have hy' := (g2 y).1 hy
        refine ⟨hp y hy', ?_⟩
        intro he
        subst he
        rcases List.mem_cons.1 hy' with h0 | h0
        · exact hl h0.symm
        · have h1 : le line prev := (List.pairwise_cons.1 hrest).1 prev h0
          have h2 : le prev line := hp line (List.mem_cons_self _ _)
          exact hl (hanti _ _ h1 h2)
      · intro x
        rw [List.mem_cons, g2 x, List.mem_cons (a := x) (b := prev)]

/-- What the program prints when it sorts, for every comparison that is a
total order on the lines. -/
theorem sortMain_spec (lib : Library) (flags : Flags) (input : List Str)
    (le : Str → Str → Prop) (hc : GoSort.Compares (lessFunc lib flags) le)
    (hanti : ∀ x y, le x y → le y x → x = y)
    (hk : ¬ flags.keyNum < 0) (hcheck : flags.check = false) :
    ∃ out, sortMain lib flags input = .printed out ∧ out.Pairwise le ∧
      (flags.unique = false →
        out.Perm (if flags.ignoreBlanks then input.map trimTrailingBlanks else input)) ∧
      (flags.unique = true → out.Nodup ∧
        ∀ x, x ∈ out ↔
          x ∈ (if flags.ignoreBlanks then input.map trimTrailingBlanks else input)) := by
  simp only [sortMain, if_neg hk, hcheck]
  generalize (if flags.ignoreBlanks = true then input.map trimTrailingBlanks else input) = lines
  obtain ⟨hperm, hsorted⟩ := GoSort.SliceStable_spec hc lines
  generalize GoSort.SliceStable (lessFunc lib flags) lines = sorted at hperm hsorted
  cases hu : flags.unique
  · exact ⟨sorted, by simp, hsorted, fun _ => hperm, fun h => by simp at h⟩
  · cases sorted with
    | nil =>
      refine ⟨[], by simp, List.Pairwise.nil, fun h => by simp at h, fun _ => ?_⟩
      have : lines = [] := by simpa using hperm.symm
      simp [this]
    | cons first rest =>
      obtain ⟨g1, g2⟩ := uniqueLoop_spec le hanti rest first hsorted
      refine ⟨first :: uniqueLoop first rest, by simp, g1.imp (fun h => h.1),
        fun h => by simp at h, fun _ => ⟨g1.imp (fun h => h.2), ?_⟩⟩
      intro x
      rw [g2 x]
      exact hperm.mem_iff

/-! ## C26: the plain sort and `-r` -/

theorem splitOnByte_replicate (n : Nat) :
    splitOnByte (List.replicate n 'a') '\n' = [List.replicate n 'a'] := by
  induction n with
  | zero => rfl
  | succ k ih =>
    have h : ('a' = '\n') = False := by decide
    simp only [List.replicate_succ, splitOnByte, h, if_false, ih]

/-- A first line of `maxScanTokenSize` bytes or more stops the scan with an
error. -/
theorem scanLines_long_line (n : Nat) (hn : maxScanTokenSize ≤ n) :
    scanLines (List.replicate n 'a') = ([], true) := by
  have hpos : 0 < maxScanTokenSize := by decide
  have hne : List.replicate n 'a' ≠ [] := by
    intro h
    have := congrArg List.length h
    rw [List.length_replicate, List.length_nil] at this
    omega
  have hlen : ¬ (List.replicate n 'a').length < maxScanTokenSize := by
    rw [List.length_replicate]
    omega
  rw [scanLines, splitOnByte_replicate, scanLoop, if_neg hne, if_neg hlen]

/-- The scan ends without `ErrTooLong` exactly when every piece between the
`\n` of the input is shorter than `maxScanTokenSize`. -/
theorem scanLoop_ok_iff : ∀ (pieces : List Str),
    (scanLoop pieces).2 = false ↔ ∀ line ∈ pieces, line.length < maxScanTokenSize
  | [] => by simp [scanLoop]
  | [last] => by
    have hpos : 0 < maxScanTokenSize := by decide
    by_cases h0 : last = []
    · subst h0
      simp only [scanLoop, if_true, List.mem_singleton, forall_eq, List.length_nil,
        hpos]
    · by_cases h1 : last.length < maxScanTokenSize
      · simp only [scanLoop, h0, if_false, h1, if_true, List.mem_singleton, forall_eq]
      · simp only [scanLoop, h0, if_false, h1, List.mem_singleton, forall_eq,
          Bool.true_eq_false]
  | line :: next :: rest => by
    have ih := scanLoop_ok_iff (next :: rest)
    by_cases h1 : line.length < maxScanTokenSize
    · simp only [scanLoop, h1, if_true, ih, List.forall_mem_cons, true_and]
    · simp only [scanLoop, h1, if_false, List.forall_mem_cons, false_and,
        Bool.true_eq_false]

/-- C26, counterexample: none of `-k`, `-n`, `-M`, `-h` is given, and the
lines printed are not a permutation of the input lines: under `-u` the two
lines `a`, `a` are printed as one line; under `-b` the line `a` followed by a
blank is printed without the blank; under `-c` the program leaves by
`os.Exit` before it prints a line; and so it does when the file cannot be
opened, when the reader fails, and when a line has 65536 bytes. -/
theorem plain_sort_output_is_no_permutation :
    main plainLibrary { unique := true } { data := "a\na\n".toList } =
        .printed ["a".toList] ∧
      (scanLines "a\na\n".toList).1 = ["a".toList, "a".toList] ∧
      ¬ (["a".toList] : List Str).Perm ["a".toList, "a".toList] ∧
      main plainLibrary { ignoreBlanks := true } { data := "a \n".toList } =
        .printed ["a".toList] ∧
      ¬ (["a".toList] : List Str).Perm ["a ".toList] ∧
      main plainLibrary { check := true } { data := "a\n".toList } = .exit 0 ∧
      main plainLibrary {} { data := "a\n".toList, openFails := true } = .exit 1 ∧
      main plainLibrary {} { data := "a\n".toList, readFails := true } = .exit 1 ∧
      main plainLibrary {} { data := List.replicate maxScanTokenSize 'a' } = .exit 1 := by
  refine ⟨rfl, rfl, ?_, rfl, ?_, rfl, rfl, rfl, ?_⟩
  · intro h
    have := h.length_eq
    simp at this
  · intro h
    have := h.mem_iff (a := "a".toList)
    simp at this
  · rw [main, scanLines_long_line _ (Nat.le_refl _)]
    rfl

/-- C26, amended: with none of `-k`, `-n`, `-M`, `-h`, `-c`, for every input
that is opened and read without error and has no line of 65536 bytes or more,
the program prints lines in non-decreasing byte-wise order, and in
non-increasing order under `-r`. Without `-u` the lines printed are a
permutation of the input lines, taken without their trailing blanks under
`-b`; with `-u` they are the same lines, each printed once. -/
theorem sort_prints_sorted (lib : Library) (flags : Flags) (input : Input)
    (hk : flags.keyNum = 0) (hn : flags.numeric = false) (hM : flags.monthSort = false)
    (hh : flags.human = false) (hcheck : flags.check = false)
    (hopen : input.openFails = false) (hread : input.readFails = false)
    (hlong : ∀ line ∈ splitOnByte input.data '\n', line.length < maxScanTokenSize) :
    ∃ out, main lib flags input = .printed out ∧
      (flags.reverse = false → out.Pairwise (fun a b => a ≤ b)) ∧
      (flags.reverse = true → out.Pairwise (fun a b => b ≤ a)) ∧
      (flags.unique = false →
        out.Perm (if flags.ignoreBlanks then (scanLines input.data).1.map trimTrailingBlanks
          else (scanLines input.data).1)) ∧
      (flags.unique = true → out.Nodup ∧
        ∀ x, x ∈ out ↔
          x ∈ (if flags.ignoreBlanks then (scanLines input.data).1.map trimTrailingBlanks
            else (scanLines input.data).1)) := by
  have hmain : main lib flags input = sortMain lib flags (scanLines input.data).1 := by
    have hscan : (scanLines input.data).2 = false := (scanLoop_ok_iff _).2 hlong
    simp [main, hk, hopen, hread, hscan]
  rw [hmain]
  have hless := lessFunc_plain lib flags hk hn hM hh
  cases hr : flags.reverse
  · rw [hr] at hless
    have hc : GoSort.Compares (lessFunc lib flags) (fun a b : Str => a ≤ b) := by
      rw [hless]
      exact compares_str
    obtain ⟨out, h1, h2, h3, h4⟩ := sortMain_spec lib flags (scanLines input.data).1 _ hc
      (fun _ _ => le_antisymm) (by rw [hk]; decide) hcheck
    exact ⟨out, h1, fun _ => h2, fun h => by simp at h, h3, h4⟩
  · rw [hr] at hless
    have hc : GoSort.Compares (lessFunc lib flags) (fun a b : Str => b ≤ a) := by
      rw [hless]
      exact compares_str_reverse
    obtain ⟨out, h1, h2, h3, h4⟩ := sortMain_spec lib flags (scanLines input.data).1 _ hc
      (fun _ _ h1 h2 => le_antisymm h2 h1) (by rw [hk]; decide) hcheck
    exact ⟨out, h1, fun h => by simp at h, fun _ => h2, h3, h4⟩

/-- The amended C26 at `-r` on the input `b`, `a`, `c`, `b`, one to a line,
which is printed as `c`, `b`, `b`, `a`. -/
theorem sort_prints_sorted_witness :
    main plainLibrary { reverse := true } { data := "b\na\nc\nb\n".toList } =
      .printed ["c".toList, "b".toList, "b".toList, "a".toList] ∧
    (scanLines "b\na\nc\nb\n".toList).1 = ["b".toList, "a".toList, "c".toList, "b".toList] ∧
    ∃ out, main plainLibrary { reverse := true } { data := "b\na\nc\nb\n".toList } =
        .printed out ∧
      out.Pairwise (fun a b => b ≤ a) ∧
      out.Perm ["b".toList, "a".toList, "c".toList, "b".toList] :=
  ⟨rfl, rfl,
    match sort_prints_sorted plainLibrary { reverse := true }
      { data := "b\na\nc\nb\n".toList } rfl rfl rfl rfl rfl rfl rfl (by decide) with
    | ⟨out, h1, _, h2, h3, _⟩ => ⟨out, h1, h2 rfl, h3 rfl⟩⟩

end SortUtil

/-! # Theorems on the grep utility -/

namespace GrepUtil
open Wget

/-! ## `sortInts` sorts -/

theorem swap_length {α : Type} (l : List α) (i j : Nat) : (GoSort.swap l i j).length = l.length := by
  unfold GoSort.swap
  split <;> simp

theorem sortIntsInner_eq : ∀ (j : Nat) (a : List Int),
    sortIntsInner j a = GoSort.insertDown (fun x y => decide (x < y)) 0 j a
  | 0, _ => rfl
  | j + 1, a => by
    simp only [sortIntsInner, GoSort.insertDown, GoSort.lessAt, Nat.zero_lt_succ, decide_True,
      Bool.true_and]
    cases a.get? (j + 1) <;> cases a.get? j <;> simp only [sortIntsInner_eq j]

theorem insertDown_length {α : Type} (less : α → α → Bool) (a : Nat) :
    ∀ (j : Nat) (l : List α), (GoSort.insertDown less a j l).length = l.length
  | 0, _ => rfl
  | j + 1, l => by
    simp only [GoSort.insertDown]
    split
    · rw [insertDown_length less a j, swap_length]
    · rfl

theorem sortIntsLoop_eq : ∀ (fuel i : Nat) (a : List Int),
    sortIntsLoop fuel i a =
      GoSort.insertionSortLoop (fun x y => decide (x < y)) 0 a.length fuel i a
  | 0, _, _ => rfl
  | fuel + 1, i, a => by
    simp only [sortIntsLoop, GoSort.insertionSortLoop]
    split
    · rw [sortIntsLoop_eq fuel, sortIntsInner_eq, insertDown_length]
    · rfl

theorem compares_int : GoSort.Compares (fun x y : Int => decide (x < y)) (· ≤ ·) where
  of_less := fun x y h => by
    have : x < y := by simpa using h
    omega
  of_not_less := fun x y h => by
    have : ¬ x < y := by simpa using h
    omega
  trans := fun x y z h1 h2 => Int.le_trans h1 h2

/-- `sortInts` returns its argument sorted in increasing order. -/
theorem sortInts_sorted (a : List Int) :
    (sortInts a).Perm a ∧ (sortInts a).Pairwise (· ≤ ·) := by
  obtain ⟨seg, h, hp, hs⟩ := GoSort.insertionSort_spec compares_int [] a []
  simp only [List.nil_append, List.append_nil, List.length_nil, Nat.zero_add,
    GoSort.insertionSort_func, Nat.sub_zero] at h
  have he : sortInts a = seg := by
    rw [sortInts, sortIntsLoop_eq]
    exact h
  rw [he]
  exact ⟨hp, hs⟩

/-! ## The lines that are collected -/

theorem maxContext_eq : maxContext = 4611686018427387904 := by
  norm_num [maxContext]

theorem wrapInt_eq {x : Int} (h1 : -9223372036854775808 ≤ x) (h2 : x < 9223372036854775808) :
    wrapInt x = x := by
  unfold wrapInt
  norm_num
  omega

theorem mem_setKey (keys : List Int) (k j : Int) : j ∈ setKey keys k ↔ j ∈ keys ∨ j = k := by
  unfold setKey
  split
  · next h =>
    constructor
    · exact Or.inl
    · rintro (h1 | h1)
      · exact h1
      · rw [h1]; exact h
  · simp

theorem nodup_setKey {keys : List Int} (k : Int) (h : keys.Nodup) : (setKey keys k).Nodup := by
  unfold setKey
  split
  · exact h
  · next hk =>
    rw [List.nodup_append]
    exact ⟨h, List.nodup_singleton _, by
      intro a ha hb
      simp only [List.mem_singleton] at hb
      subst hb
      exact hk ha⟩

theorem foldl_setKey (ks : List Int) :
    ∀ (keys : List Int), (∀ j, j ∈ ks.foldl setKey keys ↔ j ∈ keys ∨ j ∈ ks) ∧
      (keys.Nodup → (ks.foldl setKey keys).Nodup) := by
  induction ks with
  | nil => intro keys; simp
  | cons k ks ih =>
    intro keys
    obtain ⟨h1, h2⟩ := ih (setKey keys k)
    refine ⟨fun j => ?_, fun hn => h2 (nodup_setKey k hn)⟩
    simp only [List.foldl_cons, h1, mem_setKey, List.mem_cons]
    tauto

theorem markRange_eq (keys : List Int) (start stop : Int) :
    markRange keys start stop =
      ((List.range (stop - start + 1).toNat).map fun k : Nat => start + k).foldl setKey keys := by
  rw [markRange, List.foldl_map]

theorem mem_markRange (keys : List Int) (start stop j : Int) :
    j ∈ markRange keys start stop ↔ j ∈ keys ∨ (start ≤ j ∧ j ≤ stop) := by
  rw [markRange_eq, (foldl_setKey _ keys).1]
  simp only [List.mem_map, List.mem_range]
  constructor
  · rintro (h | ⟨k, hk, rfl⟩)
    · exact Or.inl h
    · right; omega
  · rintro (h | ⟨h1, h2⟩)
    · exact Or.inl h
    · right
      exact ⟨(j - start).toNat, by omega, by omega⟩

theorem nodup_markRange {keys : List Int} (start stop : Int) (h : keys.Nodup) :
    (markRange keys start stop).Nodup := by
  rw [markRange_eq]
  exact (foldl_setKey _ keys).2 h

theorem nodup_collect (opts : grepOptions) (total : Int) :
    ∀ (ms : List Bool) (i : Int) (keys : List Int), keys.Nodup →
      (collect opts total ms i keys).Nodup
  | [], _, _, h => h
  | m :: ms, i, keys, h => by
    simp only [collect]
    split
    · exact nodup_collect opts total ms _ _ (nodup_markRange _ _ h)
    · exact nodup_collect opts total ms _ _ h

theorem window_iff (lo hi total j : Int) :
    ((if lo < 0 then 0 else lo) ≤ j ∧ j ≤ (if hi ≥ total then total - 1 else hi)) ↔
      (0 ≤ j ∧ j < total ∧ lo ≤ j ∧ j ≤ hi) := by
  split <;> split <;> constructor <;> intro h <;> omega

/-- The keys that the collecting loop adds, when no sum or difference leaves
the range of `int`. -/
theorem mem_collect (opts : grepOptions) (total : Int)
    (hB : -maxContext ≤ opts.beforeContext ∧ opts.beforeContext ≤ maxContext)
    (hA : -maxContext ≤ opts.afterContext ∧ opts.afterContext ≤ maxContext) :
    ∀ (ms : List Bool) (i : Nat) (keys : List Int),
      ((i + ms.length : Nat) : Int) ≤ maxContext → ∀ j,
      (j ∈ collect opts total ms i keys ↔
        j ∈ keys ∨ ∃ k : Nat, ms.get? k = some true ∧ 0 ≤ j ∧ j < total ∧
          ((i + k : Nat) : Int) - opts.beforeContext ≤ j ∧
          j ≤ ((i + k : Nat) : Int) + opts.afterContext)
  | [], i, keys, _, j => by simp [collect]
  | m :: ms, i, keys, hi, j => by
    have hB' := hB
    have hA' := hA
    rw [maxContext_eq] at hB hA hi
    simp only [List.length_cons, Nat.cast_add, Nat.cast_one] at hi
    have hi' : ((i + 1 + ms.length : Nat) : Int) ≤ maxContext := by
      rw [maxContext_eq]
      push_cast
      omega
    have hcast : ((i : Int) + 1) = ((i + 1 : Nat) : Int) := by omega
    have hib : (i : Int) < 4611686018427387904 := by omega
    have ih := fun keys' => mem_collect opts total hB' hA' ms (i + 1) keys' hi' j
    have hshift : (∃ k : Nat, (m :: ms).get? k = some true ∧ 0 ≤ j ∧ j < total ∧
          ((i + k : Nat) : Int) - opts.beforeContext ≤ j ∧
          j ≤ ((i + k : Nat) : Int) + opts.afterContext) ↔
        ((m = true ∧ 0 ≤ j ∧ j < total ∧ (i : Int) - opts.beforeContext ≤ j ∧
          j ≤ (i : Int) + opts.afterContext) ∨
        ∃ k : Nat, ms.get? k = some true ∧ 0 ≤ j ∧ j < total ∧
          ((i + 1 + k : Nat) : Int) - opts.beforeContext ≤ j ∧
          j ≤ ((i + 1 + k : Nat) : Int) + opts.afterContext) := by
      constructor
      · rintro ⟨k, hk, h⟩
        cases k with
        | zero =>
          left
          simp only [List.get?_cons_zero, Option.some.injEq] at hk
          exact ⟨hk, by simpa using h⟩
        | succ k =>
          right
          refine ⟨k, by simpa using hk, ?_⟩
          rw [show i + 1 + k = i + (k + 1) by omega]
          exact h
      · rintro (⟨hm, h⟩ | ⟨k, hk, h⟩)
        · exact ⟨0, by simp [hm], by simpa using h⟩
        · refine ⟨k + 1, by simpa using hk, ?_⟩
          rw [show i + (k + 1) = i + 1 + k by omega]
          exact h
    rw [hshift]
    simp only [collect]
    have hw1 : wrapInt ((i : Int) - opts.beforeContext) = (i : Int) - opts.beforeContext :=
      wrapInt_eq (by omega) (by omega)
    have hw2 : wrapInt ((i : Int) + opts.afterContext) = (i : Int) + opts.afterContext :=
      wrapInt_eq (by omega) (by omega)
    cases m with
    | false =>
      simp only [Bool.false_eq_true, if_false, false_and, false_or, hcast]
      exact ih keys
    | true =>
      simp only [if_true, hcast, hw1, hw2, true_and]
      rw [ih, mem_markRange]
      rw [window_iff]
      clear hB hA hi hib hw1 hw2 hB' hA' hi' ih hshift hcast
      tauto

theorem printedIndices_printLoop (opts : grepOptions) (lines : List Str) (matching : List Bool)
    (filename : Str) (filePrefixed : Bool) :
    ∀ (indices : List Int) (prevEnd : Int),
      printedIndices (printLoop opts lines matching filename filePrefixed indices prevEnd) =
        indices
  | [], _ => rfl
  | idx :: rest, prevEnd => by
    simp only [printLoop, printedIndices, List.filterMap_append, List.filterMap_cons]
    have ih := printedIndices_printLoop opts lines matching filename filePrefixed rest
    simp only [printedIndices] at ih
    rw [ih]
    split <;> simp

/-! ## C29: the lines that are printed -/

theorem length_matchingLines (matchFn : Str → Bool) (opts : grepOptions) (lines : List Str) :
    (matchingLines matchFn opts lines).length = lines.length := by
  simp [matchingLines]

/-- What holds of C29. For context sizes and a number of lines up to
`maxContext`, without `-c` and in whatever order the map is visited, the
indices of the lines `grep` prints are strictly increasing and are exactly the
indices in the context of a selected line. -/
theorem grep_prints_context (order : List Int → List Int) (horder : ∀ l, (order l).Perm l)
    (matchFn : Str → Bool) (opts : grepOptions) (filename : Str) (filePrefixed : Bool)
    (lines : List Str) (hc : opts.countOnly = false)
    (hB : -maxContext ≤ opts.beforeContext ∧ opts.beforeContext ≤ maxContext)
    (hA : -maxContext ≤ opts.afterContext ∧ opts.afterContext ≤ maxContext)
    (hn : (lines.length : Int) ≤ maxContext) :
    (printedIndices (grep order matchFn opts filename filePrefixed lines).2).Pairwise (· < ·) ∧
    ∀ j, j ∈ printedIndices (grep order matchFn opts filename filePrefixed lines).2 ↔
      inContext (matchingLines matchFn opts lines) opts.beforeContext opts.afterContext j := by
  have hlen := length_matchingLines matchFn opts lines
  simp only [grep, hc, Bool.false_eq_true, if_false]
  split
  · next h0 =>
    have hno : ∀ i : Nat, (matchingLines matchFn opts lines).get? i ≠ some true := by
      intro i hi
      have hm : true ∈ matchingLines matchFn opts lines := mem_of_get?_eq hi
      exact absurd (List.count_pos_iff.2 hm) (by omega)
    refine ⟨by simp [printedIndices], fun j => ?_⟩
    simp only [printedIndices, List.filterMap_nil, List.not_mem_nil, false_iff, inContext]
    rintro ⟨-, -, i, hi, -⟩
    exact hno i hi
  · simp only [printedIndices_printLoop]
    obtain ⟨hperm, hsorted⟩ := sortInts_sorted
      (order (collect opts lines.length (matchingLines matchFn opts lines) 0 []))
    have hp := hperm.trans (horder _)
    have hnd : (collect opts lines.length (matchingLines matchFn opts lines) 0 []).Nodup :=
      nodup_collect _ _ _ _ _ List.nodup_nil
    have hnd' := hp.nodup_iff.2 hnd
    refine ⟨(hsorted.and hnd').imp (fun h => lt_of_le_of_ne h.1 h.2), fun j => ?_⟩
    rw [hp.mem_iff]
    have hm := mem_collect opts lines.length hB hA (matchingLines matchFn opts lines) 0 []
      (by rw [hlen]; simpa using hn) j
    rw [show ((0 : Nat) : Int) = 0 from rfl] at hm
    rw [hm]
    simp only [List.not_mem_nil, false_or, inContext, hlen, Nat.zero_add]
    constructor
    · rintro ⟨k, hk, h0, h1, h2, h3⟩
      exact ⟨h0, h1, k, hk, h2, h3⟩
    · rintro ⟨h0, h1, k, hk, h2, h3⟩
      exact ⟨k, hk, h0, h1, h2, h3⟩

/-- C29 (fails on the code). With `-A 9223372036854775807` and the lines `x`,
`a`, `y`, the line `a` at index 1 is selected, but `1 + afterContext` is out
of the range of `int` and comes out negative: the loop over the context is
empty and no line is printed, the selected line included, in whatever order
the map is visited. -/
theorem after_context_overflows (order : List Int → List Int)
    (horder : ∀ l, (order l).Perm l) :
    printedIndices (grep order (fun l => contains l ['a']) (contextOptions 0 (2 ^ 63 - 1))
        ['-'] false ["x".toList, "a".toList, "y".toList]).2 = [] ∧
    inContext (matchingLines (fun l => contains l ['a']) (contextOptions 0 (2 ^ 63 - 1))
        ["x".toList, "a".toList, "y".toList]) 0 (2 ^ 63 - 1) 1 := by
  constructor
  · have hk : collect (contextOptions 0 (2 ^ 63 - 1)) 3
        (matchingLines (fun l => contains l ['a']) (contextOptions 0 (2 ^ 63 - 1))
          ["x".toList, "a".toList, "y".toList]) 0 [] = [] := by decide
    have ho : order [] = [] := List.perm_nil.1 (horder [])
    have hm : (matchingLines (fun l => contains l ['a']) (contextOptions 0 (2 ^ 63 - 1))
        ["x".toList, "a".toList, "y".toList]).count true = 1 := by decide
    simp only [grep, hm]
    have hl : (["x".toList, "a".toList, "y".toList] : List Str).length = 3 := rfl
    simp only [hl, Nat.cast_ofNat, hk, ho]
    rfl
  · exact ⟨by decide, by decide, 1, by decide, by decide, by decide⟩

/-- C29 with the iteration of the map in the order of insertion. -/
theorem after_context_overflows_witness :
    printedIndices (grep id (fun l => contains l ['a']) (contextOptions 0 (2 ^ 63 - 1))
        ['-'] false ["x".toList, "a".toList, "y".toList]).2 = [] ∧
    inContext (matchingLines (fun l => contains l ['a']) (contextOptions 0 (2 ^ 63 - 1))
        ["x".toList, "a".toList, "y".toList]) 0 (2 ^ 63 - 1) 1 :=
  after_context_overflows id (fun l => List.Perm.refl l)

end GrepUtil
